import Mathlib

/-!
# B-tree of minimum degree t (btree.h): shallow embedding

The C++ classes `Entry`, `BTreeNode` and `BTree` of `src/btree.h` are embedded as
pure Lean data, each member function as a Lean function of the same name.

Conventions of the embedding:

* A node owns its entry vector and its child vector. `std::vector` becomes `List`,
  a `shared_ptr` child becomes the child node itself (a value), and a member
  function that mutates `this` returns the new node. The source never holds one child
  under two parents except after `borrowEntryFromPrevChild` on internal siblings, which
  copies the pointer of the donor's last child and never erases it from the donor; the
  embedding then holds the child twice, with what the call has made of it, which is
  what the source shows until the node is mutated again through one of the two.
* Every vector access of the source that is only defined inside the bounds of the
  vector is checked: outside the bounds the function stops with `Err.outOfBounds`.
  Dereferencing the null root stops with `Err.nullDeref`. Using a reference into a
  vector after an insertion that had to move the vector stops with `Err.danglingRef`.
* `m_t` is an `int` of 32 bits. The constructor of a node computes `2 * t - 1` and
  `2 * t` in `int` and passes them to `reserve`; the values are taken modulo `2^32`
  (`wrapInt`), and a negative one, which is what every `t <= 0` and every
  `t >= 2^30 = 1073741824` gives, makes `reserve` throw: `Err.lengthError`.
* `m_t` is the same number in every node of a tree (a node is only ever created with
  the `m_t` of the tree or of its sibling), so the node functions take it as the
  parameter `t`, the `toNat` of the `int` of the tree. The comparison
  `n == 2 * m_t - 1` of `insertToNonFull` is written `n + 1 = 2 * t`, so that no
  truncated subtraction occurs, and an index `m_t - 1` is formed by `idxPred`, which
  fails when `m_t` is not positive. In the node functions `2 * t` is the exact product;
  it is the value of the `int` expression for `t < 2^30`, which holds in every node the
  constructor has made. `BTree::insert` makes the comparison on the `int` of the tree,
  with `wrapInt`.
* The recursive member functions descend one level per call. They take a `fuel`
  argument bounding the depth of the descent; the `BTree` operations pass the height
  of the root. Running out of fuel is `Err.outOfFuel`.
* Printing to `cout` is left out.
-/

/-- Ways in which an operation of the source fails to produce a result. -/
inductive Err where
  | outOfBounds
  | nullDeref
  | lengthError
  | outOfFuel
  | danglingRef
deriving DecidableEq

deriving instance DecidableEq for Except

/-- Class `Entry`: an owned key-value pair. -/
structure Entry (K V : Type) where
  m_Key : K
  m_Value : V
deriving DecidableEq

/-- Class `BTreeNode` without `m_t` (see the conventions above): the leaf flag, the
entries and the children. -/
inductive BTreeNode (K V : Type) where
  | mk (m_isLeaf : Bool) (m_Entries : List (Entry K V)) (m_Children : List (BTreeNode K V))

mutual
/-- Equality of nodes can be checked when equality of keys and values can. -/
def BTreeNode.decEq {K V : Type} [DecidableEq K] [DecidableEq V] :
    (a b : BTreeNode K V) → Decidable (a = b)
  | .mk l1 e1 c1, .mk l2 e2 c2 =>
    if hl : l1 = l2 then
      if he : e1 = e2 then
        match BTreeNode.decEqList c1 c2 with
        | isTrue hc => isTrue (by rw [hl, he, hc])
        | isFalse hc => isFalse (fun h => hc (by injection h))
      else isFalse (fun h => he (by injection h))
    else isFalse (fun h => hl (by injection h))
/-- Equality of lists of nodes can be checked when equality of keys and values can. -/
def BTreeNode.decEqList {K V : Type} [DecidableEq K] [DecidableEq V] :
    (a b : List (BTreeNode K V)) → Decidable (a = b)
  | [], [] => isTrue rfl
  | [], _ :: _ => isFalse (fun h => List.noConfusion h)
  | _ :: _, [] => isFalse (fun h => List.noConfusion h)
  | a :: as, b :: bs =>
    match BTreeNode.decEq a b with
    | isTrue h1 =>
      match BTreeNode.decEqList as bs with
      | isTrue h2 => isTrue (by rw [h1, h2])
      | isFalse h2 => isFalse (fun h => h2 (by injection h))
    | isFalse h1 => isFalse (fun h => h1 (by injection h))
end

instance {K V : Type} [DecidableEq K] [DecidableEq V] : DecidableEq (BTreeNode K V) :=
  BTreeNode.decEq

/-- Class `BTree`: the minimum degree and the root, `none` for the null root. -/
structure BTree (K V : Type) where
  m_t : Int
  m_Root : Option (BTreeNode K V)
deriving DecidableEq

/-! ## Vector operations with the bounds the C++ standard library requires -/

/-- Read `v[i]`. -/
def vecGet {α : Type} (v : List α) (i : Nat) : Except Err α :=
  match v[i]? with
  | some a => .ok a
  | none => .error .outOfBounds

/-- Assign `v[i] = a`. -/
def vecSet {α : Type} (v : List α) (i : Nat) (a : α) : Except Err (List α) :=
  if i < v.length then .ok (v.set i a) else .error .outOfBounds

/-- Insert before position `i`: `v.insert(v.begin() + i, a)`; `i` may be `v.size()`. -/
def vecInsert {α : Type} (v : List α) (i : Nat) (a : α) : Except Err (List α) :=
  if i ≤ v.length then .ok (v.take i ++ a :: v.drop i) else .error .outOfBounds

/-- Erase one element: `v.erase(v.begin() + i)`. -/
def vecErase {α : Type} (v : List α) (i : Nat) : Except Err (List α) :=
  if i < v.length then .ok (v.eraseIdx i) else .error .outOfBounds

/-- Erase the tail: `v.erase(v.begin() + i, v.end())`. -/
def vecEraseFrom {α : Type} (v : List α) (i : Nat) : Except Err (List α) :=
  if i ≤ v.length then .ok (v.take i) else .error .outOfBounds

/-- The copy loop `for (i = 0; i < count; i++) dst.push_back(src[i + start])`: the
elements pushed, provided every `src[i + start]` read is inside `src`. -/
def vecCopy {α : Type} (src : List α) (start count : Nat) : Except Err (List α) :=
  if count = 0 ∨ start + count ≤ src.length then .ok ((src.drop start).take count)
  else .error .outOfBounds

/-- The index `i - 1` of the source, which is only a valid index when `i` is positive. -/
def idxPred (i : Nat) : Except Err Nat :=
  match i with
  | 0 => .error .outOfBounds
  | j + 1 => .ok j

/-- The value of an expression of type `int`: the integer taken modulo `2^32` into the
range from `-2^31` to `2^31 - 1`. -/
def wrapInt (x : Int) : Int := (x + 2147483648) % 4294967296 - 2147483648

/-- A call `reserve(n)` with an `int` argument: the argument is converted to the unsigned
size type, so a negative `n` asks for more than `max_size()` and `length_error` is
thrown. -/
def reserve (n : Int) : Except Err Unit :=
  if 0 ≤ n then .ok () else .error .lengthError

/-- The body of the constructor `BTreeNode(t, isLeaf)`: `m_Entries.reserve(2 * t - 1)` and
`m_Children.reserve(2 * t)`, whose arguments are computed in `int`. For `t <= 0` the first
is negative; for `2^30 <= t < 2^31` the second is, the product having wrapped. -/
def reserveNode (t : Int) : Except Err Unit := do
  reserve (wrapInt (2 * t - 1))
  reserve (wrapInt (2 * t))

/-- A reference to an element of a vector of size `len`, taken before one element is
inserted behind it, with `cap` places reserved for the vector: the insertion takes a free
place when there is one and leaves the element where it is; with all places taken the
vector moves and the reference is left dangling. -/
def refAfterInsert (len cap : Nat) : Except Err Unit :=
  if len < cap then .ok () else .error .danglingRef

namespace BTreeNode

variable {K V : Type}

/-- Field `m_isLeaf`. -/
def m_isLeaf : BTreeNode K V → Bool
  | mk l _ _ => l

/-- Field `m_Entries`. -/
def m_Entries : BTreeNode K V → List (Entry K V)
  | mk _ es _ => es

/-- Field `m_Children`. -/
def m_Children : BTreeNode K V → List (BTreeNode K V)
  | mk _ _ cs => cs

/-- Member `nEntries()`. -/
def nEntries (n : BTreeNode K V) : Nat := n.m_Entries.length

/-- Member `nChildren()`. -/
def nChildren (n : BTreeNode K V) : Nat := n.m_Children.length

/-- The node with its entry vector replaced. -/
def withEntries (n : BTreeNode K V) (es : List (Entry K V)) : BTreeNode K V :=
  mk n.m_isLeaf es n.m_Children

/-- The node with its child vector replaced. -/
def withChildren (n : BTreeNode K V) (cs : List (BTreeNode K V)) : BTreeNode K V :=
  mk n.m_isLeaf n.m_Entries cs

/-- The node after the child at index `i` has been mutated into `c`. -/
def withChild (n : BTreeNode K V) (i : Nat) (c : BTreeNode K V) : BTreeNode K V :=
  mk n.m_isLeaf n.m_Entries (n.m_Children.set i c)

mutual
/-- Number of levels below and including this node (the longest path of children). -/
def height : BTreeNode K V → Nat
  | mk _ _ cs => heightList cs + 1
/-- Largest height among a list of nodes, 0 for the empty list. -/
def heightList : List (BTreeNode K V) → Nat
  | [] => 0
  | c :: cs => max (height c) (heightList cs)
end

mutual
/-- Member `getAllEntries()`: in-order traversal. A leaf returns its entries. An internal
node runs `i` over `0 .. nEntries()`, appending the traversal of `m_Children[i]` and then,
when `i < nEntries()`, the entry `m_Entries[i]`. -/
def getAllEntries : BTreeNode K V → Except Err (List (Entry K V))
  | mk true es _ => .ok es
  | mk false es cs => getAllEntriesLoop es cs
/-- The loop of `getAllEntries` over the entries and children not yet visited. -/
def getAllEntriesLoop : List (Entry K V) → List (BTreeNode K V) → Except Err (List (Entry K V))
  | _, [] => .error .outOfBounds
  | [], c :: _ => getAllEntries c
  | e :: es, c :: cs =>
    match getAllEntries c with
    | .error x => .error x
    | .ok r =>
      match getAllEntriesLoop es cs with
      | .error x => .error x
      | .ok rest => .ok (r ++ e :: rest)
end

section Ops

variable [LinearOrder K]

/-- The loop `i = 0; while (i < nEntries() && key > m_Entries[i].m_Key) i++` of
`getIdxForKey` and `getValuePtr`: the first index whose key is not less than `key`. -/
def idxForKey (key : K) : List (Entry K V) → Nat
  | [] => 0
  | e :: es => if key > e.m_Key then idxForKey key es + 1 else 0

/-- Member `getIdxForKey(key)`. -/
def getIdxForKey (n : BTreeNode K V) (key : K) : Nat := idxForKey key n.m_Entries

/-- The loop `i = nEntries() - 1; while (i >= 0 && m_Entries[i].m_Key > key) i--` of
`insertToNonFull`, returning `i + 1`: what is left after the entries with a greater key
have been skipped from the right. -/
def idxForInsert (key : K) (es : List (Entry K V)) : Nat :=
  (es.reverse.dropWhile (fun e => decide (e.m_Key > key))).length

/-- Member `splitChild(fullChildIdx)`. The source keeps the reference `fullChild` to the
slot `m_Children[fullChildIdx]` across the insertion of the new child behind it and uses
it afterwards. The constructor of the node has reserved `2t` places for the children, so
the slot stays where it is in a node with at most `2t - 1` children; in a node that holds
`2t` children already the insertion moves the vector and the use of `fullChild` that
follows is the use of a dangling reference. The new child is made by the constructor
`BTreeNode(m_t, isLeaf)`, with its two `reserve` calls. -/
def splitChild (t : Nat) (n : BTreeNode K V) (fullChildIdx : Nat) :
    Except Err (BTreeNode K V) := do
  let fullChild ← vecGet n.m_Children fullChildIdx
  -- the constructor of newChild
  reserveNode t
  -- last t-1 entries, from index t, go to newChild
  let newEntries ← vecCopy fullChild.m_Entries t (t - 1)
  let keptEntries ← vecEraseFrom fullChild.m_Entries t
  -- last t children go to newChild
  let newChildren ←
    if fullChild.m_isLeaf then pure [] else vecCopy fullChild.m_Children t t
  let keptChildren ←
    if fullChild.m_isLeaf then pure fullChild.m_Children
    else vecEraseFrom fullChild.m_Children t
  let newChild := mk fullChild.m_isLeaf newEntries newChildren
  let children ← vecInsert n.m_Children (fullChildIdx + 1) newChild
  -- fullChild is used again below
  refAfterInsert n.m_Children.length (2 * t)
  -- the middle entry, at index t-1, goes up
  let tm ← idxPred t
  let middle ← vecGet keptEntries tm
  let entries ← vecInsert n.m_Entries fullChildIdx middle
  let keptEntries ← vecErase keptEntries tm
  pure (mk n.m_isLeaf entries
    (children.set fullChildIdx (mk fullChild.m_isLeaf keptEntries keptChildren)))

/-- Member `insertToNonFull(key, value)`. -/
def insertToNonFull (t : Nat) (key : K) (value : V) :
    Nat → BTreeNode K V → Except Err (BTreeNode K V)
  | 0, _ => .error .outOfFuel
  | fuel + 1, n =>
    let i1 := idxForInsert key n.m_Entries
    if n.m_isLeaf then
      .ok (n.withEntries (n.m_Entries.take i1 ++ ⟨key, value⟩ :: n.m_Entries.drop i1))
    else do
      let child ← vecGet n.m_Children i1
      if child.nEntries + 1 = 2 * t then do
        let n ← splitChild t n i1
        let e ← vecGet n.m_Entries i1
        let i1 := if key > e.m_Key then i1 + 1 else i1
        let child ← vecGet n.m_Children i1
        let child ← insertToNonFull t key value fuel child
        pure (n.withChild i1 child)
      else do
        let child ← insertToNonFull t key value fuel child
        pure (n.withChild i1 child)

/-- Member `getValuePtr(key)`: `some v` for a pointer to a stored value `v`, `none` for
the null pointer. -/
def getValuePtr (key : K) : Nat → BTreeNode K V → Except Err (Option V)
  | 0, _ => .error .outOfFuel
  | fuel + 1, n =>
    let i := idxForKey key n.m_Entries
    match n.m_Entries[i]? with
    | some e =>
      if e.m_Key = key then .ok (some e.m_Value)
      else if n.m_isLeaf then .ok none
      else do
        let child ← vecGet n.m_Children i
        getValuePtr key fuel child
    | none =>
      if n.m_isLeaf then .ok none
      else do
        let child ← vecGet n.m_Children i
        getValuePtr key fuel child

/-- The assignment `*p = value` through the pointer `p` that `getValuePtr(key)` returns:
the same search, and the value of the entry found is replaced. Where `getValuePtr`
returns the null pointer nothing is written. -/
def storeValue (key : K) (value : V) : Nat → BTreeNode K V → Except Err (BTreeNode K V)
  | 0, _ => .error .outOfFuel
  | fuel + 1, n =>
    let i := idxForKey key n.m_Entries
    match n.m_Entries[i]? with
    | some e =>
      if e.m_Key = key then .ok (n.withEntries (n.m_Entries.set i ⟨e.m_Key, value⟩))
      else if n.m_isLeaf then .ok n
      else do
        let child ← vecGet n.m_Children i
        let child ← storeValue key value fuel child
        pure (n.withChild i child)
    | none =>
      if n.m_isLeaf then .ok n
      else do
        let child ← vecGet n.m_Children i
        let child ← storeValue key value fuel child
        pure (n.withChild i child)

/-- Member `removeFromLeaf(idx)`. -/
def removeFromLeaf (n : BTreeNode K V) (idx : Nat) : Except Err (BTreeNode K V) := do
  let es ← vecErase n.m_Entries idx
  pure (n.withEntries es)

/-- The loop of `getPredEntry`: move to the last child until a leaf is reached, return
its last entry. -/
def lastEntry : Nat → BTreeNode K V → Except Err (Entry K V)
  | 0, _ => .error .outOfFuel
  | fuel + 1, cur =>
    if cur.m_isLeaf then do
      let i ← idxPred cur.nEntries
      vecGet cur.m_Entries i
    else do
      let c ← vecGet cur.m_Children cur.nEntries
      lastEntry fuel c

/-- The loop of `getSuccEntry`: move to the first child until a leaf is reached, return
its first entry. -/
def firstEntry : Nat → BTreeNode K V → Except Err (Entry K V)
  | 0, _ => .error .outOfFuel
  | fuel + 1, cur =>
    if cur.m_isLeaf then vecGet cur.m_Entries 0
    else do
      let c ← vecGet cur.m_Children 0
      firstEntry fuel c

/-- Member `getPredEntry(idx)`. -/
def getPredEntry (fuel : Nat) (n : BTreeNode K V) (idx : Nat) : Except Err (Entry K V) := do
  let cur ← vecGet n.m_Children idx
  lastEntry fuel cur

/-- Member `getSuccEntry(idx)`. -/
def getSuccEntry (fuel : Nat) (n : BTreeNode K V) (idx : Nat) : Except Err (Entry K V) := do
  let cur ← vecGet n.m_Children (idx + 1)
  firstEntry fuel cur

/-- Member `mergeWithNextChild(idx)`. -/
def mergeWithNextChild (t : Nat) (n : BTreeNode K V) (idx : Nat) :
    Except Err (BTreeNode K V) := do
  let child ← vecGet n.m_Children idx
  let next ← vecGet n.m_Children (idx + 1)
  -- the entry of this node goes to position t-1 of the child
  let pivot ← vecGet n.m_Entries idx
  let tm ← idxPred t
  let childEntries ← vecInsert child.m_Entries tm pivot
  let entries ← vecErase n.m_Entries idx
  -- the entries of next are appended
  let childEntries := childEntries ++ next.m_Entries
  -- the children 0 .. next.nEntries() of next are appended
  let childChildren ←
    if child.m_isLeaf then pure child.m_Children
    else do
      let moved ← vecCopy next.m_Children 0 (next.nEntries + 1)
      pure (child.m_Children ++ moved)
  let children ← vecErase n.m_Children (idx + 1)
  pure (mk n.m_isLeaf entries
    (children.set idx (mk child.m_isLeaf childEntries childChildren)))

/-- Member `borrowEntryFromNextChild(idx)`. -/
def borrowEntryFromNextChild (n : BTreeNode K V) (idx : Nat) :
    Except Err (BTreeNode K V) := do
  let dest ← vecGet n.m_Children idx
  let next ← vecGet n.m_Children (idx + 1)
  let pivot ← vecGet n.m_Entries idx
  let destEntries := dest.m_Entries ++ [pivot]
  let destChildren ←
    if dest.m_isLeaf then pure dest.m_Children
    else do
      let c ← vecGet next.m_Children 0
      pure (dest.m_Children ++ [c])
  let first ← vecGet next.m_Entries 0
  let entries ← vecSet n.m_Entries idx first
  let nextEntries ← vecErase next.m_Entries 0
  let nextChildren ←
    if next.m_isLeaf then pure next.m_Children else vecErase next.m_Children 0
  pure (mk n.m_isLeaf entries
    ((n.m_Children.set idx (mk dest.m_isLeaf destEntries destChildren)).set (idx + 1)
      (mk next.m_isLeaf nextEntries nextChildren)))

/-- Member `borrowEntryFromPrevChild(idx)`. The call `prev->remove(..)` of the source is
the parameter `rm`. The pointer to the last child of `prev` is copied to the front of the
children of `dest`; nothing in the source takes it out of `prev`, so `prev` and `dest`
hold the same node from there on. `prev->remove(..)` runs after the copy and may change
that node (it takes the successor out of it when the child before it holds fewer than `t`
entries); `dest` then has the node as `prev` has it behind its last entry when the call
returns. -/
def borrowEntryFromPrevChild (rm : K → BTreeNode K V → Except Err (BTreeNode K V))
    (n : BTreeNode K V) (idx : Nat) : Except Err (BTreeNode K V) := do
  let dest ← vecGet n.m_Children idx
  let im ← idxPred idx
  let prev ← vecGet n.m_Children im
  let pivot ← vecGet n.m_Entries im
  let destEntries := pivot :: dest.m_Entries
  let destChildren ←
    if dest.m_isLeaf then pure dest.m_Children
    else do
      let c ← vecGet prev.m_Children prev.nEntries
      pure (c :: dest.m_Children)
  let pl ← idxPred prev.nEntries
  let last ← vecGet prev.m_Entries pl
  let entries ← vecSet n.m_Entries im last
  let prev ← rm last.m_Key prev
  -- the node moved, as prev->remove has left it
  let destChildren :=
    match dest.m_isLeaf, prev.m_Children[prev.nEntries]? with
    | false, some c => c :: dest.m_Children
    | _, _ => destChildren
  pure (mk n.m_isLeaf entries
    ((n.m_Children.set idx (mk dest.m_isLeaf destEntries destChildren)).set im prev))

/-- Member `fillChild(idx)`. -/
def fillChild (rm : K → BTreeNode K V → Except Err (BTreeNode K V)) (t : Nat)
    (n : BTreeNode K V) (idx : Nat) : Except Err (BTreeNode K V) := do
  let prevHasSpare ←
    if idx ≠ 0 then do
      let prev ← vecGet n.m_Children (idx - 1)
      pure (decide (prev.nEntries ≥ t))
    else pure false
  if prevHasSpare then borrowEntryFromPrevChild rm n idx
  else do
    let nextHasSpare ←
      if idx ≠ n.nEntries then do
        let next ← vecGet n.m_Children (idx + 1)
        pure (decide (next.nEntries ≥ t))
      else pure false
    if nextHasSpare then borrowEntryFromNextChild n idx
    else if idx ≠ n.nEntries then mergeWithNextChild t n idx
    else do
      let im ← idxPred idx
      mergeWithNextChild t n im

/-- The test `idx != 0 && m_Children[idx - 1]->nEntries() >= m_t` of `fillChild`: there
is a previous child and it can give an entry away. -/
def prevHasSpare (t : Nat) (n : BTreeNode K V) (idx : Nat) : Bool :=
  idx != 0 &&
    match n.m_Children[idx - 1]? with
    | some prev => decide (prev.nEntries ≥ t)
    | none => false

/-- The test `idx != nEntries() && m_Children[idx + 1]->nEntries() >= m_t` of `fillChild`:
there is a next child and it can give an entry away. -/
def nextHasSpare (t : Nat) (n : BTreeNode K V) (idx : Nat) : Bool :=
  idx != n.nEntries &&
    match n.m_Children[idx + 1]? with
    | some next => decide (next.nEntries ≥ t)
    | none => false

/-- Member `removeFromNonLeaf(idx)`. The calls `m_Children[..]->remove(..)` of the source
are the parameter `rm`; `fuel` bounds the loops of `getPredEntry` and `getSuccEntry`. -/
def removeFromNonLeaf (rm : K → BTreeNode K V → Except Err (BTreeNode K V)) (fuel : Nat)
    (t : Nat) (n : BTreeNode K V) (idx : Nat) : Except Err (BTreeNode K V) := do
  let child ← vecGet n.m_Children idx
  if child.nEntries ≥ t then do
    let predEntry ← getPredEntry fuel n idx
    let entries ← vecSet n.m_Entries idx predEntry
    let child ← rm predEntry.m_Key child
    pure (mk n.m_isLeaf entries (n.m_Children.set idx child))
  else do
    let next ← vecGet n.m_Children (idx + 1)
    if next.nEntries ≥ t then do
      let succEntry ← getSuccEntry fuel n idx
      let entries ← vecSet n.m_Entries idx succEntry
      let next ← rm succEntry.m_Key next
      pure (mk n.m_isLeaf entries (n.m_Children.set (idx + 1) next))
    else do
      let n ← mergeWithNextChild t n idx
      -- the source reads m_Entries[idx] here, after the merge has erased the entry
      let e ← vecGet n.m_Entries idx
      let child ← vecGet n.m_Children idx
      let child ← rm e.m_Key child
      pure (n.withChild idx child)

/-- Member `remove(key)`. -/
def remove (t : Nat) : Nat → K → BTreeNode K V → Except Err (BTreeNode K V)
  | 0, _, _ => .error .outOfFuel
  | fuel + 1, key, n =>
    let keyIdx := idxForKey key n.m_Entries
    let found :=
      match n.m_Entries[keyIdx]? with
      | some e => decide (e.m_Key = key)
      | none => false
    if found then
      if n.m_isLeaf then removeFromLeaf n keyIdx
      else removeFromNonLeaf (remove t fuel) fuel t n keyIdx
    else if n.m_isLeaf then .ok n
    else do
      let searchKeyInLastChild := decide (keyIdx = n.nEntries)
      let child ← vecGet n.m_Children keyIdx
      let n ← if child.nEntries < t then fillChild (remove t fuel) t n keyIdx else pure n
      if searchKeyInLastChild && decide (keyIdx > n.nEntries) then do
        let child ← vecGet n.m_Children (keyIdx - 1)
        let child ← remove t fuel key child
        pure (n.withChild (keyIdx - 1) child)
      else do
        let child ← vecGet n.m_Children keyIdx
        let child ← remove t fuel key child
        pure (n.withChild keyIdx child)

end Ops

end BTreeNode

namespace BTree

variable {K V : Type}

/-- Constructor `BTreeNode(t, isLeaf)`: an empty node, once the two `reserve` calls have
returned. -/
def newNode (t : Int) (isLeaf : Bool) : Except Err (BTreeNode K V) := do
  reserveNode t
  pure (BTreeNode.mk isLeaf [] [])

section Ops

variable [LinearOrder K]

/-- Member `BTree::insert(key, value)`. -/
def insert (T : BTree K V) (key : K) (value : V) : Except Err (BTree K V) :=
  match T.m_Root with
  | none => do
    let root ← newNode T.m_t true
    pure ⟨T.m_t, some (root.withEntries (root.m_Entries ++ [⟨key, value⟩]))⟩
  | some root =>
    if (root.nEntries : Int) = wrapInt (2 * T.m_t - 1) then do
      let newRoot ← newNode T.m_t false
      let newRoot := newRoot.withChildren (newRoot.m_Children ++ [root])
      let newRoot ← BTreeNode.splitChild T.m_t.toNat newRoot 0
      let e ← vecGet newRoot.m_Entries 0
      let i := if key > e.m_Key then 1 else 0
      let child ← vecGet newRoot.m_Children i
      let child ← BTreeNode.insertToNonFull T.m_t.toNat key value root.height child
      pure ⟨T.m_t, some (newRoot.withChild i child)⟩
    else do
      let root ← BTreeNode.insertToNonFull T.m_t.toNat key value root.height root
      pure ⟨T.m_t, some root⟩

/-- Member `BTree::getValuePtr(key)`. -/
def getValuePtr (T : BTree K V) (key : K) : Except Err (Option V) :=
  match T.m_Root with
  | none => .ok none
  | some root => root.getValuePtr key root.height

/-- Member `BTree::set(key, value)`. -/
def set (T : BTree K V) (key : K) (value : V) : Except Err (BTree K V) := do
  let pCrtValue ← T.getValuePtr key
  match pCrtValue with
  | some _ =>
    match T.m_Root with
    | none => .error .nullDeref
    | some root => do
      let root ← root.storeValue key value root.height
      pure ⟨T.m_t, some root⟩
  | none => T.insert key value

/-- Member `BTree::get(key)`: `some v` for the value, `none` for `std::nullopt`. -/
def get (T : BTree K V) (key : K) : Except Err (Option V) :=
  T.getValuePtr key

/-- Member `BTree::remove(key)`. -/
def remove (T : BTree K V) (key : K) : Except Err (BTree K V) :=
  match T.m_Root with
  | none => .ok T
  | some root => do
    let root ← BTreeNode.remove T.m_t.toNat root.height key root
    if root.nEntries = 0 then
      if root.m_isLeaf then pure ⟨T.m_t, none⟩
      else do
        let c ← vecGet root.m_Children 0
        pure ⟨T.m_t, some c⟩
    else pure ⟨T.m_t, some root⟩

end Ops

/-- Member `BTree::getAllEntries()`: it dereferences the root without a null check. -/
def getAllEntries (T : BTree K V) : Except Err (List (Entry K V)) :=
  match T.m_Root with
  | none => .error .nullDeref
  | some root => root.getAllEntries

end BTree

/-! ## Invariants of the data model -/

namespace BTreeNode

variable {K V : Type}

mutual
/-- The entries of a subtree in traversal order: child, entry, child, entry, ..., child.
This is the sequence `getAllEntries` returns on a well-shaped node. -/
def inorder : BTreeNode K V → List (Entry K V)
  | mk _ es cs => inorderZip es cs
/-- Interleaving of the traversals of the children with the entries. -/
def inorderZip : List (Entry K V) → List (BTreeNode K V) → List (Entry K V)
  | es, [] => es
  | [], c :: _ => inorder c
  | e :: es, c :: cs => inorder c ++ e :: inorderZip es cs
end

/-- The part of the traversal made of `child, entry` pairs. -/
def preZip : List (Entry K V) → List (BTreeNode K V) → List (Entry K V)
  | e :: es, c :: cs => inorder c ++ e :: preZip es cs
  | _, _ => []

/-- The part of the traversal that follows a child: `entry, child, ..., entry, child`. -/
def sufZip : List (Entry K V) → List (BTreeNode K V) → List (Entry K V)
  | [], _ => []
  | e :: es, cs => e :: inorderZip es cs

/-- The keys of a sequence of entries. -/
def keys (es : List (Entry K V)) : List K := es.map Entry.m_Key

/-- Size and balance invariant of the subtree under a node whose leaves are `h` levels
below it: a node `h = 0` levels above the leaves is a leaf and has no children, a node
higher up is internal and has one child more than entries; the node holds between `lo` and
`2t-1` entries and every node below it between `t-1` and `2t-1`. The root has `lo = 1`. -/
def Shaped (t : Nat) : Nat → Nat → BTreeNode K V → Prop
  | lo, 0, n =>
    n.m_isLeaf = true ∧ n.m_Children = [] ∧ lo ≤ n.nEntries ∧ n.nEntries ≤ 2 * t - 1
  | lo, h + 1, n =>
    n.m_isLeaf = false ∧ n.m_Children.length = n.nEntries + 1 ∧
    lo ≤ n.nEntries ∧ n.nEntries ≤ 2 * t - 1 ∧ ∀ c ∈ n.m_Children, Shaped t (t - 1) h c

mutual
/-- Size invariant as the specification words it: a node holds between `lo` and `2t-1`
entries, a leaf has no children, an internal node has one child more than entries, and
every child holds between `t-1` and `2t-1` entries and satisfies the same. -/
def SizeInv (t lo : Nat) : BTreeNode K V → Prop
  | mk isLeaf es cs =>
    (lo ≤ es.length ∧ es.length ≤ 2 * t - 1) ∧
    (if isLeaf = true then cs = [] else cs.length = es.length + 1) ∧ SizeInvList t cs
/-- Size invariant for every node of a list of children. -/
def SizeInvList (t : Nat) : List (BTreeNode K V) → Prop
  | [] => True
  | c :: cs => SizeInv t (t - 1) c ∧ SizeInvList t cs
end

/-- Balance: every leaf below the node is exactly `h` levels below it. -/
def Balanced : Nat → BTreeNode K V → Prop
  | 0, n => n.m_isLeaf = true
  | h + 1, n => n.m_isLeaf = false ∧ ∀ c ∈ n.m_Children, Balanced h c

mutual
/-- Data model of a node: a leaf has no children, an internal node has one child more than
entries, and so on in every child. No bound on the number of entries, no balance. -/
def WellShaped : BTreeNode K V → Prop
  | mk isLeaf es cs =>
    (if isLeaf = true then cs = [] else cs.length = es.length + 1) ∧ WellShapedList cs
/-- Every node of a list of children is well-shaped. -/
def WellShapedList : List (BTreeNode K V) → Prop
  | [] => True
  | c :: cs => WellShaped c ∧ WellShapedList cs
end

mutual
/-- Ordering invariant of a B-tree with distinct keys: the keys of a node are strictly
ascending, for every entry `e` at index `j` all keys under `m_Children[j]` are less than
the key of `e` and all keys under `m_Children[j+1]` are greater, and the same holds in
every child. -/
def Ordered [LinearOrder K] : BTreeNode K V → Prop
  | mk _ es cs =>
    (keys es).Pairwise (· < ·) ∧
    (∀ j, j < es.length → ∀ e ∈ es[j]?,
      (∀ c ∈ cs[j]?, ∀ x ∈ inorder c, x.m_Key < e.m_Key) ∧
      (∀ c ∈ cs[j + 1]?, ∀ x ∈ inorder c, e.m_Key < x.m_Key)) ∧
    OrderedList cs
/-- Every node of a list of children satisfies the ordering invariant. -/
def OrderedList [LinearOrder K] : List (BTreeNode K V) → Prop
  | [] => True
  | c :: cs => Ordered c ∧ OrderedList cs
end

/-- Emptiness of a list is decidable without comparing elements. -/
def decNil {α : Type} : (l : List α) → Decidable (l = [])
  | [] => isTrue rfl
  | _ :: _ => isFalse (fun h => List.noConfusion h)

/-- The size and balance invariant can be checked. -/
def decShaped (t : Nat) : (lo h : Nat) → (n : BTreeNode K V) → Decidable (Shaped t lo h n)
  | lo, 0, n =>
    have : Decidable (n.m_Children = []) := decNil n.m_Children
    by unfold Shaped; infer_instance
  | lo, h + 1, n =>
    have : ∀ c, Decidable (Shaped t (t - 1) h c) := fun c => decShaped t (t - 1) h c
    by unfold Shaped; infer_instance

instance (t lo h : Nat) (n : BTreeNode K V) : Decidable (Shaped t lo h n) :=
  decShaped t lo h n

mutual
/-- The data model of a node can be checked. -/
def decWellShaped : (n : BTreeNode K V) → Decidable (WellShaped n)
  | mk isLeaf es cs =>
    have : Decidable (WellShapedList cs) := decWellShapedList cs
    have : Decidable (cs = []) := decNil cs
    by unfold WellShaped; infer_instance
/-- The data model of a list of nodes can be checked. -/
def decWellShapedList : (cs : List (BTreeNode K V)) → Decidable (WellShapedList cs)
  | [] => by unfold WellShapedList; infer_instance
  | c :: cs =>
    have : Decidable (WellShaped c) := decWellShaped c
    have : Decidable (WellShapedList cs) := decWellShapedList cs
    by unfold WellShapedList; infer_instance
end

instance (n : BTreeNode K V) : Decidable (WellShaped n) := decWellShaped n

mutual
/-- The ordering invariant can be checked. -/
def decOrdered [LinearOrder K] : (n : BTreeNode K V) → Decidable (Ordered n)
  | mk isLeaf es cs =>
    have : Decidable (OrderedList cs) := decOrderedList cs
    by unfold Ordered; infer_instance
/-- The ordering invariant of a list of nodes can be checked. -/
def decOrderedList [LinearOrder K] :
    (cs : List (BTreeNode K V)) → Decidable (OrderedList cs)
  | [] => by unfold OrderedList; infer_instance
  | c :: cs =>
    have : Decidable (Ordered c) := decOrdered c
    have : Decidable (OrderedList cs) := decOrderedList cs
    by unfold OrderedList; infer_instance
end

instance [LinearOrder K] (n : BTreeNode K V) : Decidable (Ordered n) := decOrdered n

/-- No refill on the search path of `key`: at every internal node that `remove(key)`
passes on its way down without finding the key, the test
`m_Children[keyIdx]->nEntries() < m_t` is false, `keyIdx` being `getIdxForKey(key)`. -/
def noFillOnPath [LinearOrder K] (t : Nat) (key : K) : Nat → BTreeNode K V → Bool
  | 0, _ => true
  | fuel + 1, n =>
    n.m_isLeaf ||
      match n.m_Children[idxForKey key n.m_Entries]? with
      | some child => !decide (child.nEntries < t) && noFillOnPath t key fuel child
      | none => false

end BTreeNode

namespace BTree

variable {K V : Type}

/-- A well-formed tree of minimum degree `t ≥ 2`: empty, or with a root that satisfies
the size and balance invariants (at least one entry in the root, the leaves `height - 1`
levels below it) and the ordering invariant with distinct keys. -/
def WellFormed [LinearOrder K] (T : BTree K V) : Prop :=
  2 ≤ T.m_t ∧
  ∀ r ∈ T.m_Root, BTreeNode.Shaped T.m_t.toNat 1 (r.height - 1) r ∧ BTreeNode.Ordered r

instance [LinearOrder K] (T : BTree K V) : Decidable (WellFormed T) := by
  unfold WellFormed; infer_instance

/-- The traversal of the tree, empty for the null root. -/
def entries (T : BTree K V) : List (Entry K V) :=
  match T.m_Root with
  | none => []
  | some r => BTreeNode.inorder r

/-- Size and balance invariant of a tree of degree at least 1: the root, if there is one,
satisfies `Shaped` with at least one entry and the leaves `height - 1` levels below it. -/
def Inv (T : BTree K V) : Prop :=
  1 ≤ T.m_t ∧ ∀ r ∈ T.m_Root, BTreeNode.Shaped T.m_t.toNat 1 (r.height - 1) r

instance (T : BTree K V) : Decidable (Inv T) := by
  unfold Inv; infer_instance

/-- A tree of minimum degree `t ≥ 2` that satisfies the size and balance invariants and
whose keys are non-decreasing in traversal order (equal keys may repeat). -/
def WellFormedLe [LinearOrder K] (T : BTree K V) : Prop :=
  2 ≤ T.m_t ∧
  ∀ r ∈ T.m_Root, BTreeNode.Shaped T.m_t.toNat 1 (r.height - 1) r ∧
    (BTreeNode.keys (BTreeNode.inorder r)).Pairwise (· ≤ ·)

instance [LinearOrder K] (T : BTree K V) : Decidable (WellFormedLe T) := by
  unfold WellFormedLe; infer_instance

/-- No refill on the search path of `key` from the root; true for the null root. -/
def noFillOnPath [LinearOrder K] (T : BTree K V) (key : K) : Bool :=
  match T.m_Root with
  | none => true
  | some root => root.noFillOnPath T.m_t.toNat key root.height

/-- The tree a constructor call `BTree(t)` leaves: degree `t`, null root. -/
def empty (t : Int) : BTree K V := ⟨t, none⟩

/-- Constructor `BTree(int t)`: it stores `t` and the null root and has no other
statement, so it returns for every `t`. -/
def construct (t : Int) : Except Err (BTree K V) := .ok (empty t)

/-- One call of the public interface that adds to the tree. -/
inductive Op (K V : Type) where
  | insert (key : K) (value : V)
  | set (key : K) (value : V)

/-- Run one operation. -/
def step [LinearOrder K] (T : BTree K V) : Op K V → Except Err (BTree K V)
  | .insert key value => T.insert key value
  | .set key value => T.set key value

/-- Run a sequence of operations from left to right, stopping at the first failure. -/
def run [LinearOrder K] (T : BTree K V) : List (Op K V) → Except Err (BTree K V)
  | [] => .ok T
  | op :: ops =>
    match T.step op with
    | .ok T' => run T' ops
    | .error e => .error e

end BTree

/-! ## Concrete trees -/

namespace Examples

open BTreeNode

/-- Insert the keys in the order given, each key `k` with the value `10 * k`. -/
def insertKeys (ks : List Nat) : List (BTree.Op Nat Nat) :=
  ks.map (fun k => BTree.Op.insert k (10 * k))

/-- The entries with the keys given, each key `k` with the value `10 * k`. -/
def entriesOf (ks : List Nat) : List (Entry Nat Nat) :=
  ks.map (fun k => ⟨k, 10 * k⟩)

/-- A leaf holding the keys given, each key `k` with the value `10 * k`. -/
def leaf (ks : List Nat) : BTreeNode Nat Nat :=
  mk true (entriesOf ks) []

/-- An internal node holding the keys given, each key `k` with the value `10 * k`. -/
def node (ks : List Nat) (cs : List (BTreeNode Nat Nat)) : BTreeNode Nat Nat :=
  mk false (entriesOf ks) cs

/-- The tree of degree 2 that inserting the keys 1 to 6 in ascending order builds. -/
def tree6 : BTree Nat Nat :=
  ⟨2, some (node [2, 4] [leaf [1], leaf [3], leaf [5, 6]])⟩

/-- The keys whose insertion in this order builds `tree10`. -/
def keys10 : List Nat := [4, 2, 18, 20, 16, 14, 12, 8, 10, 6]

/-- A tree of degree 2 with three levels: the root has one entry, its left child two
entries and its right child one. -/
def tree10 : BTree Nat Nat :=
  ⟨2, some (node [14]
    [node [4, 10] [leaf [2], leaf [6, 8], leaf [12]], node [18] [leaf [16], leaf [20]]])⟩

/-- The root of `tree10`. -/
def root10 : BTreeNode Nat Nat :=
  node [14]
    [node [4, 10] [leaf [2], leaf [6, 8], leaf [12]], node [18] [leaf [16], leaf [20]]]

/-- The keys of the scenario of the specification, in the order of their insertion. -/
def keys8 : List Nat := [10, 20, 5, 6, 12, 30, 7, 17]

/-- The tree of degree 2 that inserting `keys8` builds. -/
def tree8 : BTree Nat Nat :=
  ⟨2, some (node [10, 20] [leaf [5, 6, 7], leaf [12, 17], leaf [30]])⟩

/-- The keys 90, 80, ..., 0 in descending order. -/
def keysDown : List Nat := [90, 80, 70, 60, 50, 40, 30, 20, 10, 0]

/-- The root of the tree of degree 2 that inserting `keysDown` builds: three levels, the
left child of the root has two entries over three leaves of which the last two hold one
entry each, the right child of the root has one entry. -/
def rootDown : BTreeNode Nat Nat :=
  node [60]
    [node [20, 40] [leaf [0, 10], leaf [30], leaf [50]], node [80] [leaf [70], leaf [90]]]

/-- The tree of degree 2 with the root `[2]` over the leaves `[1]` and `[3]`: what the
inserts 1, 2, 3, 4 followed by `remove(4)` leave. -/
def tree3 : BTree Nat Nat :=
  ⟨2, some (node [2] [leaf [1], leaf [3]])⟩

end Examples
/-! ## Basic facts -/

section Basics

variable {α β : Type}

@[simp] theorem except_ok_bind (a : α) (f : α → Except Err β) :
    (Except.ok a >>= f) = f a := rfl

@[simp] theorem except_error_bind (e : Err) (f : α → Except Err β) :
    ((Except.error e : Except Err α) >>= f) = Except.error e := rfl

@[simp] theorem except_pure_eq (a : α) : (pure a : Except Err α) = Except.ok a := rfl

theorem vecGet_eq_ok {v : List α} {i : Nat} {a : α} (h : v[i]? = some a) :
    vecGet v i = .ok a := by
  simp [vecGet, h]

theorem vecGet_ok_iff {v : List α} {i : Nat} {a : α} :
    vecGet v i = .ok a ↔ v[i]? = some a := by
  unfold vecGet
  cases h : v[i]? <;> simp

theorem idxPred_succ (i : Nat) : idxPred (i + 1) = .ok i := rfl

theorem idxPred_of_pos {i : Nat} (h : 0 < i) : idxPred i = .ok (i - 1) := by
  cases i with
  | zero => omega
  | succ j => rfl

theorem take_succ_set_insert (l : List α) (i : Nat) (x y : α) (h : i < l.length) :
    (l.take (i + 1) ++ x :: l.drop (i + 1)).set i y = l.take i ++ y :: x :: l.drop (i + 1) := by
  induction l generalizing i with
  | nil => simp at h
  | cons a l ih =>
    cases i with
    | zero => simp
    | succ j =>
      simp only [List.length_cons, Nat.add_lt_add_iff_right] at h
      simpa using ih j h

theorem set_eq_take_drop (l : List α) (i : Nat) (y : α) (h : i < l.length) :
    l.set i y = l.take i ++ y :: l.drop (i + 1) := by
  induction l generalizing i with
  | nil => simp at h
  | cons a l ih =>
    cases i with
    | zero => simp
    | succ j =>
      simp only [List.length_cons, Nat.add_lt_add_iff_right] at h
      simpa using ih j h

theorem eq_take_drop_of_getElem? (l : List α) (i : Nat) (a : α) (h : l[i]? = some a) :
    l = l.take i ++ a :: l.drop (i + 1) := by
  induction l generalizing i with
  | nil => simp at h
  | cons b l ih =>
    cases i with
    | zero => simp at h; simp [h]
    | succ j =>
      simp only [List.getElem?_cons_succ] at h
      simpa using ih j h

/-- A sequence of two fallible steps returns exactly when both do. -/
theorem bind_eq_ok_iff (x : Except Err α) (f : α → Except Err β) (b : β) :
    (x >>= f) = .ok b ↔ ∃ a, x = .ok a ∧ f a = .ok b := by
  cases x with
  | error e => simp
  | ok a => simp

/-- A conditional returns exactly when the branch taken does. -/
theorem ite_eq_ok_iff (c : Prop) [Decidable c] (a b : Except Err α) (x : α) :
    (if c then a else b) = .ok x ↔ (c ∧ a = .ok x) ∨ (¬ c ∧ b = .ok x) := by
  split <;> simp [*]

theorem vecSet_eq_ok_iff (v : List α) (i : Nat) (a : α) (w : List α) :
    vecSet v i a = .ok w ↔ i < v.length ∧ w = v.set i a := by
  unfold vecSet
  split <;> simp_all [eq_comm]

theorem vecErase_eq_ok_iff (v : List α) (i : Nat) (w : List α) :
    vecErase v i = .ok w ↔ i < v.length ∧ w = v.eraseIdx i := by
  unfold vecErase
  split <;> simp_all [eq_comm]

theorem vecInsert_eq_ok_iff (v : List α) (i : Nat) (a : α) (w : List α) :
    vecInsert v i a = .ok w ↔ i ≤ v.length ∧ w = v.take i ++ a :: v.drop i := by
  unfold vecInsert
  split <;> simp_all [eq_comm]

theorem idxPred_eq_ok_iff (i j : Nat) : idxPred i = .ok j ↔ i = j + 1 := by
  cases i with
  | zero => simp [idxPred]
  | succ k => simp [idxPred, eq_comm]

/-- An integer inside the range of `int` is its own value as an `int`. -/
theorem wrapInt_eq (x : Int) (h1 : -2147483648 ≤ x) (h2 : x ≤ 2147483647) :
    wrapInt x = x := by
  unfold wrapInt
  omega

/-- The two `reserve` calls of the constructor of a node return for a positive degree
below `2^30`. -/
theorem reserveNode_ok (t : Int) (h0 : 0 < t) (h1 : t < 2 ^ 30) : reserveNode t = .ok () := by
  have h2 : (2 : Int) ^ 30 = 1073741824 := by norm_num
  rw [h2] at h1
  unfold reserveNode reserve
  rw [wrapInt_eq _ (by omega) (by omega), wrapInt_eq _ (by omega) (by omega),
    if_pos (by omega), if_pos (by omega)]
  rfl

/-- For an `int` degree from `2^30` on the constructor of a node throws. -/
theorem reserveNode_error (t : Int) (h1 : 2 ^ 30 ≤ t) (h2 : t ≤ 2147483647) :
    reserveNode t = .error .lengthError := by
  have h3 : (2 : Int) ^ 30 = 1073741824 := by norm_num
  rw [h3] at h1
  have hw : wrapInt (2 * t) < 0 := by unfold wrapInt; omega
  unfold reserveNode reserve
  rw [if_neg (by omega : ¬ 0 ≤ wrapInt (2 * t))]
  split <;> rfl

theorem refAfterInsert_ok {len cap : Nat} (h : len < cap) :
    refAfterInsert len cap = .ok () := by
  unfold refAfterInsert
  rw [if_pos h]

end Basics

namespace BTreeNode

variable {K V : Type}

@[simp] theorem m_isLeaf_mk (l : Bool) (es : List (Entry K V)) (cs : List (BTreeNode K V)) :
    (mk l es cs).m_isLeaf = l := rfl

@[simp] theorem m_Entries_mk (l : Bool) (es : List (Entry K V)) (cs : List (BTreeNode K V)) :
    (mk l es cs).m_Entries = es := rfl

@[simp] theorem m_Children_mk (l : Bool) (es : List (Entry K V)) (cs : List (BTreeNode K V)) :
    (mk l es cs).m_Children = cs := rfl

@[simp] theorem nEntries_mk (l : Bool) (es : List (Entry K V)) (cs : List (BTreeNode K V)) :
    (mk l es cs).nEntries = es.length := rfl

theorem eta (n : BTreeNode K V) : n = mk n.m_isLeaf n.m_Entries n.m_Children := by
  cases n; rfl

theorem inorder_eq (n : BTreeNode K V) : inorder n = inorderZip n.m_Entries n.m_Children := by
  cases n; simp [inorder]

@[simp] theorem inorderZip_nil_right (es : List (Entry K V)) : inorderZip es [] = es := by
  cases es <;> simp [inorderZip]

/-- The traversal splits after any number of `child, entry` pairs. -/
theorem inorderZip_append (es1 es2 : List (Entry K V)) (cs1 cs2 : List (BTreeNode K V))
    (h : es1.length = cs1.length) :
    inorderZip (es1 ++ es2) (cs1 ++ cs2) = preZip es1 cs1 ++ inorderZip es2 cs2 := by
  induction es1 generalizing cs1 with
  | nil =>
    cases cs1 with
    | nil => simp [preZip]
    | cons c cs => simp at h
  | cons e es ih =>
    cases cs1 with
    | nil => simp at h
    | cons c cs =>
      simp only [List.length_cons, Nat.add_right_cancel_iff] at h
      simp [inorderZip, preZip, ih cs h]

theorem inorderZip_cons_child (es : List (Entry K V)) (c : BTreeNode K V)
    (cs : List (BTreeNode K V)) :
    inorderZip es (c :: cs) = inorder c ++ sufZip es cs := by
  cases es <;> simp [inorderZip, sufZip]

/-- The traversal of a node around one child. -/
theorem inorderZip_child (es1 es2 : List (Entry K V)) (cs1 cs2 : List (BTreeNode K V))
    (c : BTreeNode K V) (h : es1.length = cs1.length) :
    inorderZip (es1 ++ es2) (cs1 ++ c :: cs2) = preZip es1 cs1 ++ inorder c ++ sufZip es2 cs2 := by
  rw [inorderZip_append _ _ _ _ h, inorderZip_cons_child, List.append_assoc]

/-- The traversal of a node around two neighbouring children and the entry between. -/
theorem inorderZip_two (es1 es2 : List (Entry K V)) (cs1 cs2 : List (BTreeNode K V))
    (x y : BTreeNode K V) (m : Entry K V) (h : es1.length = cs1.length) :
    inorderZip (es1 ++ m :: es2) (cs1 ++ x :: y :: cs2) =
      preZip es1 cs1 ++ inorder x ++ m :: (inorder y ++ sufZip es2 cs2) := by
  rw [inorderZip_append _ _ _ _ h]
  simp [inorderZip, inorderZip_cons_child]

/-- The traversal of a node cut at an entry: left part, the entry, right part. -/
theorem inorderZip_cut (a b : List (Entry K V)) (ca cb : List (BTreeNode K V))
    (m : Entry K V) (h : ca = [] ∧ cb = [] ∨ ca.length = a.length + 1) :
    inorderZip (a ++ m :: b) (ca ++ cb) = inorderZip a ca ++ m :: inorderZip b cb := by
  rcases h with ⟨rfl, rfl⟩ | h
  · simp
  · induction a generalizing ca with
    | nil =>
      match ca, h with
      | [c], _ => simp [inorderZip]
    | cons e es ih =>
      cases ca with
      | nil => simp at h
      | cons c cs =>
        simp only [List.length_cons, Nat.add_right_cancel_iff] at h
        simp [inorderZip, ih cs h]

theorem heightList_eq (cs : List (BTreeNode K V)) (k : Nat) (hne : cs ≠ [])
    (h : ∀ c ∈ cs, height c = k) : heightList cs = k := by
  induction cs with
  | nil => exact absurd rfl hne
  | cons c cs ih =>
    simp only [heightList]
    have hc : height c = k := h c (List.mem_cons_self _ _)
    cases cs with
    | nil => simp [heightList, hc]
    | cons d ds =>
      rw [ih (by simp) (fun x hx => h x (List.mem_cons_of_mem _ hx)), hc]
      simp

theorem Shaped.height_eq {t : Nat} : ∀ (h lo : Nat) (n : BTreeNode K V),
    Shaped t lo h n → n.height = h + 1 := by
  intro h
  induction h with
  | zero =>
    intro lo n hs
    cases n with
    | mk l es cs =>
      simp only [Shaped, m_Children_mk] at hs
      simp [height, hs.2.1, heightList]
  | succ h ih =>
    intro lo n hs
    cases n with
    | mk l es cs =>
      simp only [Shaped, m_Children_mk, nEntries_mk] at hs
      obtain ⟨_, hlen, _, _, hc⟩ := hs
      simp only [height]
      rw [heightList_eq cs (h + 1) (by intro h0; simp [h0] at hlen)
        (fun c hc' => ih _ c (hc c hc'))]

theorem getAllEntriesLoop_ok (es : List (Entry K V)) (cs : List (BTreeNode K V))
    (hlen : cs.length = es.length + 1)
    (h : ∀ c ∈ cs, getAllEntries c = .ok (inorder c)) :
    getAllEntriesLoop es cs = .ok (inorderZip es cs) := by
  induction es generalizing cs with
  | nil =>
    match cs, hlen with
    | [c], _ => simpa [getAllEntriesLoop, inorderZip] using h c (by simp)
  | cons e es ih =>
    cases cs with
    | nil => simp at hlen
    | cons c cs =>
      simp only [List.length_cons, Nat.add_right_cancel_iff] at hlen
      simp [getAllEntriesLoop, inorderZip, h c (by simp),
        ih cs hlen (fun x hx => h x (List.mem_cons_of_mem _ hx))]

/-- On a node that satisfies the size invariant `getAllEntries` returns the traversal. -/
theorem Shaped.getAllEntries_ok {t : Nat} : ∀ (h lo : Nat) (n : BTreeNode K V),
    Shaped t lo h n → getAllEntries n = .ok (inorder n) := by
  intro h
  induction h with
  | zero =>
    intro lo n hs
    cases n with
    | mk l es cs =>
      simp only [Shaped, m_Children_mk, m_isLeaf_mk] at hs
      obtain ⟨rfl, rfl, _⟩ := hs
      simp [getAllEntries, inorder]
  | succ h ih =>
    intro lo n hs
    cases n with
    | mk l es cs =>
      simp only [Shaped, m_Children_mk, nEntries_mk, m_isLeaf_mk] at hs
      obtain ⟨rfl, hlen, _, _, hc⟩ := hs
      simp only [getAllEntries, inorder]
      exact getAllEntriesLoop_ok es cs hlen (fun c hc' => ih _ c (hc c hc'))

end BTreeNode

namespace BTreeNode

variable {K V : Type}

/-- What `splitChild` does on a full child: the constructor of the new child, the test for
the reference kept across the insertion, and the node that results. -/
theorem splitChild_run (t : Nat) (ht : 1 ≤ t) (n : BTreeNode K V)
    (idx : Nat) (c : BTreeNode K V) (hc : n.m_Children[idx]? = some c)
    (hfull : c.nEntries + 1 = 2 * t) (hidx : idx ≤ n.nEntries)
    (hcc : c.m_isLeaf = false → c.m_Children.length = 2 * t) :
    ∃ m, c.m_Entries[t - 1]? = some m ∧
      splitChild t n idx = (reserveNode (t : Int) >>= fun _ =>
        refAfterInsert n.m_Children.length (2 * t) >>= fun _ =>
        .ok (mk n.m_isLeaf (n.m_Entries.take idx ++ m :: n.m_Entries.drop idx)
          (n.m_Children.take idx ++
            mk c.m_isLeaf (c.m_Entries.take (t - 1))
              (if c.m_isLeaf = true then c.m_Children else c.m_Children.take t) ::
            mk c.m_isLeaf (c.m_Entries.drop t)
              (if c.m_isLeaf = true then [] else c.m_Children.drop t) ::
            n.m_Children.drop (idx + 1)))) := by
  have hlen : c.m_Entries.length = 2 * t - 1 := by unfold nEntries at hfull; omega
  have hi : idx < n.m_Children.length := by
    rcases List.getElem?_eq_some_iff.mp hc with ⟨h, _⟩; exact h
  have hm : t - 1 < c.m_Entries.length := by omega
  refine ⟨c.m_Entries[t - 1], List.getElem?_eq_getElem hm, ?_⟩
  unfold splitChild
  rw [vecGet_eq_ok hc]
  have h1 : vecCopy c.m_Entries t (t - 1) = .ok (c.m_Entries.drop t) := by
    unfold vecCopy
    rw [if_pos (by right; omega)]
    rw [List.take_of_length_le (by simp; omega)]
  have h2 : vecEraseFrom c.m_Entries t = .ok (c.m_Entries.take t) := by
    unfold vecEraseFrom
    rw [if_pos (by omega)]
  have h3 : vecInsert n.m_Entries idx c.m_Entries[t - 1] =
      .ok (n.m_Entries.take idx ++ c.m_Entries[t - 1] :: n.m_Entries.drop idx) := by
    unfold vecInsert
    rw [if_pos (by unfold nEntries at hidx; exact hidx)]
  have h4 : vecGet (c.m_Entries.take t) (t - 1) = .ok c.m_Entries[t - 1] := by
    apply vecGet_eq_ok
    rw [List.getElem?_take_of_lt (by omega)]
    exact List.getElem?_eq_getElem hm
  have h5 : vecErase (c.m_Entries.take t) (t - 1) = .ok (c.m_Entries.take (t - 1)) := by
    unfold vecErase
    rw [if_pos (by simp; omega)]
    congr 1
    rw [List.eraseIdx_eq_take_drop_succ]
    have : t - 1 + 1 = t := by omega
    rw [this, List.take_take, List.drop_take]
    simp
  have h8 : ∀ x, vecInsert n.m_Children (idx + 1) x =
      .ok (n.m_Children.take (idx + 1) ++ x :: n.m_Children.drop (idx + 1)) := by
    intro x
    unfold vecInsert
    rw [if_pos (by omega)]
  cases hres : reserveNode (t : Int) with
  | error e => rfl
  | ok u =>
    simp only [except_ok_bind, h1, h2]
    cases hl : c.m_isLeaf with
    | true =>
      simp only [except_pure_eq, except_ok_bind, if_true, h8]
      cases hcap : refAfterInsert n.m_Children.length (2 * t) with
      | error e => rfl
      | ok u2 =>
        simp only [except_ok_bind, idxPred_of_pos ht, h4, h3, h5, except_pure_eq]
        rw [take_succ_set_insert _ _ _ _ hi]
    | false =>
      have hcl := hcc hl
      have h6 : vecCopy c.m_Children t t = .ok (c.m_Children.drop t) := by
        unfold vecCopy
        rw [if_pos (by right; omega)]
        rw [List.take_of_length_le (by simp; omega)]
      have h7 : vecEraseFrom c.m_Children t = .ok (c.m_Children.take t) := by
        unfold vecEraseFrom
        rw [if_pos (by omega)]
      simp only [except_pure_eq, except_ok_bind, h6, h7, Bool.false_eq_true, if_false, h8]
      cases hcap : refAfterInsert n.m_Children.length (2 * t) with
      | error e => rfl
      | ok u2 =>
        simp only [except_ok_bind, idxPred_of_pos ht, h4, h3, h5, except_pure_eq]
        rw [take_succ_set_insert _ _ _ _ hi]

/-- What `splitChild` returns on a full child of a node that has a place left for one
more child, for a degree below `2^30`. -/
theorem splitChild_eq (t : Nat) (ht : 1 ≤ t) (ht30 : t < 2 ^ 30) (n : BTreeNode K V)
    (idx : Nat) (c : BTreeNode K V) (hc : n.m_Children[idx]? = some c)
    (hfull : c.nEntries + 1 = 2 * t) (hidx : idx ≤ n.nEntries)
    (hcc : c.m_isLeaf = false → c.m_Children.length = 2 * t)
    (hcap : n.m_Children.length < 2 * t) :
    ∃ m, c.m_Entries[t - 1]? = some m ∧
      splitChild t n idx = .ok (mk n.m_isLeaf (n.m_Entries.take idx ++ m :: n.m_Entries.drop idx)
        (n.m_Children.take idx ++
          mk c.m_isLeaf (c.m_Entries.take (t - 1))
            (if c.m_isLeaf = true then c.m_Children else c.m_Children.take t) ::
          mk c.m_isLeaf (c.m_Entries.drop t)
            (if c.m_isLeaf = true then [] else c.m_Children.drop t) ::
          n.m_Children.drop (idx + 1))) := by
  obtain ⟨m, hm, hrun⟩ := splitChild_run t ht n idx c hc hfull hidx hcc
  refine ⟨m, hm, ?_⟩
  rw [hrun, reserveNode_ok _ (by omega) (by exact_mod_cast ht30), except_ok_bind,
    refAfterInsert_ok hcap, except_ok_bind]

end BTreeNode

namespace BTreeNode

section InsertIdx

variable {K V : Type} [LinearOrder K]

theorem idxForInsert_concat (key : K) (es : List (Entry K V)) (e : Entry K V) :
    idxForInsert key (es ++ [e]) =
      if e.m_Key > key then idxForInsert key es else es.length + 1 := by
  unfold idxForInsert
  simp only [List.reverse_append, List.reverse_cons, List.reverse_nil, List.nil_append,
    List.singleton_append, List.dropWhile_cons]
  by_cases h : e.m_Key > key
  · simp [h]
  · simp [h]

theorem idxForInsert_le (key : K) (es : List (Entry K V)) :
    idxForInsert key es ≤ es.length := by
  unfold idxForInsert
  have := (List.dropWhile_sublist (fun e : Entry K V => decide (e.m_Key > key))
    (l := es.reverse)).length_le
  simpa using this

/-- The entries from the insert position on have a greater key. -/
theorem idxForInsert_drop (key : K) (es : List (Entry K V)) :
    ∀ y ∈ es.drop (idxForInsert key es), key < y.m_Key := by
  induction es using List.reverseRecOn with
  | nil => simp
  | append_singleton es e ih =>
    rw [idxForInsert_concat]
    by_cases h : e.m_Key > key
    · rw [if_pos h, List.drop_append_of_le_length (idxForInsert_le key es)]
      intro y hy
      rcases List.mem_append.mp hy with hy | hy
      · exact ih y hy
      · simp only [List.mem_singleton] at hy
        subst hy
        exact h
    · rw [if_neg h]
      simp

/-- In a sequence with non-decreasing keys the entries before the insert position have a
key that is not greater. -/
theorem idxForInsert_take (key : K) (es : List (Entry K V))
    (hs : (keys es).Pairwise (· ≤ ·)) :
    ∀ y ∈ es.take (idxForInsert key es), y.m_Key ≤ key := by
  induction es using List.reverseRecOn with
  | nil => simp
  | append_singleton es e ih =>
    have hs' : (keys es).Pairwise (· ≤ ·) := by
      unfold keys at hs ⊢
      rw [List.map_append] at hs
      exact (List.pairwise_append.mp hs).1
    rw [idxForInsert_concat]
    by_cases h : e.m_Key > key
    · rw [if_pos h, List.take_append_of_le_length (idxForInsert_le key es)]
      exact ih hs'
    · rw [if_neg h]
      have hek : e.m_Key ≤ key := not_lt.mp h
      intro y hy
      rw [List.take_of_length_le (by simp)] at hy
      rcases List.mem_append.mp hy with hy | hy
      · unfold keys at hs
        rw [List.map_append] at hs
        have := (List.pairwise_append.mp hs).2.2 y.m_Key (List.mem_map_of_mem _ hy)
          e.m_Key (by simp)
        exact le_trans this hek
      · simp only [List.mem_singleton] at hy
        subst hy
        exact hek

/-- The entry just before the insert position has a key that is not greater. -/
theorem idxForInsert_prev (key : K) (es : List (Entry K V)) (j : Nat)
    (hj : idxForInsert key es = j + 1) : ∃ e, es[j]? = some e ∧ e.m_Key ≤ key := by
  induction es using List.reverseRecOn with
  | nil => simp [idxForInsert] at hj
  | append_singleton es e ih =>
    rw [idxForInsert_concat] at hj
    by_cases h : e.m_Key > key
    · rw [if_pos h] at hj
      obtain ⟨e', he', hk⟩ := ih hj
      refine ⟨e', ?_, hk⟩
      rw [List.getElem?_append_left]
      · exact he'
      · have := idxForInsert_le key es
        omega
    · rw [if_neg h] at hj
      refine ⟨e, ?_, not_lt.mp h⟩
      have : j = es.length := by omega
      subst this
      simp

end InsertIdx

section Zip

variable {K V : Type}

theorem preZip_concat (es : List (Entry K V)) (e : Entry K V) (cs : List (BTreeNode K V))
    (h : cs.length = es.length + 1) : ∃ l, preZip (es ++ [e]) cs = l ++ [e] := by
  induction es generalizing cs with
  | nil =>
    match cs, h with
    | [c], _ => exact ⟨inorder c, by simp [preZip]⟩
  | cons a es ih =>
    cases cs with
    | nil => simp at h
    | cons c cs =>
      simp only [List.length_cons, Nat.add_right_cancel_iff] at h
      obtain ⟨l, hl⟩ := ih cs h
      exact ⟨inorder c ++ a :: l, by simp [preZip, hl]⟩

theorem preZip_nil_left (cs : List (BTreeNode K V)) : preZip ([] : List (Entry K V)) cs = [] := by
  cases cs <;> rfl

end Zip

section Bounds

variable {K V : Type} [LinearOrder K]

/-- Around the child that `insertToNonFull` descends into, a traversal with non-decreasing
keys has only keys not greater than `key` before the child and only greater keys after. -/
theorem insert_bounds (key : K) (es mid : List (Entry K V)) (cs : List (BTreeNode K V))
    (hlen : cs.length = es.length + 1)
    (hs : (keys (preZip (es.take (idxForInsert key es)) (cs.take (idxForInsert key es)) ++ mid ++
      sufZip (es.drop (idxForInsert key es)) (cs.drop (idxForInsert key es + 1)))).Pairwise
        (· ≤ ·)) :
    (∀ y ∈ preZip (es.take (idxForInsert key es)) (cs.take (idxForInsert key es)),
      y.m_Key ≤ key) ∧
    (∀ y ∈ sufZip (es.drop (idxForInsert key es)) (cs.drop (idxForInsert key es + 1)),
      key ≤ y.m_Key) := by
  have hle := idxForInsert_le key es
  constructor
  · cases hi : idxForInsert key es with
    | zero => simp [preZip_nil_left]
    | succ j =>
      obtain ⟨e, he, hek⟩ := idxForInsert_prev key es j hi
      have hj : j < es.length := by omega
      have htake : es.take (j + 1) = es.take j ++ [e] := by
        rw [List.take_succ, he]; rfl
      obtain ⟨l, hl⟩ := preZip_concat (es.take j) e (cs.take (j + 1))
        (by simp; omega)
      rw [hi, htake, hl] at hs
      rw [htake, hl]
      intro y hy
      rcases List.mem_append.mp hy with hy | hy
      · unfold keys at hs
        simp only [List.map_append, List.append_assoc] at hs
        have := (List.pairwise_append.mp hs).2.2 y.m_Key (List.mem_map_of_mem _ hy)
          e.m_Key (by simp)
        exact le_trans this hek
      · simp only [List.mem_singleton] at hy
        subst hy
        exact hek
  · cases hd : es.drop (idxForInsert key es) with
    | nil => simp [sufZip]
    | cons e rest =>
      have hgt : key < e.m_Key :=
        idxForInsert_drop key es e (by rw [hd]; exact List.mem_cons_self _ _)
      rw [hd] at hs
      simp only [sufZip] at hs ⊢
      intro y hy
      rcases List.mem_cons.mp hy with hy | hy
      · subst hy
        exact le_of_lt hgt
      · unfold keys at hs
        simp only [List.map_append, List.map_cons] at hs
        have h2 := (List.pairwise_append.mp hs).2.1
        have := (List.pairwise_cons.mp h2).1 y.m_Key (List.mem_map_of_mem _ hy)
        exact le_trans (le_of_lt hgt) this

end Bounds

end BTreeNode

namespace BTreeNode

section SplitShape

variable {K V : Type}

theorem Shaped.entries_le {t lo h : Nat} {n : BTreeNode K V} (hs : Shaped t lo h n) :
    n.nEntries ≤ 2 * t - 1 := by
  cases h with
  | zero => exact hs.2.2.2
  | succ h => exact hs.2.2.2.1

theorem Shaped.lo_le {t lo h : Nat} {n : BTreeNode K V} (hs : Shaped t lo h n) :
    lo ≤ n.nEntries := by
  cases h with
  | zero => exact hs.2.2.1
  | succ h => exact hs.2.2.1

/-- A node of a well-shaped tree stays well-shaped under a weaker lower bound. -/
theorem Shaped.mono {t lo lo' h : Nat} {n : BTreeNode K V} (hs : Shaped t lo h n)
    (hlo : lo' ≤ n.nEntries) : Shaped t lo' h n := by
  cases h with
  | zero => exact ⟨hs.1, hs.2.1, hlo, hs.2.2.2⟩
  | succ h => exact ⟨hs.1, hs.2.1, hlo, hs.2.2.2.1, hs.2.2.2.2⟩

theorem Shaped.children_length {t lo h : Nat} {n : BTreeNode K V} (hs : Shaped t lo h n)
    (hl : n.m_isLeaf = false) : n.m_Children.length = n.nEntries + 1 := by
  cases h with
  | zero => rw [hs.1] at hl; cases hl
  | succ h => exact hs.2.1

/-- The left half that `splitChild` leaves of a full node is well-shaped. -/
theorem Shaped.split_left {t lo h : Nat} {c : BTreeNode K V} (ht : 1 ≤ t)
    (hs : Shaped t lo h c) (hfull : c.nEntries + 1 = 2 * t) :
    Shaped t (t - 1) h (mk c.m_isLeaf (c.m_Entries.take (t - 1))
      (if c.m_isLeaf = true then c.m_Children else c.m_Children.take t)) := by
  have hlen : c.m_Entries.length = 2 * t - 1 := by unfold nEntries at hfull; omega
  cases h with
  | zero =>
    obtain ⟨hl, hc, _, _⟩ := hs
    refine ⟨by simp [hl], by simp [hl, hc], ?_, ?_⟩ <;> simp <;> omega
  | succ h =>
    obtain ⟨hl, hc, _, _, hch⟩ := hs
    refine ⟨by simp [hl], ?_, ?_, ?_, ?_⟩
    · simp [hl]; unfold nEntries at hc; omega
    · simp; omega
    · simp; omega
    · intro x hx
      simp only [hl, m_Children_mk, Bool.false_eq_true, if_false] at hx
      exact hch x (List.mem_of_mem_take hx)

/-- The right half that `splitChild` makes of a full node is well-shaped. -/
theorem Shaped.split_right {t lo h : Nat} {c : BTreeNode K V} (ht : 1 ≤ t)
    (hs : Shaped t lo h c) (hfull : c.nEntries + 1 = 2 * t) :
    Shaped t (t - 1) h (mk c.m_isLeaf (c.m_Entries.drop t)
      (if c.m_isLeaf = true then [] else c.m_Children.drop t)) := by
  have hlen : c.m_Entries.length = 2 * t - 1 := by unfold nEntries at hfull; omega
  cases h with
  | zero =>
    obtain ⟨hl, hc, _, _⟩ := hs
    refine ⟨by simp [hl], by simp [hl], ?_, ?_⟩ <;> simp <;> omega
  | succ h =>
    obtain ⟨hl, hc, _, _, hch⟩ := hs
    refine ⟨by simp [hl], ?_, ?_, ?_, ?_⟩
    · simp [hl]; unfold nEntries at hc; omega
    · simp; omega
    · simp; omega
    · intro x hx
      simp only [hl, m_Children_mk, Bool.false_eq_true, if_false] at hx
      exact hch x (List.mem_of_mem_drop hx)

/-- The traversal of a full node is the traversal of its left half, the middle entry, and
the traversal of its right half. -/
theorem Shaped.split_inorder {t lo h : Nat} {c : BTreeNode K V} {m : Entry K V} (ht : 1 ≤ t)
    (hs : Shaped t lo h c) (hfull : c.nEntries + 1 = 2 * t)
    (hm : c.m_Entries[t - 1]? = some m) :
    inorder c =
      inorder (mk c.m_isLeaf (c.m_Entries.take (t - 1))
        (if c.m_isLeaf = true then c.m_Children else c.m_Children.take t)) ++
      m :: inorder (mk c.m_isLeaf (c.m_Entries.drop t)
        (if c.m_isLeaf = true then [] else c.m_Children.drop t)) := by
  have hlen : c.m_Entries.length = 2 * t - 1 := by unfold nEntries at hfull; omega
  have he := eq_take_drop_of_getElem? _ _ _ hm
  have ht1 : t - 1 + 1 = t := by omega
  rw [ht1] at he
  rw [inorder_eq c]
  simp only [inorder]
  cases hl : c.m_isLeaf with
  | true =>
    have hc : c.m_Children = [] := by
      cases h with
      | zero => exact hs.2.1
      | succ h => rw [hs.1] at hl; cases hl
    simp only [hc, if_true, inorderZip_nil_right]
    exact he
  | false =>
    have hc := hs.children_length hl
    simp only [Bool.false_eq_true, if_false]
    conv_lhs => rw [he, ← List.take_append_drop t c.m_Children]
    apply inorderZip_cut
    right
    simp
    unfold nEntries at hc
    omega

end SplitShape

end BTreeNode

section ListFacts

variable {α : Type}

theorem getElem?_append_at (l1 l2 : List α) (x : α) (i : Nat) (hi : l1.length = i) :
    (l1 ++ x :: l2)[i]? = some x := by
  subst hi
  rw [List.getElem?_append_right (by omega)]
  simp

theorem getElem?_append_at_succ (l1 l2 : List α) (x y : α) (i : Nat) (hi : l1.length = i) :
    (l1 ++ x :: y :: l2)[i + 1]? = some y := by
  subst hi
  rw [List.getElem?_append_right (by omega)]
  simp

theorem set_append_at (l1 l2 : List α) (x y : α) (i : Nat) (hi : l1.length = i) :
    (l1 ++ x :: l2).set i y = l1 ++ y :: l2 := by
  subst hi
  simp

theorem set_append_at_succ (l1 l2 : List α) (x y z : α) (i : Nat) (hi : l1.length = i) :
    (l1 ++ x :: z :: l2).set (i + 1) y = l1 ++ x :: y :: l2 := by
  subst hi
  have := set_append_at (l1 ++ [x]) l2 z y (l1.length + 1) (by simp)
  simp only [List.append_assoc, List.singleton_append] at this
  exact this

theorem take_set_self (l : List α) (i : Nat) (c : α) : (l.set i c).take i = l.take i := by
  induction l generalizing i with
  | nil => simp
  | cons a l ih =>
    cases i with
    | zero => simp
    | succ j => simp [ih j]

theorem drop_set_succ (l : List α) (i : Nat) (c : α) :
    (l.set i c).drop (i + 1) = l.drop (i + 1) := by
  induction l generalizing i with
  | nil => simp
  | cons a l ih =>
    cases i with
    | zero => simp
    | succ j => simp [ih j]

end ListFacts

namespace BTreeNode

section Around

variable {K V : Type}

/-- The traversal of a node around its child at index `i`. -/
theorem inorder_around (n c : BTreeNode K V) (i : Nat) (hci : n.m_Children[i]? = some c)
    (hile : i ≤ n.nEntries) :
    inorder n = preZip (n.m_Entries.take i) (n.m_Children.take i) ++ inorder c ++
      sufZip (n.m_Entries.drop i) (n.m_Children.drop (i + 1)) := by
  have hi : i < n.m_Children.length := by
    rcases List.getElem?_eq_some_iff.mp hci with ⟨h, _⟩; exact h
  rw [inorder_eq n]
  conv_lhs =>
    rw [← List.take_append_drop i n.m_Entries, eq_take_drop_of_getElem? _ _ _ hci]
  apply inorderZip_child
  unfold nEntries at hile
  simp
  omega

/-- The traversal of a node after its child at index `i` has changed. -/
theorem inorder_withChild (n c : BTreeNode K V) (i : Nat) (hi : i < n.m_Children.length)
    (hile : i ≤ n.nEntries) :
    inorder (n.withChild i c) = preZip (n.m_Entries.take i) (n.m_Children.take i) ++
      inorder c ++ sufZip (n.m_Entries.drop i) (n.m_Children.drop (i + 1)) := by
  have := inorder_around (n.withChild i c) c i (by simp [withChild, hi])
    (by simpa [withChild] using hile)
  simpa [withChild, take_set_self, drop_set_succ] using this

theorem keys_append (a b : List (Entry K V)) : keys (a ++ b) = keys a ++ keys b := by
  simp [keys]

theorem keys_cons (e : Entry K V) (b : List (Entry K V)) : keys (e :: b) = e.m_Key :: keys b := by
  simp [keys]

theorem mem_keys_of_mem {e : Entry K V} {l : List (Entry K V)} (h : e ∈ l) :
    e.m_Key ∈ keys l := List.mem_map_of_mem _ h

end Around

end BTreeNode

namespace BTreeNode

section InsertSpec

variable {K V : Type} [LinearOrder K]

theorem sorted_mid {a b c : List (Entry K V)}
    (h : (keys (a ++ b ++ c)).Pairwise (· ≤ ·)) : (keys b).Pairwise (· ≤ ·) := by
  simp only [keys_append] at h
  exact (List.pairwise_append.mp (List.pairwise_append.mp h).1).2.1

theorem sorted_cut {a b : List (Entry K V)} {m : Entry K V}
    (h : (keys (a ++ m :: b)).Pairwise (· ≤ ·)) :
    (keys a).Pairwise (· ≤ ·) ∧ (keys b).Pairwise (· ≤ ·) ∧
      (∀ y ∈ a, y.m_Key ≤ m.m_Key) ∧ (∀ y ∈ b, m.m_Key ≤ y.m_Key) := by
  simp only [keys_append, keys_cons] at h
  obtain ⟨h1, h2, h3⟩ := List.pairwise_append.mp h
  obtain ⟨h4, h5⟩ := List.pairwise_cons.mp h2
  exact ⟨h1, h5, fun y hy => h3 _ (mem_keys_of_mem hy) _ (List.mem_cons_self _ _),
    fun y hy => h4 _ (mem_keys_of_mem hy)⟩

/-- What `insertToNonFull` does on a node that is not full and satisfies the size
invariant: it returns a node that satisfies the size invariant at the same height, whose
traversal is the old traversal with the new entry put in at one place; if the keys of the
old traversal are non-decreasing, the keys before that place are not greater than the new
key and the keys after it are not less. -/
theorem insertToNonFull_spec (t : Nat) (ht : 1 ≤ t) (ht30 : t < 2 ^ 30) (key : K)
    (value : V) :
    ∀ (h lo : Nat) (n : BTreeNode K V), Shaped t lo h n → n.nEntries + 1 < 2 * t →
      ∃ n' l1 l2, insertToNonFull t key value (h + 1) n = .ok n' ∧ Shaped t lo h n' ∧
        inorder n = l1 ++ l2 ∧ inorder n' = l1 ++ ⟨key, value⟩ :: l2 ∧
        ((keys (inorder n)).Pairwise (· ≤ ·) →
          (∀ y ∈ l1, y.m_Key ≤ key) ∧ (∀ y ∈ l2, key ≤ y.m_Key)) := by
  intro h
  induction h with
  | zero =>
    intro lo n hs hnf
    obtain ⟨hl, hc, hlo, hhi⟩ := hs
    have hile := idxForInsert_le key n.m_Entries
    have hin : inorder n = n.m_Entries := by rw [inorder_eq, hc, inorderZip_nil_right]
    refine ⟨n.withEntries (n.m_Entries.take (idxForInsert key n.m_Entries) ++
        ⟨key, value⟩ :: n.m_Entries.drop (idxForInsert key n.m_Entries)),
      n.m_Entries.take (idxForInsert key n.m_Entries),
      n.m_Entries.drop (idxForInsert key n.m_Entries), ?_, ?_, ?_, ?_, ?_⟩
    · simp [insertToNonFull, hl]
    · unfold nEntries at hlo hnf
      refine ⟨by simp [withEntries, hl], by simp [withEntries, hc], ?_, ?_⟩ <;>
        simp [withEntries] <;> omega
    · rw [hin, List.take_append_drop]
    · simp [withEntries, inorder, hc]
    · intro hsort
      rw [hin] at hsort
      exact ⟨idxForInsert_take key _ hsort,
        fun y hy => le_of_lt (idxForInsert_drop key _ y hy)⟩
  | succ h ih =>
    intro lo n hs hnf
    obtain ⟨hl, hclen, hlo, hhi, hch⟩ := hs
    have hile : idxForInsert key n.m_Entries ≤ n.nEntries := idxForInsert_le key n.m_Entries
    generalize hidef : idxForInsert key n.m_Entries = i at hile
    have hilt : i < n.m_Children.length := by omega
    have hci : n.m_Children[i]? = some n.m_Children[i] := List.getElem?_eq_getElem hilt
    generalize n.m_Children[i] = c at hci
    have hcs : Shaped t (t - 1) h c := hch c (List.getElem?_mem hci)
    have hin := inorder_around n c i hci hile
    have hLlen : (n.m_Children.take i).length = i := by simp; omega
    have hElen : (n.m_Entries.take i).length = i := by
      unfold nEntries at hile; simp; omega
    have hbounds := fun mid hsort => insert_bounds key n.m_Entries mid n.m_Children hclen
      (by rw [hidef]; exact hsort)
    rw [hidef] at hbounds
    by_cases hfull : c.nEntries + 1 = 2 * t
    · -- the child is full and is split first
      obtain ⟨m, hm, hsplit⟩ := splitChild_eq t ht ht30 n i c hci hfull hile
        (fun hcl => by rw [hcs.children_length hcl]; exact hfull) (by omega)
      have hLs := hcs.split_left ht hfull
      have hRs := hcs.split_right ht hfull
      have hcin := hcs.split_inorder ht hfull hm
      have hclen' : c.m_Entries.length = 2 * t - 1 := by unfold nEntries at hfull; omega
      have hLn : (mk c.m_isLeaf (c.m_Entries.take (t - 1))
          (if c.m_isLeaf = true then c.m_Children else c.m_Children.take t)).nEntries + 1
          < 2 * t := by
        simp; omega
      have hRn : (mk c.m_isLeaf (c.m_Entries.drop t)
          (if c.m_isLeaf = true then [] else c.m_Children.drop t)).nEntries + 1 < 2 * t := by
        simp; omega
      generalize mk c.m_isLeaf (c.m_Entries.take (t - 1))
        (if c.m_isLeaf = true then c.m_Children else c.m_Children.take t) = cL
        at hsplit hLs hcin hLn
      generalize mk c.m_isLeaf (c.m_Entries.drop t)
        (if c.m_isLeaf = true then [] else c.m_Children.drop t) = cR at hsplit hRs hcin hRn
      have hshape : ∀ x y, Shaped t (t - 1) h x → Shaped t (t - 1) h y →
          Shaped t lo (h + 1) (mk n.m_isLeaf (n.m_Entries.take i ++ m :: n.m_Entries.drop i)
            (n.m_Children.take i ++ x :: y :: n.m_Children.drop (i + 1))) := by
        intro x y hx hy
        unfold nEntries at hclen hlo hhi hnf hile
        refine ⟨by simp [hl], ?_, ?_, ?_, ?_⟩
        · simp; omega
        · simp; omega
        · simp; omega
        · intro z hz
          simp only [m_Children_mk, List.mem_append, List.mem_cons] at hz
          rcases hz with hz | hz | hz | hz
          · exact hch z (List.mem_of_mem_take hz)
          · rw [hz]; exact hx
          · rw [hz]; exact hy
          · exact hch z (List.mem_of_mem_drop hz)
      have hme : vecGet (n.m_Entries.take i ++ m :: n.m_Entries.drop i) i = .ok m :=
        vecGet_eq_ok (getElem?_append_at _ _ _ _ hElen)
      by_cases hk : key > m.m_Key
      · -- the new key is greater than the middle key: descend into the new right half
        obtain ⟨c', l1, l2, hok, hs', hl12, hl12', hord⟩ := ih (t - 1) cR hRs hRn
        refine ⟨mk n.m_isLeaf (n.m_Entries.take i ++ m :: n.m_Entries.drop i)
            (n.m_Children.take i ++ cL :: c' :: n.m_Children.drop (i + 1)),
          preZip (n.m_Entries.take i) (n.m_Children.take i) ++ inorder cL ++ m :: l1,
          l2 ++ sufZip (n.m_Entries.drop i) (n.m_Children.drop (i + 1)), ?_, ?_, ?_, ?_, ?_⟩
        · rw [insertToNonFull]
          simp only [hl, hidef, vecGet_eq_ok hci, hfull, hsplit, except_ok_bind,
            Bool.false_eq_true, if_false, if_true, m_Entries_mk, m_Children_mk, hme, hk,
            vecGet_eq_ok (getElem?_append_at_succ _ _ _ _ _ hLlen), hok, except_pure_eq,
            withChild, m_isLeaf_mk, set_append_at_succ _ _ _ _ _ _ hLlen]
        · exact hshape cL c' hLs hs'
        · rw [hin, hcin, hl12]; simp
        · simp only [inorder]
          rw [inorderZip_two _ _ _ _ _ _ _ (by rw [hElen, hLlen]), hl12']
          simp
        · intro hsort
          rw [hin] at hsort
          obtain ⟨hb1, hb2⟩ := hbounds _ hsort
          have hcsort := sorted_mid hsort
          rw [hcin] at hcsort
          obtain ⟨_, hRsort, hLm, _⟩ := sorted_cut hcsort
          rw [hl12] at hRsort
          obtain ⟨ho1, ho2⟩ := hord (by rw [hl12]; exact hRsort)
          constructor
          · intro y hy
            simp only [List.mem_append, List.mem_cons] at hy
            rcases hy with (hy | hy) | hy | hy
            · exact hb1 y hy
            · exact le_trans (hLm y hy) (le_of_lt hk)
            · rw [hy]; exact le_of_lt hk
            · exact ho1 y hy
          · intro y hy
            rcases List.mem_append.mp hy with hy | hy
            · exact ho2 y hy
            · exact hb2 y hy
      · -- otherwise descend into the left half
        obtain ⟨c', l1, l2, hok, hs', hl12, hl12', hord⟩ := ih (t - 1) cL hLs hLn
        refine ⟨mk n.m_isLeaf (n.m_Entries.take i ++ m :: n.m_Entries.drop i)
            (n.m_Children.take i ++ c' :: cR :: n.m_Children.drop (i + 1)),
          preZip (n.m_Entries.take i) (n.m_Children.take i) ++ l1,
          l2 ++ m :: (inorder cR ++ sufZip (n.m_Entries.drop i) (n.m_Children.drop (i + 1))),
          ?_, ?_, ?_, ?_, ?_⟩
        · rw [insertToNonFull]
          simp only [hl, hidef, vecGet_eq_ok hci, hfull, hsplit, except_ok_bind,
            Bool.false_eq_true, if_false, if_true, m_Entries_mk, m_Children_mk, hme, hk,
            vecGet_eq_ok (getElem?_append_at _ _ _ _ hLlen), hok, except_pure_eq,
            withChild, m_isLeaf_mk, set_append_at _ _ _ _ _ hLlen]
        · exact hshape c' cR hs' hRs
        · rw [hin, hcin, hl12]; simp
        · simp only [inorder]
          rw [inorderZip_two _ _ _ _ _ _ _ (by rw [hElen, hLlen]), hl12']
          simp
        · intro hsort
          rw [hin] at hsort
          obtain ⟨hb1, hb2⟩ := hbounds _ hsort
          have hcsort := sorted_mid hsort
          rw [hcin] at hcsort
          obtain ⟨hLsort, _, _, hmR⟩ := sorted_cut hcsort
          obtain ⟨ho1, ho2⟩ := hord hLsort
          have hkm : key ≤ m.m_Key := not_lt.mp hk
          constructor
          · intro y hy
            rcases List.mem_append.mp hy with hy | hy
            · exact hb1 y hy
            · exact ho1 y hy
          · intro y hy
            simp only [List.mem_append, List.mem_cons] at hy
            rcases hy with hy | hy | hy | hy
            · exact ho2 y hy
            · rw [hy]; exact hkm
            · exact le_trans hkm (hmR y hy)
            · exact hb2 y hy
    · -- the child has room
      have hcn : c.nEntries + 1 < 2 * t := by
        have := hcs.entries_le
        omega
      obtain ⟨c', l1, l2, hok, hs', hl12, hl12', hord⟩ := ih (t - 1) c hcs hcn
      refine ⟨n.withChild i c',
        preZip (n.m_Entries.take i) (n.m_Children.take i) ++ l1,
        l2 ++ sufZip (n.m_Entries.drop i) (n.m_Children.drop (i + 1)), ?_, ?_, ?_, ?_, ?_⟩
      · rw [insertToNonFull]
        simp [hl, hidef, vecGet_eq_ok hci, hfull, hok]
      · refine ⟨by simp [withChild, hl], ?_, ?_, ?_, ?_⟩
        · simpa [withChild, nEntries] using hclen
        · simpa [withChild, nEntries] using hlo
        · simpa [withChild, nEntries] using hhi
        · intro x hx
          simp only [withChild, m_Children_mk] at hx
          rcases List.mem_or_eq_of_mem_set hx with hx | hx
          · exact hch x hx
          · rw [hx]; exact hs'
      · rw [hin, hl12]; simp
      · rw [inorder_withChild n c' i hilt hile, hl12']; simp
      · intro hsort
        rw [hin] at hsort
        obtain ⟨hb1, hb2⟩ := hbounds _ hsort
        obtain ⟨ho1, ho2⟩ := hord (sorted_mid hsort)
        constructor
        · intro y hy
          rcases List.mem_append.mp hy with hy | hy
          · exact hb1 y hy
          · exact ho1 y hy
        · intro y hy
          rcases List.mem_append.mp hy with hy | hy
          · exact ho2 y hy
          · exact hb2 y hy

end InsertSpec

end BTreeNode

namespace BTree

section InsertTree

variable {K V : Type} [LinearOrder K]

open BTreeNode

/-- Inserting into the empty tree makes a root leaf with the one entry. -/
theorem insert_empty (t : Int) (ht : 0 < t) (ht30 : t < 2 ^ 30) (key : K) (value : V) :
    (⟨t, none⟩ : BTree K V).insert key value = .ok ⟨t, some (BTreeNode.mk true [⟨key, value⟩] [])⟩ := by
  simp [insert, newNode, reserveNode_ok t ht ht30, withEntries]

/-- What `BTree::insert` does on a tree whose root satisfies the size invariant: the tree
grows by one level exactly when the root was full, the new root satisfies the size
invariant, and the traversal gains the new entry at one place (see
`BTreeNode.insertToNonFull_spec`). -/
theorem insert_root (t : Nat) (ht : 1 ≤ t) (ht30 : t < 2 ^ 30) (key : K) (value : V)
    (h : Nat) (r : BTreeNode K V) (hs : Shaped t 1 h r) :
    ∃ r' l1 l2, (⟨(t : Int), some r⟩ : BTree K V).insert key value = .ok ⟨(t : Int), some r'⟩ ∧
      Shaped t 1 (if r.nEntries + 1 = 2 * t then h + 1 else h) r' ∧
      inorder r = l1 ++ l2 ∧ inorder r' = l1 ++ ⟨key, value⟩ :: l2 ∧
      ((keys (inorder r)).Pairwise (· ≤ ·) →
        (∀ y ∈ l1, y.m_Key ≤ key) ∧ (∀ y ∈ l2, key ≤ y.m_Key)) := by
  have hheight := hs.height_eq
  have hres : reserveNode (t : Int) = .ok () :=
    reserveNode_ok _ (by omega) (by exact_mod_cast ht30)
  have hwrap : wrapInt (2 * (t : Int) - 1) = 2 * (t : Int) - 1 :=
    wrapInt_eq _ (by omega) (by omega)
  by_cases hfull : r.nEntries + 1 = 2 * t
  · have hcond : (r.nEntries : Int) = 2 * (t : Int) - 1 := by omega
    obtain ⟨m, hm, hsplit⟩ := splitChild_eq t ht ht30 (BTreeNode.mk false [] [r]) 0 r (by simp)
      hfull (by simp) (fun hcl => by rw [hs.children_length hcl]; exact hfull)
      (by simp; omega)
    have hLs := hs.split_left ht hfull
    have hRs := hs.split_right ht hfull
    have hcin := hs.split_inorder ht hfull hm
    have hclen' : r.m_Entries.length = 2 * t - 1 := by unfold nEntries at hfull; omega
    have hLn : (BTreeNode.mk r.m_isLeaf (r.m_Entries.take (t - 1))
        (if r.m_isLeaf = true then r.m_Children else r.m_Children.take t)).nEntries + 1
        < 2 * t := by
      simp; omega
    have hRn : (BTreeNode.mk r.m_isLeaf (r.m_Entries.drop t)
        (if r.m_isLeaf = true then [] else r.m_Children.drop t)).nEntries + 1 < 2 * t := by
      simp; omega
    generalize BTreeNode.mk r.m_isLeaf (r.m_Entries.take (t - 1))
      (if r.m_isLeaf = true then r.m_Children else r.m_Children.take t) = cL
      at hsplit hLs hcin hLn
    generalize BTreeNode.mk r.m_isLeaf (r.m_Entries.drop t)
      (if r.m_isLeaf = true then [] else r.m_Children.drop t) = cR at hsplit hRs hcin hRn
    simp only [m_Entries_mk, List.take_nil, List.drop_nil, List.nil_append, m_Children_mk,
      List.take_zero, zero_add, List.drop_succ_cons, List.drop_zero, m_isLeaf_mk] at hsplit
    rw [if_pos hfull]
    have hshape : ∀ x y, Shaped t (t - 1) h x → Shaped t (t - 1) h y →
        Shaped t 1 (h + 1) (BTreeNode.mk false [m] [x, y]) := by
      intro x y hx hy
      refine ⟨rfl, by simp, by simp, by simp; omega, ?_⟩
      intro z hz
      simp only [m_Children_mk, List.mem_cons, List.mem_singleton, List.not_mem_nil,
        or_false] at hz
      rcases hz with hz | hz
      · rw [hz]; exact hx
      · rw [hz]; exact hy
    by_cases hk : key > m.m_Key
    · obtain ⟨c', l1, l2, hok, hs', hl12, hl12', hord⟩ :=
        insertToNonFull_spec t ht ht30 key value h (t - 1) cR hRs hRn
      refine ⟨BTreeNode.mk false [m] [cL, c'], inorder cL ++ m :: l1, l2, ?_, hshape _ _ hLs hs', ?_,
        ?_, ?_⟩
      · simp [insert, hwrap, hcond, newNode, hres, withChildren, hsplit, vecGet, hk, hheight,
          hok, withChild]
      · rw [hcin, hl12]; simp
      · simp [inorder, inorderZip, hl12']
      · intro hsort
        rw [hcin] at hsort
        obtain ⟨_, hRsort, hLm, _⟩ := sorted_cut hsort
        obtain ⟨ho1, ho2⟩ := hord hRsort
        refine ⟨?_, ho2⟩
        intro y hy
        simp only [List.mem_append, List.mem_cons] at hy
        rcases hy with hy | hy | hy
        · exact le_trans (hLm y hy) (le_of_lt hk)
        · rw [hy]; exact le_of_lt hk
        · exact ho1 y hy
    · obtain ⟨c', l1, l2, hok, hs', hl12, hl12', hord⟩ :=
        insertToNonFull_spec t ht ht30 key value h (t - 1) cL hLs hLn
      refine ⟨BTreeNode.mk false [m] [c', cR], l1, l2 ++ m :: inorder cR, ?_, hshape _ _ hs' hRs, ?_,
        ?_, ?_⟩
      · simp [insert, hwrap, hcond, newNode, hres, withChildren, hsplit, vecGet, hk, hheight,
          hok, withChild]
      · rw [hcin, hl12]; simp
      · simp [inorder, inorderZip, hl12']
      · intro hsort
        rw [hcin] at hsort
        obtain ⟨hLsort, _, _, hmR⟩ := sorted_cut hsort
        obtain ⟨ho1, ho2⟩ := hord hLsort
        have hkm : key ≤ m.m_Key := not_lt.mp hk
        refine ⟨ho1, ?_⟩
        intro y hy
        simp only [List.mem_append, List.mem_cons] at hy
        rcases hy with hy | hy | hy
        · exact ho2 y hy
        · rw [hy]; exact hkm
        · exact le_trans hkm (hmR y hy)
  · have hcond : ¬ (r.nEntries : Int) = 2 * (t : Int) - 1 := by omega
    have hnf : r.nEntries + 1 < 2 * t := by
      have := hs.entries_le
      omega
    obtain ⟨r', l1, l2, hok, hs', hl12, hl12', hord⟩ :=
      insertToNonFull_spec t ht ht30 key value h 1 r hs hnf
    rw [if_neg hfull]
    refine ⟨r', l1, l2, ?_, hs', hl12, hl12', hord⟩
    simp [insert, hwrap, hcond, hheight, hok]

end InsertTree

end BTree

namespace BTreeNode

section GetSpec

variable {K V : Type} [LinearOrder K]

theorem idxForKey_le (key : K) (es : List (Entry K V)) : idxForKey key es ≤ es.length := by
  induction es with
  | nil => simp [idxForKey]
  | cons e es ih =>
    simp only [idxForKey]
    split <;> simp
    omega

/-- The entries before the index found by the search have a smaller key. -/
theorem idxForKey_take (key : K) (es : List (Entry K V)) :
    ∀ y ∈ es.take (idxForKey key es), y.m_Key < key := by
  induction es with
  | nil => simp
  | cons e es ih =>
    simp only [idxForKey]
    by_cases h : key > e.m_Key
    · rw [if_pos h]
      intro y hy
      simp only [List.take_succ_cons, List.mem_cons] at hy
      rcases hy with hy | hy
      · rw [hy]; exact h
      · exact ih y hy
    · rw [if_neg h]
      simp

/-- The entry at the index found by the search has a key that is not smaller. -/
theorem idxForKey_at (key : K) (es : List (Entry K V)) (e : Entry K V)
    (he : es[idxForKey key es]? = some e) : key ≤ e.m_Key := by
  induction es with
  | nil => simp at he
  | cons a es ih =>
    simp only [idxForKey] at he
    by_cases h : key > a.m_Key
    · rw [if_pos h] at he
      simp only [List.getElem?_cons_succ] at he
      exact ih he
    · rw [if_neg h] at he
      simp only [List.getElem?_cons_zero, Option.some.injEq] at he
      rw [← he]
      exact not_lt.mp h

theorem strict_mid {a b c : List (Entry K V)}
    (h : (keys (a ++ b ++ c)).Pairwise (· < ·)) : (keys b).Pairwise (· < ·) := by
  simp only [keys_append] at h
  exact (List.pairwise_append.mp (List.pairwise_append.mp h).1).2.1

/-- In a sequence with strictly ascending keys an entry is determined by its key. -/
theorem eq_of_key_eq {l : List (Entry K V)} (hs : (keys l).Pairwise (· < ·))
    {a b : Entry K V} (ha : a ∈ l) (hb : b ∈ l) (hk : a.m_Key = b.m_Key) : a = b := by
  have hnd : (keys l).Nodup := hs.imp (fun h => ne_of_lt h)
  exact List.inj_on_of_nodup_map hnd ha hb hk

/-- Around the child that the search descends into, a traversal with strictly ascending
keys has only smaller keys before the child and only greater keys after it, provided the
entry at the index found is not the key searched. -/
theorem search_bounds (key : K) (es mid : List (Entry K V)) (cs : List (BTreeNode K V))
    (hlen : cs.length = es.length + 1)
    (hne : ∀ e, es[idxForKey key es]? = some e → e.m_Key ≠ key)
    (hs : (keys (preZip (es.take (idxForKey key es)) (cs.take (idxForKey key es)) ++ mid ++
      sufZip (es.drop (idxForKey key es)) (cs.drop (idxForKey key es + 1)))).Pairwise
        (· < ·)) :
    (∀ y ∈ preZip (es.take (idxForKey key es)) (cs.take (idxForKey key es)),
      y.m_Key < key) ∧
    (∀ y ∈ sufZip (es.drop (idxForKey key es)) (cs.drop (idxForKey key es + 1)),
      key < y.m_Key) := by
  have hle := idxForKey_le key es
  have htk := idxForKey_take key es
  have hat := idxForKey_at key es
  generalize idxForKey key es = i at *
  constructor
  · cases i with
    | zero => simp [preZip_nil_left]
    | succ j =>
      have hj : j < es.length := by omega
      have htake : es.take (j + 1) = es.take j ++ [es[j]] := by
        rw [List.take_succ, List.getElem?_eq_getElem hj]; rfl
      have hek : es[j].m_Key < key :=
        htk _ (htake ▸ List.mem_append_right _ (List.mem_singleton_self _))
      obtain ⟨l, hl⟩ := preZip_concat (es.take j) es[j] (cs.take (j + 1))
        (by simp; omega)
      rw [htake, hl] at hs
      rw [htake, hl]
      intro y hy
      rcases List.mem_append.mp hy with hy | hy
      · simp only [keys_append, List.append_assoc] at hs
        have := (List.pairwise_append.mp hs).2.2 y.m_Key (mem_keys_of_mem hy)
          es[j].m_Key (by simp [keys])
        exact lt_trans this hek
      · simp only [List.mem_singleton] at hy
        rw [hy]
        exact hek
  · cases hd : es.drop i with
    | nil => simp [sufZip]
    | cons e rest =>
      have hei : es[i]? = some e := by
        have := congrArg (fun l => l[0]?) hd
        simpa using this
      have hgt : key < e.m_Key := lt_of_le_of_ne (hat e hei) (fun h => hne e hei h.symm)
      rw [hd] at hs
      simp only [sufZip] at hs ⊢
      intro y hy
      rcases List.mem_cons.mp hy with hy | hy
      · rw [hy]
        exact hgt
      · simp only [keys_append, keys_cons] at hs
        have h2 := (List.pairwise_append.mp hs).2.1
        have := (List.pairwise_cons.mp h2).1 y.m_Key (mem_keys_of_mem hy)
        exact lt_trans hgt this

/-- In a leaf with strictly ascending keys, a key that is not at the index found by the
search is in no entry. -/
theorem search_leaf (key : K) (es : List (Entry K V))
    (hne : ∀ e, es[idxForKey key es]? = some e → e.m_Key ≠ key)
    (hs : (keys es).Pairwise (· < ·)) : ∀ y ∈ es, y.m_Key ≠ key := by
  have htk := idxForKey_take key es
  have hat := idxForKey_at key es
  generalize idxForKey key es = i at *
  intro y hy
  rw [← List.take_append_drop i es] at hy hs
  rcases List.mem_append.mp hy with hy | hy
  · exact ne_of_lt (htk y hy)
  · cases hd : es.drop i with
    | nil => rw [hd] at hy; simp at hy
    | cons e rest =>
      have hei : es[i]? = some e := by
        have := congrArg (fun l => l[0]?) hd
        simpa using this
      have hgt : key < e.m_Key := lt_of_le_of_ne (hat e hei) (fun h => hne e hei h.symm)
      rw [hd] at hy hs
      rcases List.mem_cons.mp hy with hy | hy
      · rw [hy]
        exact ne_of_gt hgt
      · simp only [keys_append, keys_cons] at hs
        have h2 := (List.pairwise_append.mp hs).2.1
        have := (List.pairwise_cons.mp h2).1 y.m_Key (mem_keys_of_mem hy)
        exact ne_of_gt (lt_trans hgt this)

end GetSpec

end BTreeNode

namespace BTreeNode

section GetValue

variable {K V : Type}

theorem mem_inorderZip_of_mem (es : List (Entry K V)) (cs : List (BTreeNode K V))
    (e : Entry K V) (he : e ∈ es) : e ∈ inorderZip es cs := by
  induction es generalizing cs with
  | nil => simp at he
  | cons a es ih =>
    cases cs with
    | nil => simpa using he
    | cons c cs =>
      simp only [inorderZip, List.mem_append, List.mem_cons]
      rcases List.mem_cons.mp he with he | he
      · exact Or.inr (Or.inl he)
      · exact Or.inr (Or.inr (ih cs he))

theorem mem_inorder_of_mem (n : BTreeNode K V) (e : Entry K V) (he : e ∈ n.m_Entries) :
    e ∈ inorder n := by
  rw [inorder_eq]
  exact mem_inorderZip_of_mem _ _ e he

variable [LinearOrder K]

theorem found_iff {l : List (Entry K V)} (hs : (keys l).Pairwise (· < ·)) {e : Entry K V}
    {key : K} (he : e ∈ l) (hk : e.m_Key = key) (w : V) :
    some e.m_Value = some w ↔ (⟨key, w⟩ : Entry K V) ∈ l := by
  constructor
  · intro h
    simp only [Option.some.injEq] at h
    rw [← h, ← hk]
    exact he
  · intro h
    have := eq_of_key_eq hs he h hk
    rw [this]

/-- What the assignment through the pointer returned by `getValuePtr` does when the pointer
is not null: the node keeps its shape and in the traversal the entry found gets the new
value. -/
theorem storeValue_spec (t : Nat) (key : K) (value : V) :
    ∀ (h lo : Nat) (n : BTreeNode K V), Shaped t lo h n →
      ∀ w, getValuePtr key (h + 1) n = .ok (some w) →
      ∃ n' l1 l2, storeValue key value (h + 1) n = .ok n' ∧ Shaped t lo h n' ∧
        inorder n = l1 ++ ⟨key, w⟩ :: l2 ∧ inorder n' = l1 ++ ⟨key, value⟩ :: l2 := by
  intro h
  induction h with
  | zero =>
    intro lo n hs w hget
    obtain ⟨hl, hc, hlo, hhi⟩ := hs
    rw [getValuePtr] at hget
    rw [storeValue]
    cases hei : n.m_Entries[idxForKey key n.m_Entries]? with
    | none => simp [hei, hl] at hget
    | some e =>
      by_cases hk : e.m_Key = key
      · simp only [hei, hk, if_true, Except.ok.injEq, Option.some.injEq] at hget
        have hlt : idxForKey key n.m_Entries < n.m_Entries.length := by
          rcases List.getElem?_eq_some_iff.mp hei with ⟨h, _⟩; exact h
        have he : e = ⟨key, w⟩ := by
          cases e; simp at hk hget; simp [hk, hget]
        refine ⟨n.withEntries (n.m_Entries.set (idxForKey key n.m_Entries) ⟨key, value⟩),
          n.m_Entries.take (idxForKey key n.m_Entries),
          n.m_Entries.drop (idxForKey key n.m_Entries + 1), by simp [hk], ?_, ?_, ?_⟩
        · unfold nEntries at hlo hhi
          exact ⟨by simp [withEntries, hl], by simp [withEntries, hc],
            by simpa [withEntries] using hlo, by simpa [withEntries] using hhi⟩
        · rw [inorder_eq, hc, inorderZip_nil_right, ← he]
          exact eq_take_drop_of_getElem? _ _ _ hei
        · simp only [withEntries, inorder, hc, inorderZip_nil_right]
          exact set_eq_take_drop _ _ _ hlt
      · simp [hei, hk, hl] at hget
  | succ h ih =>
    intro lo n hs w hget
    obtain ⟨hl, hclen, hlo, hhi, hch⟩ := hs
    have hile : idxForKey key n.m_Entries ≤ n.nEntries := idxForKey_le key n.m_Entries
    rw [getValuePtr] at hget
    rw [storeValue]
    generalize hidef : idxForKey key n.m_Entries = i at hile hget
    have hilt : i < n.m_Children.length := by omega
    have hci : n.m_Children[i]? = some n.m_Children[i] := List.getElem?_eq_getElem hilt
    generalize n.m_Children[i] = c at hci
    have hcs : Shaped t (t - 1) h c := hch c (List.getElem?_mem hci)
    have hin := inorder_around n c i hci hile
    have descend : getValuePtr key (h + 1) c = .ok (some w) →
        ∃ n' l1 l2, (do
            let child ← storeValue key value (h + 1) c
            pure (n.withChild i child)) = .ok n' ∧ Shaped t lo (h + 1) n' ∧
          inorder n = l1 ++ ⟨key, w⟩ :: l2 ∧ inorder n' = l1 ++ ⟨key, value⟩ :: l2 := by
      intro hg
      obtain ⟨c', l1, l2, hok, hs', hl12, hl12'⟩ := ih (t - 1) c hcs w hg
      refine ⟨n.withChild i c',
        preZip (n.m_Entries.take i) (n.m_Children.take i) ++ l1,
        l2 ++ sufZip (n.m_Entries.drop i) (n.m_Children.drop (i + 1)), by simp [hok], ?_,
        ?_, ?_⟩
      · refine ⟨by simp [withChild, hl], ?_, ?_, ?_, ?_⟩
        · simpa [withChild, nEntries] using hclen
        · simpa [withChild, nEntries] using hlo
        · simpa [withChild, nEntries] using hhi
        · intro x hx
          simp only [withChild, m_Children_mk] at hx
          rcases List.mem_or_eq_of_mem_set hx with hx | hx
          · exact hch x hx
          · rw [hx]; exact hs'
      · rw [hin, hl12]; simp
      · rw [inorder_withChild n c' i hilt hile, hl12']; simp
    cases hei : n.m_Entries[i]? with
    | none =>
      simp only [hei, hl, Bool.false_eq_true, if_false, vecGet_eq_ok hci,
        except_ok_bind] at hget ⊢
      exact descend hget
    | some e =>
      by_cases hk : e.m_Key = key
      · simp only [hei, hk, if_true, Except.ok.injEq, Option.some.injEq] at hget
        have hlt : i < n.m_Entries.length := by
          rcases List.getElem?_eq_some_iff.mp hei with ⟨h, _⟩; exact h
        have he : e = ⟨key, w⟩ := by
          cases e; simp at hk hget; simp [hk, hget]
        refine ⟨n.withEntries (n.m_Entries.set i ⟨key, value⟩),
          inorderZip (n.m_Entries.take i) (n.m_Children.take (i + 1)),
          inorderZip (n.m_Entries.drop (i + 1)) (n.m_Children.drop (i + 1)),
          by simp [hk], ?_, ?_, ?_⟩
        · unfold nEntries at hlo hhi hclen
          exact ⟨by simp [withEntries, hl], by simpa [withEntries, nEntries] using hclen,
            by simpa [withEntries] using hlo, by simpa [withEntries] using hhi,
            by simpa [withEntries] using hch⟩
        · rw [inorder_eq, ← he]
          conv_lhs =>
            rw [eq_take_drop_of_getElem? _ _ _ hei,
              ← List.take_append_drop (i + 1) n.m_Children]
          apply inorderZip_cut
          right
          simp
          omega
        · simp only [withEntries, inorder]
          conv_lhs =>
            rw [set_eq_take_drop _ _ _ hlt, ← List.take_append_drop (i + 1) n.m_Children]
          apply inorderZip_cut
          right
          simp
          omega
      · simp only [hei, hk, hl, Bool.false_eq_true, if_false, vecGet_eq_ok hci,
          except_ok_bind] at hget ⊢
        exact descend hget

end GetValue

end BTreeNode

namespace BTreeNode

section OrderedSorted

variable {K V : Type}

/-- An entry of the traversal of a node is an entry of the node or lies under a child. -/
theorem mem_inorderZip (es : List (Entry K V)) (cs : List (BTreeNode K V)) (y : Entry K V)
    (hy : y ∈ inorderZip es cs) :
    y ∈ es ∨ ∃ j c, j ≤ es.length ∧ cs[j]? = some c ∧ y ∈ inorder c := by
  induction es generalizing cs with
  | nil =>
    cases cs with
    | nil => simp at hy
    | cons c cs =>
      simp only [inorderZip] at hy
      exact Or.inr ⟨0, c, by simp, by simp, hy⟩
  | cons e es ih =>
    cases cs with
    | nil => left; simpa using hy
    | cons c cs =>
      simp only [inorderZip, List.mem_append, List.mem_cons] at hy
      rcases hy with hy | hy | hy
      · exact Or.inr ⟨0, c, by simp, by simp, hy⟩
      · left; rw [hy]; exact List.mem_cons_self _ _
      · rcases ih cs hy with h | ⟨j, c', hj, hc', hy'⟩
        · left; exact List.mem_cons_of_mem _ h
        · exact Or.inr ⟨j + 1, c', by simp; omega, by simpa using hc', hy'⟩

variable [LinearOrder K]

/-- The per-node ordering conditions make the interleaved traversal strictly ascending. -/
theorem inorderZip_sorted (es : List (Entry K V)) (cs : List (BTreeNode K V))
    (hlen : cs.length = es.length + 1)
    (hes : (keys es).Pairwise (· < ·))
    (hcs : ∀ c ∈ cs, (keys (inorder c)).Pairwise (· < ·))
    (hlt : ∀ (j : Nat) (e : Entry K V) (c : BTreeNode K V), es[j]? = some e →
      cs[j]? = some c → ∀ x ∈ inorder c, x.m_Key < e.m_Key)
    (hgt : ∀ (j : Nat) (e : Entry K V) (c : BTreeNode K V), es[j]? = some e →
      cs[j + 1]? = some c → ∀ x ∈ inorder c, e.m_Key < x.m_Key) :
    (keys (inorderZip es cs)).Pairwise (· < ·) := by
  induction es generalizing cs with
  | nil =>
    match cs, hlen with
    | [c], _ => simpa [inorderZip] using hcs c (by simp)
  | cons e es ih =>
    cases cs with
    | nil => simp at hlen
    | cons c cs =>
      simp only [List.length_cons, Nat.add_right_cancel_iff] at hlen
      have hes' := List.pairwise_cons.mp (by simpa [keys] using hes :
        (e.m_Key :: keys es).Pairwise (· < ·))
      have hrest : (keys (inorderZip es cs)).Pairwise (· < ·) :=
        ih cs hlen hes'.2 (fun x hx => hcs x (List.mem_cons_of_mem _ hx))
          (fun j e' c' he' hc' => hlt (j + 1) e' c' (by simpa using he') (by simpa using hc'))
          (fun j e' c' he' hc' => hgt (j + 1) e' c' (by simpa using he') (by simpa using hc'))
      have hlow : ∀ y ∈ inorderZip es cs, e.m_Key < y.m_Key := by
        intro y hy
        rcases mem_inorderZip es cs y hy with h | ⟨j, c', hj, hc', hy'⟩
        · exact hes'.1 _ (mem_keys_of_mem h)
        · cases j with
          | zero => exact hgt 0 e c' (by simp) (by simpa using hc') y hy'
          | succ j =>
            have hjlt : j < es.length := by omega
            have h1 : e.m_Key < es[j].m_Key :=
              hes'.1 _ (mem_keys_of_mem (List.getElem_mem hjlt))
            have h2 := hgt (j + 1) es[j] c' (by simp [List.getElem?_eq_getElem hjlt])
              (by simpa using hc') y hy'
            exact lt_trans h1 h2
      have hc0 : ∀ x ∈ inorder c, x.m_Key < e.m_Key :=
        hlt 0 e c (by simp) (by simp)
      simp only [inorderZip, keys_append, keys_cons]
      refine List.pairwise_append.mpr ⟨hcs c (List.mem_cons_self _ _), ?_, ?_⟩
      · refine List.pairwise_cons.mpr ⟨?_, hrest⟩
        intro k hk
        obtain ⟨y, hy, rfl⟩ := List.mem_map.mp hk
        exact hlow y hy
      · intro a ha b hb
        obtain ⟨x, hx, rfl⟩ := List.mem_map.mp ha
        rcases List.mem_cons.mp hb with hb | hb
        · rw [hb]; exact hc0 x hx
        · obtain ⟨y, hy, rfl⟩ := List.mem_map.mp hb
          exact lt_trans (hc0 x hx) (hlow y hy)

end OrderedSorted

end BTreeNode

namespace BTreeNode

section General

variable {K V : Type}

theorem wellShapedList_iff (cs : List (BTreeNode K V)) :
    WellShapedList cs ↔ ∀ c ∈ cs, WellShaped c := by
  induction cs with
  | nil => simp [WellShapedList]
  | cons c cs ih => simp [WellShapedList, ih]

theorem height_le_heightList (cs : List (BTreeNode K V)) (c : BTreeNode K V) (hc : c ∈ cs) :
    height c ≤ heightList cs := by
  induction cs with
  | nil => simp at hc
  | cons d ds ih =>
    simp only [heightList]
    rcases List.mem_cons.mp hc with h | h
    · rw [h]; exact le_max_left _ _
    · exact le_trans (ih h) (le_max_right _ _)

theorem height_lt_of_mem (n c : BTreeNode K V) (hc : c ∈ n.m_Children) :
    height c < height n := by
  cases n with
  | mk l es cs =>
    simp only [height]
    have := height_le_heightList cs c hc
    omega

theorem height_pos (n : BTreeNode K V) : 0 < height n := by
  cases n; simp [height]

theorem WellShaped.children {n : BTreeNode K V} (h : WellShaped n) :
    ∀ c ∈ n.m_Children, WellShaped c := by
  cases n with
  | mk l es cs =>
    simp only [WellShaped] at h
    exact (wellShapedList_iff cs).mp h.2

theorem WellShaped.leaf {n : BTreeNode K V} (h : WellShaped n) (hl : n.m_isLeaf = true) :
    n.m_Children = [] := by
  cases n with
  | mk l es cs =>
    simp only [WellShaped] at h
    simp only [m_isLeaf_mk] at hl
    simpa [hl] using h.1

theorem WellShaped.internal {n : BTreeNode K V} (h : WellShaped n)
    (hl : n.m_isLeaf = false) : n.m_Children.length = n.nEntries + 1 := by
  cases n with
  | mk l es cs =>
    simp only [WellShaped] at h
    simp only [m_isLeaf_mk] at hl
    simpa [hl] using h.1

/-- The size and balance invariant includes the data model of a node. -/
theorem Shaped.wellShaped {t : Nat} : ∀ (h lo : Nat) (n : BTreeNode K V),
    Shaped t lo h n → WellShaped n := by
  intro h
  induction h with
  | zero =>
    intro lo n hs
    cases n with
    | mk l es cs =>
      obtain ⟨hl, hc, _, _⟩ := hs
      simp only [m_isLeaf_mk, m_Children_mk] at hl hc
      simp [WellShaped, hl, hc, WellShapedList]
  | succ h ih =>
    intro lo n hs
    cases n with
    | mk l es cs =>
      obtain ⟨hl, hc, _, _, hch⟩ := hs
      simp only [m_isLeaf_mk, m_Children_mk, nEntries_mk] at hl hc hch
      simp only [WellShaped, hl, Bool.false_eq_true, if_false]
      exact ⟨hc, (wellShapedList_iff cs).mpr (fun c hc' => ih _ c (hch c hc'))⟩

/-- On a well-shaped node `getAllEntries` returns the traversal. -/
theorem WellShaped.getAllEntries_eq : ∀ (k : Nat) (n : BTreeNode K V), height n ≤ k →
    WellShaped n → getAllEntries n = .ok (inorder n) := by
  intro k
  induction k with
  | zero =>
    intro n hk
    have := height_pos n
    omega
  | succ k ih =>
    intro n hk hw
    have hch := hw.children
    have hlt := height_lt_of_mem n
    cases n with
    | mk l es cs =>
      cases l with
      | true =>
        have := hw.leaf rfl
        simp only [m_Children_mk] at this
        simp [getAllEntries, inorder, this]
      | false =>
        have hlen := hw.internal rfl
        simp only [getAllEntries, inorder]
        exact getAllEntriesLoop_ok es cs hlen
          (fun c hc => ih c (by have := hlt c hc; omega) (hch c hc))

variable [LinearOrder K]

theorem orderedList_iff (cs : List (BTreeNode K V)) :
    OrderedList cs ↔ ∀ c ∈ cs, Ordered c := by
  induction cs with
  | nil => simp [OrderedList]
  | cons c cs ih => simp [OrderedList, ih]

/-- In a well-shaped tree that satisfies the ordering invariant the keys of the traversal
are strictly ascending. -/
theorem Ordered.sorted : ∀ (k : Nat) (n : BTreeNode K V), height n ≤ k → WellShaped n →
    Ordered n → (keys (inorder n)).Pairwise (· < ·) := by
  intro k
  induction k with
  | zero =>
    intro n hk
    have := height_pos n
    omega
  | succ k ih =>
    intro n hk hw ho
    have hch := hw.children
    have hlt := height_lt_of_mem n
    cases n with
    | mk l es cs =>
      simp only [Ordered] at ho
      obtain ⟨hes, hent, hco⟩ := ho
      rw [orderedList_iff] at hco
      simp only [inorder]
      cases l with
      | true =>
        have := hw.leaf rfl
        simp only [m_Children_mk] at this
        rw [this, inorderZip_nil_right]
        exact hes
      | false =>
        have hlen := hw.internal rfl
        apply inorderZip_sorted _ _ hlen hes
          (fun c hc => ih c (by have := hlt c hc; omega) (hch c hc) (hco c hc))
        · intro j e c he hc x hx
          have hj : j < es.length := by
            rcases List.getElem?_eq_some_iff.mp he with ⟨h, _⟩; exact h
          exact (hent j hj e he).1 c hc x hx
        · intro j e c he hc x hx
          have hj : j < es.length := by
            rcases List.getElem?_eq_some_iff.mp he with ⟨h, _⟩; exact h
          exact (hent j hj e he).2 c hc x hx

/-- What `getValuePtr` returns on a well-shaped node whose traversal has strictly
ascending keys, given fuel for the height of the node: a pointer to the value `w` exactly
when the entry `(key, w)` is in the traversal. -/
theorem getValuePtr_general (key : K) :
    ∀ (fuel : Nat) (n : BTreeNode K V), height n ≤ fuel → WellShaped n →
      (keys (inorder n)).Pairwise (· < ·) →
      ∃ r, getValuePtr key fuel n = .ok r ∧
        ∀ w, r = some w ↔ (⟨key, w⟩ : Entry K V) ∈ inorder n := by
  intro fuel
  induction fuel with
  | zero =>
    intro n hk
    have := height_pos n
    omega
  | succ fuel ih =>
    intro n hk hw hsort
    have hch := hw.children
    have hlt := height_lt_of_mem n
    rw [getValuePtr]
    cases hl : n.m_isLeaf with
    | true =>
      have hc := hw.leaf hl
      have hin : inorder n = n.m_Entries := by rw [inorder_eq, hc, inorderZip_nil_right]
      rw [hin] at hsort ⊢
      cases hei : n.m_Entries[idxForKey key n.m_Entries]? with
      | none =>
        refine ⟨none, by simp, ?_⟩
        intro w
        constructor
        · intro h; cases h
        · intro h
          exact absurd rfl (search_leaf key n.m_Entries (by simp [hei]) hsort _ h)
      | some e =>
        by_cases hk : e.m_Key = key
        · exact ⟨some e.m_Value, by simp [hk], found_iff hsort (List.getElem?_mem hei) hk⟩
        · refine ⟨none, by simp [hk], ?_⟩
          intro w
          constructor
          · intro h; cases h
          · intro h
            refine absurd rfl (search_leaf key n.m_Entries ?_ hsort _ h)
            intro e' he'
            rw [hei] at he'
            cases he'
            exact hk
    | false =>
      have hclen := hw.internal hl
      have hile : idxForKey key n.m_Entries ≤ n.nEntries := idxForKey_le key n.m_Entries
      have hbounds := fun mid hne hsort' =>
        search_bounds key n.m_Entries mid n.m_Children hclen hne hsort'
      generalize hidef : idxForKey key n.m_Entries = i at hile hbounds
      have hilt : i < n.m_Children.length := by omega
      have hci : n.m_Children[i]? = some n.m_Children[i] := List.getElem?_eq_getElem hilt
      generalize n.m_Children[i] = c at hci
      have hcm : c ∈ n.m_Children := List.getElem?_mem hci
      have hin := inorder_around n c i hci hile
      have descend : (∀ e, n.m_Entries[i]? = some e → e.m_Key ≠ key) →
          ∃ r, getValuePtr key fuel c = .ok r ∧
            ∀ w, r = some w ↔ (⟨key, w⟩ : Entry K V) ∈ inorder n := by
        intro hne
        rw [hin] at hsort
        obtain ⟨r, hr, hiff⟩ := ih c (by have := hlt c hcm; omega) (hch c hcm)
          (strict_mid hsort)
        obtain ⟨hb1, hb2⟩ := hbounds _ hne hsort
        refine ⟨r, hr, ?_⟩
        intro w
        rw [hiff w, hin]
        simp only [List.mem_append]
        constructor
        · intro h; exact Or.inl (Or.inr h)
        · intro h
          rcases h with (h | h) | h
          · exact absurd rfl (ne_of_lt (hb1 _ h))
          · exact h
          · exact absurd rfl (ne_of_gt (hb2 _ h))
      cases hei : n.m_Entries[i]? with
      | none =>
        obtain ⟨r, hr, hiff⟩ := descend (by simp [hei])
        exact ⟨r, by simp [vecGet_eq_ok hci, hr], hiff⟩
      | some e =>
        by_cases hk : e.m_Key = key
        · exact ⟨some e.m_Value, by simp [hk],
            found_iff hsort (mem_inorder_of_mem n e (List.getElem?_mem hei)) hk⟩
        · obtain ⟨r, hr, hiff⟩ := descend (by
            intro e' he'
            rw [hei] at he'
            cases he'
            exact hk)
          exact ⟨r, by simp [hk, vecGet_eq_ok hci, hr], hiff⟩

/-- The same for a node that satisfies the size and balance invariant at height `h`. -/
theorem getValuePtr_spec (t : Nat) (key : K) (h lo : Nat) (n : BTreeNode K V)
    (hs : Shaped t lo h n) (hsort : (keys (inorder n)).Pairwise (· < ·)) :
    ∃ r, getValuePtr key (h + 1) n = .ok r ∧
      ∀ w, r = some w ↔ (⟨key, w⟩ : Entry K V) ∈ inorder n :=
  getValuePtr_general key (h + 1) n (le_of_eq hs.height_eq) (hs.wellShaped) hsort

end General

end BTreeNode

namespace BTreeNode

section Total

variable {K V : Type} [LinearOrder K]

/-- On a well-shaped node `getValuePtr` returns, whatever the order of the keys. -/
theorem getValuePtr_ok (key : K) :
    ∀ (fuel : Nat) (n : BTreeNode K V), height n ≤ fuel → WellShaped n →
      ∃ r, getValuePtr key fuel n = .ok r := by
  intro fuel
  induction fuel with
  | zero =>
    intro n hk
    have := height_pos n
    omega
  | succ fuel ih =>
    intro n hk hw
    have hch := hw.children
    have hlt := height_lt_of_mem n
    rw [getValuePtr]
    cases hl : n.m_isLeaf with
    | true =>
      cases hei : n.m_Entries[idxForKey key n.m_Entries]? with
      | none => exact ⟨none, by simp⟩
      | some e =>
        by_cases hk : e.m_Key = key
        · exact ⟨some e.m_Value, by simp [hk]⟩
        · exact ⟨none, by simp [hk]⟩
    | false =>
      have hclen := hw.internal hl
      have hile : idxForKey key n.m_Entries ≤ n.nEntries := idxForKey_le key n.m_Entries
      generalize hidef : idxForKey key n.m_Entries = i at hile
      have hilt : i < n.m_Children.length := by omega
      have hci : n.m_Children[i]? = some n.m_Children[i] := List.getElem?_eq_getElem hilt
      generalize n.m_Children[i] = c at hci
      have hcm : c ∈ n.m_Children := List.getElem?_mem hci
      obtain ⟨r, hr⟩ := ih c (by have := hlt c hcm; omega) (hch c hcm)
      cases hei : n.m_Entries[i]? with
      | none => exact ⟨r, by simp [vecGet_eq_ok hci, hr]⟩
      | some e =>
        by_cases hk : e.m_Key = key
        · exact ⟨some e.m_Value, by simp [hk]⟩
        · exact ⟨r, by simp [hk, vecGet_eq_ok hci, hr]⟩

end Total

end BTreeNode

namespace BTree

section TreeSpec

variable {K V : Type} [LinearOrder K]

open BTreeNode

omit [LinearOrder K] in
theorem Inv.exists_nat {T : BTree K V} (h : T.Inv) : ∃ t : Nat, 1 ≤ t ∧ T.m_t = (t : Int) := by
  obtain ⟨h1, _⟩ := h
  exact ⟨T.m_t.toNat, by omega, by omega⟩

omit [LinearOrder K] in
theorem Inv.root {T : BTree K V} (h : T.Inv) (r : BTreeNode K V) (hr : T.m_Root = some r) :
    ∃ k, Shaped T.m_t.toNat 1 k r := ⟨_, h.2 r hr⟩

omit [LinearOrder K] in
theorem Inv.of_shaped {t : Int} {h : Nat} {r : BTreeNode K V} (ht : 1 ≤ t)
    (hs : Shaped t.toNat 1 h r) : Inv (⟨t, some r⟩ : BTree K V) := by
  refine ⟨ht, ?_⟩
  intro x hx
  simp only [Option.mem_def, Option.some.injEq] at hx
  subst hx
  rw [hs.height_eq]
  exact hs

/-- What `BTree::insert` does on a tree that satisfies the size and balance invariant and
has a degree below `2^30`. -/
theorem insert_spec (T : BTree K V) (hinv : T.Inv) (h30 : T.m_t < 2 ^ 30) (key : K)
    (value : V) :
    ∃ T' l1 l2, T.insert key value = .ok T' ∧ T'.Inv ∧ T'.m_t = T.m_t ∧ T'.m_Root ≠ none ∧
      T.entries = l1 ++ l2 ∧ T'.entries = l1 ++ ⟨key, value⟩ :: l2 ∧
      ((keys T.entries).Pairwise (· ≤ ·) →
        (∀ y ∈ l1, y.m_Key ≤ key) ∧ (∀ y ∈ l2, key ≤ y.m_Key)) := by
  obtain ⟨t, ht, hT⟩ := hinv.exists_nat
  obtain ⟨_, hroot⟩ := hinv
  cases T with
  | mk m_t root =>
    simp only at hT h30
    subst hT
    have ht30 : t < 2 ^ 30 := by exact_mod_cast h30
    cases root with
    | none =>
      refine ⟨⟨(t : Int), some (BTreeNode.mk true [⟨key, value⟩] [])⟩, [], [],
        insert_empty _ (by omega) h30 key value, ?_, rfl, by simp,
        by simp [entries], by simp [entries, inorder], by simp⟩
      refine Inv.of_shaped (h := 0) (by omega) ⟨rfl, rfl, by simp, ?_⟩
      simp
      omega
    | some r =>
      have hs := hroot r rfl
      simp only [Int.toNat_ofNat] at hs
      obtain ⟨r', l1, l2, hok, hs', h1, h2, h3⟩ := insert_root t ht ht30 key value _ r hs
      exact ⟨⟨(t : Int), some r'⟩, l1, l2, hok,
        Inv.of_shaped (by omega) (by simpa using hs'), rfl, by simp,
        by simpa [entries] using h1, by simpa [entries] using h2,
        by simpa [entries] using h3⟩

/-- What `BTree::set` does on a tree that satisfies the size and balance invariant: it
returns a tree that satisfies the invariant, and either the key was found and its entry
has the new value, or the key was not found and the tree is the result of `insert`. -/
theorem set_spec (T : BTree K V) (hinv : T.Inv) (h30 : T.m_t < 2 ^ 30) (key : K)
    (value : V) :
    ∃ T' l1 l2, T.set key value = .ok T' ∧ T'.Inv ∧ T'.m_t = T.m_t ∧ T'.m_Root ≠ none ∧
      T'.entries = l1 ++ ⟨key, value⟩ :: l2 ∧
      ((∃ w, T.getValuePtr key = .ok (some w) ∧ T.entries = l1 ++ ⟨key, w⟩ :: l2) ∨
        (T.getValuePtr key = .ok none ∧ T.insert key value = .ok T' ∧ T.entries = l1 ++ l2 ∧
          ((keys T.entries).Pairwise (· ≤ ·) →
            (∀ y ∈ l1, y.m_Key ≤ key) ∧ (∀ y ∈ l2, key ≤ y.m_Key)))) := by
  have hget : ∃ p, T.getValuePtr key = .ok p := by
    unfold getValuePtr
    cases hr : T.m_Root with
    | none => exact ⟨none, rfl⟩
    | some r =>
      exact getValuePtr_ok key r.height r (le_refl _) (hinv.2 r hr).wellShaped
  obtain ⟨p, hp⟩ := hget
  cases p with
  | none =>
    obtain ⟨T', l1, l2, hok, hinv', hmt, hne, h1, h2, h3⟩ := insert_spec T hinv h30 key value
    refine ⟨T', l1, l2, ?_, hinv', hmt, hne, h2, Or.inr ⟨hp, hok, h1, h3⟩⟩
    simp [set, hp, hok]
  | some w =>
    obtain ⟨t, ht, hT⟩ := hinv.exists_nat
    cases hr : T.m_Root with
    | none => simp [getValuePtr, hr] at hp
    | some r =>
      have hs := hinv.2 r hr
      have hh := hs.height_eq
      generalize r.height - 1 = h at hs hh
      simp only [getValuePtr, hr, hh] at hp
      obtain ⟨r', l1, l2, hok, hs', h1, h2⟩ :=
        storeValue_spec T.m_t.toNat key value h 1 r hs w hp
      refine ⟨⟨T.m_t, some r'⟩, l1, l2, ?_, Inv.of_shaped hinv.1 hs', rfl, by simp,
        by simpa [entries] using h2,
        Or.inl ⟨w, by simp [getValuePtr, hr, hh, hp], by simpa [entries, hr] using h1⟩⟩
      simp [set, getValuePtr, hr, hh, hp, hok]

end TreeSpec

end BTree

namespace BTree

section SetSorted

variable {K V : Type} [LinearOrder K]

open BTreeNode

/-- Lookup on a tree that satisfies the size and balance invariant and has strictly
ascending keys returns `w` exactly when `(key, w)` is in the traversal. -/
theorem get_spec (T : BTree K V) (hinv : T.Inv) (hsort : (keys T.entries).Pairwise (· < ·))
    (key : K) :
    ∃ p, T.getValuePtr key = .ok p ∧ ∀ w, p = some w ↔ (⟨key, w⟩ : Entry K V) ∈ T.entries := by
  unfold getValuePtr entries
  unfold entries at hsort
  cases hr : T.m_Root with
  | none => exact ⟨none, rfl, by simp⟩
  | some r =>
    simp only [hr] at hsort
    exact getValuePtr_general key r.height r (le_refl _) (hinv.2 r hr).wellShaped hsort

theorem not_mem_of_get_none (T : BTree K V) (hinv : T.Inv)
    (hsort : (keys T.entries).Pairwise (· < ·)) (key : K)
    (hget : T.getValuePtr key = .ok none) : ∀ y ∈ T.entries, y.m_Key ≠ key := by
  obtain ⟨p, hp, hiff⟩ := get_spec T hinv hsort key
  rw [hget] at hp
  cases hp
  intro y hy hk
  have := (hiff y.m_Value).mpr (by rw [← hk]; exact hy)
  cases this

/-- A new key put between the smaller and the greater keys keeps the keys strictly
ascending. -/
theorem sorted_insert {l1 l2 : List (Entry K V)} {x : Entry K V}
    (hs : (keys (l1 ++ l2)).Pairwise (· < ·))
    (h1 : ∀ y ∈ l1, y.m_Key < x.m_Key) (h2 : ∀ y ∈ l2, x.m_Key < y.m_Key) :
    (keys (l1 ++ x :: l2)).Pairwise (· < ·) := by
  simp only [keys_append, keys_cons] at hs ⊢
  obtain ⟨ha, hb, hab⟩ := List.pairwise_append.mp hs
  refine List.pairwise_append.mpr ⟨ha, List.pairwise_cons.mpr ⟨?_, hb⟩, ?_⟩
  · intro k hk
    obtain ⟨y, hy, rfl⟩ := List.mem_map.mp hk
    exact h2 y hy
  · intro a ha' b hb'
    rcases List.mem_cons.mp hb' with h | h
    · obtain ⟨y, hy, rfl⟩ := List.mem_map.mp ha'
      rw [h]
      exact h1 y hy
    · exact hab a ha' b h

/-- `BTree::set` keeps the keys of the traversal strictly ascending. -/
theorem set_sorted (T : BTree K V) (hinv : T.Inv) (h30 : T.m_t < 2 ^ 30)
    (hsort : (keys T.entries).Pairwise (· < ·)) (key : K) (value : V) :
    ∃ T' l1 l2, T.set key value = .ok T' ∧ T'.Inv ∧ T'.m_t = T.m_t ∧ T'.m_Root ≠ none ∧
      (keys T'.entries).Pairwise (· < ·) ∧ T'.entries = l1 ++ ⟨key, value⟩ :: l2 ∧
      (T.entries = l1 ++ l2 ∨ ∃ w, T.entries = l1 ++ ⟨key, w⟩ :: l2) := by
  obtain ⟨T', l1, l2, hok, hinv', hmt, hne, he', hcase⟩ := set_spec T hinv h30 key value
  rcases hcase with ⟨w, _, he⟩ | ⟨hget, _, he, hb⟩
  · refine ⟨T', l1, l2, hok, hinv', hmt, hne, ?_, he', Or.inr ⟨w, he⟩⟩
    rw [he] at hsort
    rw [he']
    simpa [keys] using hsort
  · refine ⟨T', l1, l2, hok, hinv', hmt, hne, ?_, he', Or.inl he⟩
    have hno := not_mem_of_get_none T hinv hsort key hget
    obtain ⟨hb1, hb2⟩ := hb (hsort.imp le_of_lt)
    rw [he] at hno hsort
    rw [he']
    exact sorted_insert hsort
      (fun y hy => lt_of_le_of_ne (hb1 y hy) (hno y (List.mem_append_left _ hy)))
      (fun y hy => lt_of_le_of_ne (hb2 y hy)
        (fun h => hno y (List.mem_append_right _ hy) h.symm))

omit [LinearOrder K] in
theorem getAllEntries_eq_entries (T : BTree K V) (hinv : T.Inv) (hne : T.m_Root ≠ none) :
    T.getAllEntries = .ok T.entries := by
  unfold getAllEntries entries
  cases hr : T.m_Root with
  | none => exact absurd hr hne
  | some r => exact (hinv.2 r hr).getAllEntries_ok

theorem WellFormed.inv {T : BTree K V} (h : T.WellFormed) : T.Inv :=
  ⟨by have := h.1; omega, fun r hr => (h.2 r hr).1⟩

theorem WellFormed.keys_sorted {T : BTree K V} (h : T.WellFormed) :
    (keys T.entries).Pairwise (· < ·) := by
  unfold entries
  cases hr : T.m_Root with
  | none => simp [keys]
  | some r =>
    obtain ⟨hs, ho⟩ := h.2 r hr
    exact Ordered.sorted r.height r (le_refl _) hs.wellShaped ho

/-- On the empty tree of an `int` degree from `2^30` on, `insert` does not return: the
constructor of the root throws. -/
theorem insert_none_error (t : Int) (h1 : 2 ^ 30 ≤ t) (h2 : t ≤ 2147483647) (key : K)
    (value : V) : (⟨t, none⟩ : BTree K V).insert key value = .error .lengthError := by
  simp [insert, newNode, reserveNode_error t h1 h2]

/-- On the empty tree of an `int` degree from `2^30` on, `set` does not return. -/
theorem set_none_error (t : Int) (h1 : 2 ^ 30 ≤ t) (h2 : t ≤ 2147483647) (key : K)
    (value : V) : (⟨t, none⟩ : BTree K V).set key value = .error .lengthError := by
  simp [set, getValuePtr, insert_none_error t h1 h2]

end SetSorted

end BTree

/-! ## The claims -/

section Claims

variable {K V : Type} [LinearOrder K]

open BTreeNode BTree

/-- On a well-formed tree of a degree below `2^30`, `set(k, v)` returns a tree on which
`get(k)` returns `v` and `get(k')` for any other key returns what it returned before. -/
theorem get_after_set_of_bound (T : BTree K V) (hwf : T.WellFormed) (h30 : T.m_t < 2 ^ 30)
    (k : K) (v : V) (k' : K) :
    ∃ T', T.set k v = .ok T' ∧
      (k' = k → T'.get k' = .ok (some v)) ∧
      (k' ≠ k → ∃ r, T.get k' = .ok r ∧ T'.get k' = .ok r) := by
  obtain ⟨T', l1, l2, hok, hinv', _, _, hsort', he', hcase⟩ :=
    set_sorted T hwf.inv h30 hwf.keys_sorted k v
  obtain ⟨p', hp', hiff'⟩ := get_spec T' hinv' hsort' k'
  refine ⟨T', hok, ?_, ?_⟩
  · intro hk
    subst hk
    have := (hiff' v).mpr (by rw [he']; simp)
    rw [BTree.get, hp', this]
  · intro hk
    obtain ⟨p, hp, hiff⟩ := get_spec T hwf.inv hwf.keys_sorted k'
    refine ⟨p, hp, ?_⟩
    have hpp : p' = p := by
      apply Option.ext
      intro w
      simp only [Option.mem_def]
      rw [hiff' w, hiff w, he']
      have hne : (⟨k', w⟩ : Entry K V) ≠ ⟨k, v⟩ := by
        intro h
        exact hk (congrArg Entry.m_Key h)
      rcases hcase with he | ⟨w0, he⟩
      · rw [he]
        simp [hne]
      · rw [he]
        have hne0 : (⟨k', w⟩ : Entry K V) ≠ ⟨k, w0⟩ := by
          intro h
          exact hk (congrArg Entry.m_Key h)
        simp [hne, hne0]
    rw [BTree.get, hp', hpp]

/-- C1: on a well-formed tree (degree at least 2 of type `int`, size, balance and ordering
invariants, distinct keys, the empty tree included), every tree that `set(k, v)` returns is
one on which `get(k)` returns `v` and on which `get(k')` for any other key `k'` returns
what it returned before; and `set(k, v)` returns when the degree is below `2^30`. The
constructor of a node throws for a degree from `2^30` on, so a tree that holds a node has a
degree below it (the third hypothesis), and on the empty tree of such a degree `set` does
not return. -/
theorem C1_get_after_set (T : BTree K V) (hwf : T.WellFormed) (hint : T.m_t ≤ 2147483647)
    (hnode : T.m_Root ≠ none → T.m_t < 2 ^ 30) (k : K) (v : V) (k' : K) :
    (∀ T', T.set k v = .ok T' →
      (k' = k → T'.get k' = .ok (some v)) ∧
      (k' ≠ k → ∃ r, T.get k' = .ok r ∧ T'.get k' = .ok r)) ∧
    (T.m_t < 2 ^ 30 → ∃ T', T.set k v = .ok T') := by
  by_cases h30 : T.m_t < 2 ^ 30
  · obtain ⟨T', hok, hp⟩ := get_after_set_of_bound T hwf h30 k v k'
    refine ⟨fun T0 h0 => ?_, fun _ => ⟨T', hok⟩⟩
    rw [hok] at h0
    cases h0
    exact hp
  · refine ⟨fun T0 h0 => ?_, fun h => absurd h h30⟩
    exfalso
    have hroot : T.m_Root = none := by
      by_contra hne
      exact h30 (hnode hne)
    have hT : T = ⟨T.m_t, none⟩ := by cases T; simp at hroot; simp [hroot]
    rw [hT, set_none_error _ (not_lt.mp h30) hint] at h0
    cases h0

/-- C2: on a non-empty tree whose nodes are well-shaped and satisfy the ordering invariant
with distinct keys, `getAllEntries()` returns a sequence and `get(k)` returns `v` exactly
when the entry `(k, v)` occurs in it, and not-found exactly when no entry of it has the
key `k`. -/
theorem C2_get_iff_getAllEntries (T : BTree K V) (r : BTreeNode K V)
    (hroot : T.m_Root = some r) (hshape : r.WellShaped) (hord : r.Ordered) (k : K) :
    ∃ es p, T.getAllEntries = .ok es ∧ T.get k = .ok p ∧
      (∀ v, p = some v ↔ (⟨k, v⟩ : Entry K V) ∈ es) ∧
      (p = none ↔ ∀ e ∈ es, e.m_Key ≠ k) := by
  have hsort := Ordered.sorted r.height r (le_refl _) hshape hord
  obtain ⟨p, hp, hiff⟩ := getValuePtr_general k r.height r (le_refl _) hshape hsort
  refine ⟨inorder r, p, ?_, ?_, hiff, ?_⟩
  · simp only [BTree.getAllEntries, hroot]
    exact WellShaped.getAllEntries_eq r.height r (le_refl _) hshape
  · simp only [BTree.get, BTree.getValuePtr, hroot]
    exact hp
  · constructor
    · intro hnone e he hk
      have := (hiff e.m_Value).mpr (by rw [← hk]; exact he)
      rw [hnone] at this
      cases this
    · intro hall
      cases hpv : p with
      | none => rfl
      | some w =>
        have := (hiff w).mp hpv
        exact absurd rfl (hall _ this)

end Claims

namespace BTreeNode

section SizeBalance

variable {K V : Type}

theorem sizeInvList_iff (t : Nat) (cs : List (BTreeNode K V)) :
    SizeInvList t cs ↔ ∀ c ∈ cs, SizeInv t (t - 1) c := by
  induction cs with
  | nil => simp [SizeInvList]
  | cons c cs ih => simp [SizeInvList, ih]

/-- The height-indexed invariant gives the size invariant in the words of the
specification. -/
theorem Shaped.sizeInv {t : Nat} : ∀ (h lo : Nat) (n : BTreeNode K V),
    Shaped t lo h n → SizeInv t lo n := by
  intro h
  induction h with
  | zero =>
    intro lo n hs
    cases n with
    | mk l es cs =>
      obtain ⟨hl, hc, h1, h2⟩ := hs
      simp only [m_isLeaf_mk, m_Children_mk, nEntries_mk] at hl hc h1 h2
      simp [SizeInv, hl, hc, h1, h2, SizeInvList]
  | succ h ih =>
    intro lo n hs
    cases n with
    | mk l es cs =>
      obtain ⟨hl, hc, h1, h2, hch⟩ := hs
      simp only [m_isLeaf_mk, m_Children_mk, nEntries_mk] at hl hc h1 h2 hch
      simp only [SizeInv, hl, Bool.false_eq_true, if_false]
      exact ⟨⟨h1, h2⟩, hc, (sizeInvList_iff t cs).mpr (fun c hc' => ih _ c (hch c hc'))⟩

/-- The height-indexed invariant gives balance. -/
theorem Shaped.balanced {t : Nat} : ∀ (h lo : Nat) (n : BTreeNode K V),
    Shaped t lo h n → Balanced h n := by
  intro h
  induction h with
  | zero =>
    intro lo n hs
    exact hs.1
  | succ h ih =>
    intro lo n hs
    exact ⟨hs.1, fun c hc => ih _ c (hs.2.2.2.2 c hc)⟩

end SizeBalance

end BTreeNode

namespace BTree

section Runs

variable {K V : Type} [LinearOrder K]

open BTreeNode

/-- On a tree of a degree below `2^30`, every sequence of `insert` and `set` calls runs to
the end and keeps the size and balance invariant. -/
theorem run_inv (ops : List (Op K V)) : ∀ (T : BTree K V), T.Inv → T.m_t < 2 ^ 30 →
    ∃ T', run T ops = .ok T' ∧ T'.Inv ∧ T'.m_t = T.m_t ∧ (ops ≠ [] → T'.m_Root ≠ none) := by
  induction ops with
  | nil =>
    intro T hinv _
    exact ⟨T, rfl, hinv, rfl, fun h => absurd rfl h⟩
  | cons op ops ih =>
    intro T hinv h30
    have hstep : ∃ T1, T.step op = .ok T1 ∧ T1.Inv ∧ T1.m_t = T.m_t ∧ T1.m_Root ≠ none := by
      cases op with
      | insert key value =>
        obtain ⟨T1, _, _, hok, hinv1, hmt, hne, _⟩ := insert_spec T hinv h30 key value
        exact ⟨T1, hok, hinv1, hmt, hne⟩
      | set key value =>
        obtain ⟨T1, _, _, hok, hinv1, hmt, hne, _⟩ := set_spec T hinv h30 key value
        exact ⟨T1, hok, hinv1, hmt, hne⟩
    obtain ⟨T1, hok, hinv1, hmt, hne⟩ := hstep
    obtain ⟨T', hrun, hinv', hmt', hne'⟩ := ih T1 hinv1 (by rw [hmt]; exact h30)
    refine ⟨T', by simp [run, hok, hrun], hinv', by rw [hmt', hmt], ?_⟩
    intro _
    cases ops with
    | nil =>
      simp only [run, Except.ok.injEq] at hrun
      rw [← hrun]
      exact hne
    | cons o os => exact hne' (by simp)

/-- On a tree of a degree below `2^30`, every sequence of `set` calls runs to the end,
keeps the size and balance invariant and keeps the keys of the traversal strictly
ascending. -/
theorem run_sets_sorted (kvs : List (K × V)) : ∀ (T : BTree K V), T.Inv → T.m_t < 2 ^ 30 →
    (keys T.entries).Pairwise (· < ·) →
    ∃ T', run T (kvs.map (fun p => Op.set p.1 p.2)) = .ok T' ∧ T'.Inv ∧
      (keys T'.entries).Pairwise (· < ·) ∧ (kvs ≠ [] → T'.m_Root ≠ none) := by
  induction kvs with
  | nil =>
    intro T hinv _ hsort
    exact ⟨T, rfl, hinv, hsort, fun h => absurd rfl h⟩
  | cons p kvs ih =>
    intro T hinv h30 hsort
    obtain ⟨T1, _, _, hok, hinv1, hmt, hne, hsort1, _⟩ :=
      set_sorted T hinv h30 hsort p.1 p.2
    obtain ⟨T', hrun, hinv', hsort', hne'⟩ := ih T1 hinv1 (by rw [hmt]; exact h30) hsort1
    refine ⟨T', by simp [run, step, hok, hrun], hinv', hsort', ?_⟩
    intro _
    cases kvs with
    | nil =>
      simp only [List.map_nil, run, Except.ok.injEq] at hrun
      rw [← hrun]
      exact hne
    | cons o os => exact hne' (by simp)

omit [LinearOrder K] in
theorem empty_inv (t : Int) (ht : 1 ≤ t) : (empty t : BTree K V).Inv :=
  ⟨ht, fun r hr => by simp [empty] at hr⟩

/-- From the empty tree of an `int` degree from `2^30` on, only the empty sequence of calls
returns, and it returns the empty tree. -/
theorem run_none_big (t : Int) (h1 : 2 ^ 30 ≤ t) (h2 : t ≤ 2147483647) (ops : List (Op K V))
    (T : BTree K V) (h : run (empty t) ops = .ok T) : ops = [] ∧ T = empty t := by
  cases ops with
  | nil =>
    simp only [run, Except.ok.injEq] at h
    exact ⟨rfl, h.symm⟩
  | cons op ops =>
    exfalso
    cases op with
    | insert key value =>
      simp [run, step, empty, insert_none_error t h1 h2] at h
    | set key value =>
      simp [run, step, empty, set_none_error t h1 h2] at h

/-- Non-decreasing keys stay non-decreasing when a key is put between the keys that are
not greater and the keys that are not less. -/
theorem sorted_insert_le {l1 l2 : List (Entry K V)} {x : Entry K V}
    (hs : (keys (l1 ++ l2)).Pairwise (· ≤ ·))
    (h1 : ∀ y ∈ l1, y.m_Key ≤ x.m_Key) (h2 : ∀ y ∈ l2, x.m_Key ≤ y.m_Key) :
    (keys (l1 ++ x :: l2)).Pairwise (· ≤ ·) := by
  simp only [keys_append, keys_cons] at hs ⊢
  obtain ⟨ha, hb, hab⟩ := List.pairwise_append.mp hs
  refine List.pairwise_append.mpr ⟨ha, List.pairwise_cons.mpr ⟨?_, hb⟩, ?_⟩
  · intro k hk
    obtain ⟨y, hy, rfl⟩ := List.mem_map.mp hk
    exact h2 y hy
  · intro a ha' b hb'
    rcases List.mem_cons.mp hb' with h | h
    · obtain ⟨y, hy, rfl⟩ := List.mem_map.mp ha'
      rw [h]
      exact h1 y hy
    · exact hab a ha' b h

/-- The height of the root after `BTree::insert`: one more when the root held `2t-1`
entries, the same otherwise. -/
theorem insert_height (T : BTree K V) (hinv : T.Inv) (h30 : T.m_t < 2 ^ 30)
    (r : BTreeNode K V) (hr : T.m_Root = some r) (key : K) (value : V) :
    ∃ r', T.insert key value = .ok ⟨T.m_t, some r'⟩ ∧
      r'.height = if (r.nEntries : Int) = 2 * T.m_t - 1 then r.height + 1 else r.height := by
  obtain ⟨t, ht, hT⟩ := hinv.exists_nat
  have hs := hinv.2 r hr
  cases T with
  | mk m_t root =>
    simp only at hT hr h30
    subst hT hr
    simp only [Int.toNat_ofNat] at hs
    have hh := hs.height_eq
    obtain ⟨r', _, _, hok, hs', _⟩ :=
      insert_root t ht (by exact_mod_cast h30) key value _ r hs
    refine ⟨r', hok, ?_⟩
    rw [hs'.height_eq]
    simp only
    by_cases hfull : r.nEntries + 1 = 2 * t
    · rw [if_pos hfull, if_pos (by omega)]
      omega
    · rw [if_neg hfull, if_neg (by omega)]
      omega

end Runs

end BTree

section Claims2

variable {K V : Type} [LinearOrder K]

open BTreeNode BTree

/-- C6: for every degree `t ≥ 2` of type `int` and every finite sequence of `set(k, v)`
calls on the empty tree: on the tree that the calls return, every sequence that
`getAllEntries()` returns has strictly ascending keys, and it does return one unless the
sequence of calls is empty (the root is then still null). For `t < 2^30` the calls all
return; from `2^30` on the constructor of the first node throws and only the empty sequence
of calls returns. -/
theorem C6_sets_keep_keys_ascending (t : Int) (ht : 2 ≤ t) (hint : t ≤ 2147483647)
    (kvs : List (K × V)) :
    (∀ T, run (empty t) (kvs.map (fun p => Op.set p.1 p.2)) = .ok T →
      (∀ es, T.getAllEntries = .ok es → (keys es).Pairwise (· < ·)) ∧
      (kvs ≠ [] → ∃ es, T.getAllEntries = .ok es)) ∧
    (t < 2 ^ 30 → ∃ T, run (empty t) (kvs.map (fun p => Op.set p.1 p.2)) = .ok T) := by
  by_cases h30 : t < 2 ^ 30
  · obtain ⟨T, hrun, hinv, hsort, hne⟩ :=
      run_sets_sorted kvs (empty t : BTree K V) (empty_inv t (by omega)) h30
        (by simp [entries, empty, keys])
    refine ⟨?_, fun _ => ⟨T, hrun⟩⟩
    intro T0 hrun0
    rw [hrun] at hrun0
    cases hrun0
    refine ⟨?_, ?_⟩
    · intro es hes
      cases hr : T.m_Root with
      | none => simp [BTree.getAllEntries, hr] at hes
      | some r =>
        rw [getAllEntries_eq_entries T hinv (by simp [hr])] at hes
        cases hes
        exact hsort
    · intro hk
      exact ⟨T.entries, getAllEntries_eq_entries T hinv (hne hk)⟩
  · refine ⟨?_, fun h => absurd h h30⟩
    intro T hrun
    obtain ⟨hnil, hT⟩ := run_none_big t (not_lt.mp h30) hint _ T hrun
    refine ⟨?_, ?_⟩
    · intro es hes
      rw [hT] at hes
      simp [BTree.getAllEntries, empty] at hes
    · intro hk
      exact absurd (List.map_eq_nil_iff.mp hnil) hk

/-- C8: for every degree `t ≥ 2` of type `int`, the tree that a finite sequence of `insert`
and `set` calls on the empty tree returns satisfies the size invariant: the root holds
between 1 and `2t-1` entries, every other node between `t-1` and `2t-1`, every internal
node has one child more than entries and every leaf has no children. For `t < 2^30` the
calls all return; from `2^30` on the constructor of the first node throws and only the
empty sequence of calls returns. -/
theorem C8_size_invariant (t : Int) (ht : 2 ≤ t) (hint : t ≤ 2147483647)
    (ops : List (Op K V)) :
    (∀ T, run (empty t) ops = .ok T → ∀ r ∈ T.m_Root, SizeInv t.toNat 1 r) ∧
    (t < 2 ^ 30 → ∃ T, run (empty t) ops = .ok T) := by
  by_cases h30 : t < 2 ^ 30
  · obtain ⟨T, hrun, hinv, hmt, _⟩ :=
      run_inv ops (empty t : BTree K V) (empty_inv t (by omega)) h30
    refine ⟨?_, fun _ => ⟨T, hrun⟩⟩
    intro T0 hrun0 r hr
    rw [hrun] at hrun0
    cases hrun0
    have := (hinv.2 r hr).sizeInv
    rw [hmt] at this
    exact this
  · refine ⟨?_, fun h => absurd h h30⟩
    intro T hrun r hr
    obtain ⟨_, hT⟩ := run_none_big t (not_lt.mp h30) hint _ T hrun
    rw [hT] at hr
    simp [empty] at hr

/-- C9: for every degree `t ≥ 2` of type `int`, the tree `T` that a finite sequence of
`insert` and `set` calls on the empty tree returns has all leaves at the same depth, and
the tree that a further `insert(k, v)` returns has again all leaves at the same depth and
a root that is one level higher than the root of `T` if that held `2t-1` entries and as
high as the root of `T` otherwise; on the empty tree it has a root of height one. For
`t < 2^30` the calls all return; from `2^30` on the constructor of the first node throws. -/
theorem C9_balanced_and_height (t : Int) (ht : 2 ≤ t) (hint : t ≤ 2147483647)
    (ops : List (Op K V)) (k : K) (v : V) :
    (∀ T, run (empty t) ops = .ok T →
      (∀ r ∈ T.m_Root, Balanced (r.height - 1) r) ∧
      ∀ T', T.insert k v = .ok T' →
        ∃ r', T'.m_Root = some r' ∧ Balanced (r'.height - 1) r' ∧
          (T.m_Root = none → r'.height = 1) ∧
          ∀ r ∈ T.m_Root, r'.height =
            if (r.nEntries : Int) = 2 * t - 1 then r.height + 1 else r.height) ∧
    (t < 2 ^ 30 → ∃ T T', run (empty t) ops = .ok T ∧ T.insert k v = .ok T') := by
  by_cases h30 : t < 2 ^ 30
  · obtain ⟨T, hrun, hinv, hmt, _⟩ :=
      run_inv ops (empty t : BTree K V) (empty_inv t (by omega)) h30
    have h30T : T.m_t < 2 ^ 30 := by rw [hmt]; exact h30
    obtain ⟨T', _, _, hok, hinv', _, hne', _⟩ := insert_spec T hinv h30T k v
    refine ⟨?_, fun _ => ⟨T, T', hrun, hok⟩⟩
    intro T0 hrun0
    rw [hrun] at hrun0
    cases hrun0
    refine ⟨fun r hr => (hinv.2 r hr).balanced, ?_⟩
    intro T0' hok0
    rw [hok] at hok0
    cases hok0
    cases hr' : T'.m_Root with
    | none => exact absurd hr' hne'
    | some r' =>
      refine ⟨r', rfl, (hinv'.2 r' hr').balanced, ?_, ?_⟩
      · intro hnone
        have hT : T = ⟨T.m_t, none⟩ := by cases T; simp at hnone; simp [hnone]
        rw [hT, insert_empty _ (by have := hinv.1; omega) h30T] at hok
        cases hok
        simp only [Option.some.injEq] at hr'
        rw [← hr']
        simp [height, heightList]
      · intro r hr
        obtain ⟨r2, hok2, hh⟩ := insert_height T hinv h30T r hr k v
        rw [hok] at hok2
        cases hok2
        simp only [Option.some.injEq] at hr'
        rw [← hr', hh]
        simp [empty, hmt]
  · refine ⟨?_, fun h => absurd h h30⟩
    intro T hrun
    obtain ⟨_, hT⟩ := run_none_big t (not_lt.mp h30) hint _ T hrun
    refine ⟨?_, ?_⟩
    · intro r hr
      rw [hT] at hr
      simp [empty] at hr
    · intro T' hok
      rw [hT] at hok
      simp [empty, insert_none_error t (not_lt.mp h30) hint] at hok

/-- On a tree of a degree from 2 to below `2^30` that satisfies the size and balance
invariants and whose keys are non-decreasing in traversal order, `insert(k, v)` returns a
tree whose traversal is the traversal before with the one entry `(k, v)` added at a place
that keeps the keys non-decreasing. -/
theorem insert_adds_one_entry_of_bound (T : BTree K V) (hwf : T.WellFormedLe)
    (h30 : T.m_t < 2 ^ 30) (k : K) (v : V) :
    ∃ T' l1 l2, T.insert k v = .ok T' ∧ T'.getAllEntries = .ok (l1 ++ ⟨k, v⟩ :: l2) ∧
      (T.m_Root = none → l1 = [] ∧ l2 = []) ∧
      (T.m_Root ≠ none → T.getAllEntries = .ok (l1 ++ l2)) ∧
      (keys (l1 ++ ⟨k, v⟩ :: l2)).Pairwise (· ≤ ·) ∧
      (l1 ++ ⟨k, v⟩ :: l2).length = (l1 ++ l2).length + 1 := by
  have hinv : T.Inv := ⟨by have := hwf.1; omega, fun r hr => (hwf.2 r hr).1⟩
  have hsort : (keys T.entries).Pairwise (· ≤ ·) := by
    unfold entries
    cases hr : T.m_Root with
    | none => simp [keys]
    | some r => exact (hwf.2 r hr).2
  obtain ⟨T', l1, l2, hok, hinv', _, hne', he, he', hb⟩ := insert_spec T hinv h30 k v
  obtain ⟨hb1, hb2⟩ := hb hsort
  refine ⟨T', l1, l2, hok, ?_, ?_, ?_, ?_, by simp; omega⟩
  · rw [getAllEntries_eq_entries T' hinv' hne', he']
  · intro hnone
    simp only [entries, hnone] at he
    exact List.append_eq_nil.mp he.symm
  · intro hne
    rw [getAllEntries_eq_entries T hinv hne, he]
  · rw [he] at hsort
    exact sorted_insert_le hsort hb1 hb2

/-- C10: on a tree of a degree at least 2 of type `int` that satisfies the size and balance
invariants and whose keys are non-decreasing in traversal order, every tree that
`insert(k, v)` returns has as its traversal the traversal before (empty for the empty tree)
with the one entry `(k, v)` added at a place that keeps the keys non-decreasing; the length
grows by exactly one, whether or not `k` was already stored. `insert(k, v)` returns when the
degree is below `2^30`. The constructor of a node throws for a degree from `2^30` on, so a
tree that holds a node has a degree below it (the third hypothesis), and on the empty tree
of such a degree `insert` does not return. -/
theorem C10_insert_adds_one_entry (T : BTree K V) (hwf : T.WellFormedLe)
    (hint : T.m_t ≤ 2147483647) (hnode : T.m_Root ≠ none → T.m_t < 2 ^ 30) (k : K) (v : V) :
    (∀ T', T.insert k v = .ok T' →
      ∃ l1 l2, T'.getAllEntries = .ok (l1 ++ ⟨k, v⟩ :: l2) ∧
        (T.m_Root = none → l1 = [] ∧ l2 = []) ∧
        (T.m_Root ≠ none → T.getAllEntries = .ok (l1 ++ l2)) ∧
        (keys (l1 ++ ⟨k, v⟩ :: l2)).Pairwise (· ≤ ·) ∧
        (l1 ++ ⟨k, v⟩ :: l2).length = (l1 ++ l2).length + 1) ∧
    (T.m_t < 2 ^ 30 → ∃ T', T.insert k v = .ok T') := by
  by_cases h30 : T.m_t < 2 ^ 30
  · obtain ⟨T', l1, l2, hok, hp⟩ := insert_adds_one_entry_of_bound T hwf h30 k v
    refine ⟨fun T0 h0 => ?_, fun _ => ⟨T', hok⟩⟩
    rw [hok] at h0
    cases h0
    exact ⟨l1, l2, hp⟩
  · refine ⟨fun T0 h0 => ?_, fun h => absurd h h30⟩
    exfalso
    have hroot : T.m_Root = none := by
      by_contra hne
      exact h30 (hnode hne)
    have hT : T = ⟨T.m_t, none⟩ := by cases T; simp at hroot; simp [hroot]
    rw [hT, insert_none_error _ (not_lt.mp h30) hint] at h0
    cases h0

end Claims2

section Concrete

open BTreeNode BTree Examples

/-- Witness for C1 on the tree built from the keys 1 to 6: set an absent key. -/
theorem C1_witness :
    (tree6.WellFormed ∧ tree6.m_t ≤ 2147483647 ∧ (tree6.m_Root ≠ none → tree6.m_t < 2 ^ 30)) ∧
    (∀ T', tree6.set 7 70 = .ok T' →
      (7 = 7 → T'.get 7 = .ok (some 70)) ∧
      (7 ≠ 7 → ∃ r, tree6.get 7 = .ok r ∧ T'.get 7 = .ok r)) ∧
    (tree6.m_t < 2 ^ 30 → ∃ T', tree6.set 7 70 = .ok T') :=
  ⟨⟨by decide, by decide, fun _ => by decide⟩,
    C1_get_after_set tree6 (by decide) (by decide) (fun _ => by decide) 7 70 7⟩

/-- Witness for C2 on the root of the tree built from the keys 1 to 6. -/
theorem C2_witness :
    (tree6.m_Root = some (node [2, 4] [leaf [1], leaf [3], leaf [5, 6]]) ∧
      (node [2, 4] [leaf [1], leaf [3], leaf [5, 6]]).WellShaped ∧
      (node [2, 4] [leaf [1], leaf [3], leaf [5, 6]]).Ordered) ∧
    ∃ es p, tree6.getAllEntries = .ok es ∧ tree6.get 3 = .ok p ∧
      (∀ v, p = some v ↔ (⟨3, v⟩ : Entry Nat Nat) ∈ es) ∧
      (p = none ↔ ∀ e ∈ es, e.m_Key ≠ 3) :=
  ⟨⟨rfl, by decide, by decide⟩,
    C2_get_iff_getAllEntries tree6 (node [2, 4] [leaf [1], leaf [3], leaf [5, 6]]) rfl
      (by decide) (by decide) 3⟩

/-- C3, the code at the example of the claim: degree 2, the keys 1 to 6 inserted in
ascending order, then `remove(2)`. The key 2 sits in the root between two children of one
entry each. After the removal `get(2)` still returns the value stored for 2. -/
theorem C3_removed_key_is_still_found :
    run (empty 2) (insertKeys [1, 2, 3, 4, 5, 6]) = .ok tree6 ∧ tree6.WellFormed ∧
      tree6.get 2 = .ok (some 20) ∧
      tree6.remove 2 = .ok ⟨2, some (node [4] [leaf [1, 2, 3], leaf [5, 6]])⟩ ∧
      (tree6.remove 2).bind (fun T => T.get 2) = .ok (some 20) := by
  decide!

/-- C4, the code at the same input as for C3: the traversal after `remove(2)` is the
traversal before, with all six entries. -/
theorem C4_traversal_unchanged_by_remove :
    tree6.WellFormed ∧ tree6.getAllEntries = .ok (entriesOf [1, 2, 3, 4, 5, 6]) ∧
      (tree6.remove 2).bind (fun T => T.getAllEntries) =
        .ok (entriesOf [1, 2, 3, 4, 5, 6]) := by
  decide!

/-- C5, the code on a well-formed tree with three levels built by ten inserts: removing
the key 15, which is not stored, refills the right child of the root from its left
sibling and leaves a traversal with eleven entries in which the entry of key 12 occurs
twice. -/
theorem C5_absent_key_changes_traversal :
    run (empty 2) (insertKeys keys10) = .ok tree10 ∧ tree10.WellFormed ∧
      tree10.get 15 = .ok none ∧
      tree10.getAllEntries = .ok (entriesOf [2, 4, 6, 8, 10, 12, 14, 16, 18, 20]) ∧
      tree10.remove 15 = .ok ⟨2, some (node [10]
        [node [4, 8] [leaf [2], leaf [6], leaf [12]],
          node [14] [leaf [12], leaf [16, 18, 20]]])⟩ ∧
      (tree10.remove 15).bind (fun T => T.getAllEntries) =
        .ok (entriesOf [2, 4, 6, 8, 12, 10, 12, 14, 16, 18, 20]) := by
  decide!

/-- C7, the code on the same tree as for C5: removing the stored key 16 leaves a tree that
is not empty and whose traversal has the key 12 before the key 10. -/
theorem C7_keys_out_of_order_after_remove :
    tree10.WellFormed ∧
      (tree10.remove 16).bind (fun T => T.getAllEntries) =
        .ok (entriesOf [2, 4, 6, 8, 12, 10, 12, 14, 18, 20]) ∧
      ¬ (keys (entriesOf [2, 4, 6, 8, 12, 10, 12, 14, 18, 20])).Pairwise (· < ·) := by
  decide!

/-- Witness for C6: two `set` calls on the empty tree of degree 2. -/
theorem C6_witness :
    ((2 : Int) ≤ 2 ∧ (2 : Int) ≤ 2147483647) ∧
    (∀ T, run (empty 2) ([((1 : Nat), (10 : Nat)), (2, 20)].map (fun p => Op.set p.1 p.2)) =
        .ok T →
      (∀ es, T.getAllEntries = .ok es → (keys es).Pairwise (· < ·)) ∧
      ([((1 : Nat), (10 : Nat)), (2, 20)] ≠ [] → ∃ es, T.getAllEntries = .ok es)) ∧
    ((2 : Int) < 2 ^ 30 →
      ∃ T, run (empty 2) ([((1 : Nat), (10 : Nat)), (2, 20)].map (fun p => Op.set p.1 p.2)) =
        .ok T) :=
  ⟨⟨by decide, by decide⟩,
    C6_sets_keep_keys_ascending 2 (by decide) (by decide) [(1, 10), (2, 20)]⟩

/-- Witness for C8: the six inserts that build `tree6`. -/
theorem C8_witness :
    ((2 : Int) ≤ 2 ∧ (2 : Int) ≤ 2147483647) ∧
    (∀ T, run (empty 2) (insertKeys [1, 2, 3, 4, 5, 6]) = .ok T →
      ∀ r ∈ T.m_Root, SizeInv (2 : Int).toNat 1 r) ∧
    ((2 : Int) < 2 ^ 30 → ∃ T, run (empty 2) (insertKeys [1, 2, 3, 4, 5, 6]) = .ok T) :=
  ⟨⟨by decide, by decide⟩,
    C8_size_invariant 2 (by decide) (by decide) (insertKeys [1, 2, 3, 4, 5, 6])⟩

/-- Witness for C9: three inserts fill the root, the fourth grows the tree. -/
theorem C9_witness :
    ((2 : Int) ≤ 2 ∧ (2 : Int) ≤ 2147483647) ∧
    (∀ T, run (empty 2) (insertKeys [1, 2, 3]) = .ok T →
      (∀ r ∈ T.m_Root, Balanced (r.height - 1) r) ∧
      ∀ T', T.insert 4 40 = .ok T' →
        ∃ r', T'.m_Root = some r' ∧ Balanced (r'.height - 1) r' ∧
          (T.m_Root = none → r'.height = 1) ∧
          ∀ r ∈ T.m_Root, r'.height =
            if (r.nEntries : Int) = 2 * 2 - 1 then r.height + 1 else r.height) ∧
    ((2 : Int) < 2 ^ 30 →
      ∃ T T', run (empty 2) (insertKeys [1, 2, 3]) = .ok T ∧ T.insert 4 40 = .ok T') :=
  ⟨⟨by decide, by decide⟩,
    C9_balanced_and_height 2 (by decide) (by decide) (insertKeys [1, 2, 3]) 4 40⟩

/-- Witness for C10: insert a key that is already stored. -/
theorem C10_witness :
    (tree6.WellFormedLe ∧ tree6.m_t ≤ 2147483647 ∧
      (tree6.m_Root ≠ none → tree6.m_t < 2 ^ 30)) ∧
    (∀ T', tree6.insert 3 33 = .ok T' →
      ∃ l1 l2, T'.getAllEntries = .ok (l1 ++ ⟨3, 33⟩ :: l2) ∧
        (tree6.m_Root = none → l1 = [] ∧ l2 = []) ∧
        (tree6.m_Root ≠ none → tree6.getAllEntries = .ok (l1 ++ l2)) ∧
        (keys (l1 ++ ⟨3, 33⟩ :: l2)).Pairwise (· ≤ ·) ∧
        (l1 ++ ⟨3, 33⟩ :: l2).length = (l1 ++ l2).length + 1) ∧
    (tree6.m_t < 2 ^ 30 → ∃ T', tree6.insert 3 33 = .ok T') :=
  ⟨⟨by decide, by decide, fun _ => by decide⟩,
    C10_insert_adds_one_entry tree6 (by decide) (by decide) (fun _ => by decide) 3 33⟩

end Concrete

section Claims3

open BTreeNode BTree Examples

/-- C13: the scenario of the specification at degree 2. Inserting the keys 10, 20, 5, 6, 12,
30, 7, 17 in this order into the empty tree gives a traversal with the keys 5, 6, 7, 10,
12, 17, 20, 30; `remove(6)` then leaves the seven keys 5, 7, 10, 12, 17, 20, 30, and
`remove(13)`, a key that is not stored, returns the same tree. -/
theorem C13_scenario :
    run (empty 2) (insertKeys keys8) = .ok tree8 ∧
      tree8.getAllEntries = .ok (entriesOf [5, 6, 7, 10, 12, 17, 20, 30]) ∧
      (tree8.remove 6).bind (fun T => T.getAllEntries) =
        .ok (entriesOf [5, 7, 10, 12, 17, 20, 30]) ∧
      (entriesOf [5, 7, 10, 12, 17, 20, 30]).length = 7 ∧
      (tree8.remove 6).bind (fun T => T.remove 13) = tree8.remove 6 ∧
      ((tree8.remove 6).bind (fun T => T.remove 13)).bind (fun T => T.getAllEntries) =
        .ok (entriesOf [5, 7, 10, 12, 17, 20, 30]) := by
  decide!

/-- C15, the code on the empty tree: `getAllEntries()` dereferences the null root, both on
a freshly constructed tree and on a tree emptied by removing its last key; it does not
return the empty sequence. -/
theorem C15_getAllEntries_on_empty_tree :
    (construct 2 : Except Err (BTree Nat Nat)).bind (fun T => T.getAllEntries) =
        .error .nullDeref ∧
      (((empty 2 : BTree Nat Nat).insert 1 10).bind (fun T => T.remove 1)).bind
        (fun T => T.getAllEntries) = .error .nullDeref ∧
      (empty 2 : BTree Nat Nat).get 1 = .ok none ∧
      (empty 2 : BTree Nat Nat).remove 1 = .ok (empty 2) := by
  decide!

/-- C16, counterexample: the constructor accepts the degree 1 and returns a tree that
takes an insert and answers a lookup. -/
theorem C16_counterexample :
    (construct 1 : Except Err (BTree Nat Nat)) = .ok ⟨1, none⟩ ∧
      (((construct 1 : Except Err (BTree Nat Nat)).bind (fun T => T.insert 5 50)).bind
        (fun T => T.get 5)) = .ok (some 50) := by
  decide!

/-- C18, the code on the root of `tree10` at index 1, where the donor `m_Children[0]` is
internal and holds two entries and the recipient `m_Children[1]` holds one: after
`borrowEntryFromPrevChild(1)` the donor still holds two entries and three children, its
last child is also the first child of the recipient, and the traversal of the node has
eleven entries with the key 12 before the key 10. -/
theorem C18_borrow_from_internal_sibling :
    Shaped 2 1 2 root10 ∧ Ordered root10 ∧
      borrowEntryFromPrevChild (BTreeNode.remove 2 2) root10 1 =
        .ok (node [10]
          [node [4, 8] [leaf [2], leaf [6], leaf [12]],
            node [14, 18] [leaf [12], leaf [16], leaf [20]]]) ∧
      root10.getAllEntries = .ok (entriesOf [2, 4, 6, 8, 10, 12, 14, 16, 18, 20]) ∧
      (borrowEntryFromPrevChild (BTreeNode.remove 2 2) root10 1).bind
        (fun n => n.getAllEntries) =
        .ok (entriesOf [2, 4, 6, 8, 12, 10, 12, 14, 16, 18, 20]) := by
  decide!

/-- The code on the root of the tree that the inserts 90, 80, ..., 0 build, at index 1:
the left sibling holds two entries, so `fillChild(1)` borrows from it; the sibling is
internal and its last two children hold one entry each, so the removal of its last key
merges them and then reads `m_Entries[1]` of a vector that has one element. The call does
not return, and neither does `remove(75)` on the tree, which makes it. -/
theorem rootDown_fillChild_reads_out_of_bounds :
    run (empty 2) (insertKeys keysDown) = .ok ⟨2, some rootDown⟩ ∧
      Shaped 2 1 2 rootDown ∧ Ordered rootDown ∧
      fillChild (BTreeNode.remove 2 2) 2 rootDown 1 = .error .outOfBounds ∧
      (⟨2, some rootDown⟩ : BTree Nat Nat).remove 75 = .error .outOfBounds := by
  decide!

end Claims3

section Claims4

variable {K V : Type} [LinearOrder K]

open BTreeNode BTree

/-- C14: on the empty tree `get(k)` returns not-found and `remove(k)` returns the empty
tree, for every key and every degree; removing the only key of a tree with one entry
returns the empty tree, on which `get` returns not-found. -/
theorem C14_empty_tree (t : Int) (k k' : K) (v : V) :
    (empty t : BTree K V).get k = .ok none ∧
      (empty t : BTree K V).remove k = .ok (empty t) ∧
      (⟨t, some (BTreeNode.mk true [⟨k, v⟩] [])⟩ : BTree K V).remove k = .ok (empty t) ∧
      (⟨t, some (BTreeNode.mk true [⟨k, v⟩] [])⟩ : BTree K V).get k = .ok (some v) ∧
      ((⟨t, some (BTreeNode.mk true [⟨k, v⟩] [])⟩ : BTree K V).remove k).bind
        (fun T => T.get k') = .ok none := by
  have h1 : (⟨t, some (BTreeNode.mk true [⟨k, v⟩] [])⟩ : BTree K V).remove k =
      .ok (empty t) := by
    simp [BTree.remove, BTreeNode.remove, height, heightList, idxForKey, removeFromLeaf,
      vecErase, withEntries, empty]
  refine ⟨rfl, rfl, h1, ?_, ?_⟩
  · simp [BTree.get, BTree.getValuePtr, BTreeNode.getValuePtr, height, heightList, idxForKey]
  · rw [h1]
    rfl

end Claims4

section Claims5

variable {K V : Type}

open BTreeNode BTree

/-- C16, amended: the constructor returns for every integer `t`, below 2 as well, and the
tree it returns is empty and has degree `t`. -/
theorem C16_constructor_accepts_every_degree (t : Int) :
    ∃ T : BTree K V, construct t = .ok T ∧ T.m_t = t ∧ T.m_Root = none :=
  ⟨empty t, rfl, rfl, rfl⟩

end Claims5

section Claims6

variable {K V : Type} [LinearOrder K]

open BTreeNode BTree

/-- On a well-formed tree of a degree below `2^30`, `set(k, v)` followed by a second
`set(k, v)` returns a tree with the traversal that the first call has left. -/
theorem set_idempotent_of_bound (T : BTree K V) (hwf : T.WellFormed) (h30 : T.m_t < 2 ^ 30)
    (k : K) (v : V) :
    ∃ T1 T2 es, T.set k v = .ok T1 ∧ T1.set k v = .ok T2 ∧
      T1.getAllEntries = .ok es ∧ T2.getAllEntries = .ok es := by
  obtain ⟨T1, l1, l2, hok1, hinv1, hmt1, hne1, hsort1, he1, _⟩ :=
    set_sorted T hwf.inv h30 hwf.keys_sorted k v
  obtain ⟨T2, m1, m2, hok2, hinv2, _, hne2, he2, hcase⟩ :=
    set_spec T1 hinv1 (by rw [hmt1]; exact h30) k v
  have hmem : (⟨k, v⟩ : Entry K V) ∈ T1.entries := by rw [he1]; simp
  refine ⟨T1, T2, T1.entries, hok1, hok2, getAllEntries_eq_entries T1 hinv1 hne1, ?_⟩
  rw [getAllEntries_eq_entries T2 hinv2 hne2]
  rcases hcase with ⟨w, _, hw⟩ | ⟨hnone, _⟩
  · have hmem' : (⟨k, w⟩ : Entry K V) ∈ T1.entries := by rw [hw]; simp
    have hvw : (⟨k, w⟩ : Entry K V) = ⟨k, v⟩ := eq_of_key_eq hsort1 hmem' hmem rfl
    rw [he2, hw, hvw]
  · exact absurd rfl (not_mem_of_get_none T1 hinv1 hsort1 k hnone _ hmem)

/-- C12: on a well-formed tree (degree at least 2 of type `int`, the empty tree included),
when `set(k, v)` returns a tree and a second `set(k, v)` on it returns a tree,
`getAllEntries()` returns the same sequence on both; and the two calls return when the
degree is below `2^30`. The constructor of a node throws for a degree from `2^30` on, so a
tree that holds a node has a degree below it (the third hypothesis), and on the empty tree
of such a degree `set` does not return. -/
theorem C12_set_idempotent (T : BTree K V) (hwf : T.WellFormed) (hint : T.m_t ≤ 2147483647)
    (hnode : T.m_Root ≠ none → T.m_t < 2 ^ 30) (k : K) (v : V) :
    (∀ T1 T2, T.set k v = .ok T1 → T1.set k v = .ok T2 →
      ∃ es, T1.getAllEntries = .ok es ∧ T2.getAllEntries = .ok es) ∧
    (T.m_t < 2 ^ 30 → ∃ T1 T2, T.set k v = .ok T1 ∧ T1.set k v = .ok T2) := by
  by_cases h30 : T.m_t < 2 ^ 30
  · obtain ⟨T1, T2, es, hok1, hok2, hp⟩ := set_idempotent_of_bound T hwf h30 k v
    refine ⟨fun U1 U2 h1 h2 => ?_, fun _ => ⟨T1, T2, hok1, hok2⟩⟩
    rw [hok1] at h1
    cases h1
    rw [hok2] at h2
    cases h2
    exact ⟨es, hp⟩
  · refine ⟨fun U1 U2 h1 _ => ?_, fun h => absurd h h30⟩
    exfalso
    have hroot : T.m_Root = none := by
      by_contra hne
      exact h30 (hnode hne)
    have hT : T = ⟨T.m_t, none⟩ := by cases T; simp at hroot; simp [hroot]
    rw [hT, set_none_error _ (not_lt.mp h30) hint] at h1
    cases h1

end Claims6

section Concrete2

open BTreeNode BTree Examples

/-- Witness for C12 on the tree built from the keys 1 to 6: set a stored key. -/
theorem C12_witness :
    (tree6.WellFormed ∧ tree6.m_t ≤ 2147483647 ∧ (tree6.m_Root ≠ none → tree6.m_t < 2 ^ 30)) ∧
    (∀ T1 T2, tree6.set 3 33 = .ok T1 → T1.set 3 33 = .ok T2 →
      ∃ es, T1.getAllEntries = .ok es ∧ T2.getAllEntries = .ok es) ∧
    (tree6.m_t < 2 ^ 30 → ∃ T1 T2, tree6.set 3 33 = .ok T1 ∧ T1.set 3 33 = .ok T2) :=
  ⟨⟨by decide, by decide, fun _ => by decide⟩,
    C12_set_idempotent tree6 (by decide) (by decide) (fun _ => by decide) 3 33⟩

end Concrete2

section ListFacts2

variable {α : Type}

theorem eq_take_two_drop (l : List α) (i : Nat) (a b : α) (ha : l[i]? = some a)
    (hb : l[i + 1]? = some b) : l = l.take i ++ a :: b :: l.drop (i + 2) := by
  have h1 := eq_take_drop_of_getElem? l i a ha
  have h2 : l.drop (i + 1) = b :: l.drop (i + 2) := by
    have h3 := eq_take_drop_of_getElem? (l.drop (i + 1)) 0 b (by simpa using hb)
    simpa [Nat.add_comm, Nat.add_left_comm, Nat.add_assoc] using h3
  rw [h2] at h1
  exact h1

theorem eraseIdx_append_at (l1 l2 : List α) (x : α) (i : Nat) (hi : l1.length = i) :
    (l1 ++ x :: l2).eraseIdx i = l1 ++ l2 := by
  subst hi
  induction l1 with
  | nil => simp
  | cons a l ih => simpa using ih

theorem take_append_at (l1 l2 : List α) (i : Nat) (hi : l1.length = i) :
    (l1 ++ l2).take i = l1 := by
  subst hi
  simp

theorem drop_append_at_add (l1 l2 : List α) (i k : Nat) (hi : l1.length = i) :
    (l1 ++ l2).drop (i + k) = l2.drop k := by
  subst hi
  induction l1 with
  | nil => simp
  | cons a l ih =>
    have : (a :: l).length + k = (l.length + k) + 1 := by simp; omega
    rw [this]
    simp [ih]

end ListFacts2

namespace BTreeNode

section NodeOps

variable {K V : Type}

theorem wellShaped_mk_iff (l : Bool) (es : List (Entry K V)) (cs : List (BTreeNode K V)) :
    WellShaped (mk l es cs) ↔
      (if l = true then cs = [] else cs.length = es.length + 1) ∧ ∀ c ∈ cs, WellShaped c := by
  simp only [WellShaped, wellShapedList_iff]

/-- A well-shaped node that has a child is internal. -/
theorem WellShaped.internal_of_child {n c : BTreeNode K V} {i : Nat} (h : WellShaped n)
    (hc : n.m_Children[i]? = some c) : n.m_isLeaf = false := by
  cases hl : n.m_isLeaf with
  | false => rfl
  | true =>
    rw [h.leaf hl] at hc
    simp at hc

theorem WellShaped.getAllEntries_inorder {n : BTreeNode K V} (h : WellShaped n) :
    getAllEntries n = .ok (inorder n) :=
  WellShaped.getAllEntries_eq n.height n (le_refl _) h

/-- The traversal of a well-shaped node cut between two lists of entries and children that
fit: either no children at all, or one child more than entries on the left. -/
theorem inorder_mk_cut (l : Bool) (a b : List (Entry K V)) (ca cb : List (BTreeNode K V))
    (m : Entry K V) (h : ca = [] ∧ cb = [] ∨ ca.length = a.length + 1) :
    inorder (mk l (a ++ m :: b) (ca ++ cb)) = inorder (mk l a ca) ++ m :: inorder (mk l b cb) := by
  simp only [inorder]
  exact inorderZip_cut a b ca cb m h

end NodeOps

end BTreeNode

section Claims7

variable {K V : Type}

open BTreeNode BTree

/-- C17: for `t ≥ 2`, a well-shaped node `N` and a child `C = m_Children[idx]` of it that
holds `2t-1` entries, the node `N'` that `splitChild(idx)` returns has in `m_Children[idx]`
the first `t-1` entries (and first `t` children) of `C`, in `m_Children[idx+1]` a node of
the same leaf flag holding the last `t-1` entries (and last `t` children) of `C`, the entry
`m` at index `t-1` of `C` inserted into the entries of `N` at position `idx`, the other
entries and children as before, one entry and one child more than `N`, and
`getAllEntries` returns the same sequence on `N'` as on `N`. The call returns when `t` is
below `2^30` (the constructor of the new child) and `N` holds fewer than `2t` children (the
reference `fullChild` stays valid across the insertion of the new child). -/
theorem C17_splitChild_postcondition (t : Nat) (ht : 2 ≤ t) (N C : BTreeNode K V) (idx : Nat)
    (hN : N.WellShaped) (hC : N.m_Children[idx]? = some C) (hfull : C.nEntries = 2 * t - 1) :
    (∀ N', splitChild t N idx = .ok N' → ∃ m es, C.m_Entries[t - 1]? = some m ∧
      N'.m_Children[idx]? =
        some (BTreeNode.mk C.m_isLeaf (C.m_Entries.take (t - 1)) (C.m_Children.take t)) ∧
      N'.m_Children[idx + 1]? =
        some (BTreeNode.mk C.m_isLeaf (C.m_Entries.drop t) (C.m_Children.drop t)) ∧
      (C.m_Entries.take (t - 1)).length = t - 1 ∧ (C.m_Entries.drop t).length = t - 1 ∧
      (C.m_isLeaf = false →
        (C.m_Children.take t).length = t ∧ (C.m_Children.drop t).length = t) ∧
      N'.m_Entries = N.m_Entries.take idx ++ m :: N.m_Entries.drop idx ∧
      N'.m_Children.take idx = N.m_Children.take idx ∧
      N'.m_Children.drop (idx + 2) = N.m_Children.drop (idx + 1) ∧
      N'.m_isLeaf = N.m_isLeaf ∧
      N'.nEntries = N.nEntries + 1 ∧ N'.nChildren = N.nChildren + 1 ∧
      N.getAllEntries = .ok es ∧ N'.getAllEntries = .ok es) ∧
    (t < 2 ^ 30 → N.nChildren < 2 * t → ∃ N', splitChild t N idx = .ok N') := by
  have hNl := hN.internal_of_child hC
  have hNlen := hN.internal hNl
  have hi : idx < N.m_Children.length := by
    rcases List.getElem?_eq_some_iff.mp hC with ⟨h, _⟩; exact h
  have hidx : idx ≤ N.nEntries := by omega
  have hCw : C.WellShaped := hN.children C (List.getElem?_mem hC)
  have hfull' : C.nEntries + 1 = 2 * t := by omega
  have hClen : C.m_Entries.length = 2 * t - 1 := hfull
  obtain ⟨m, hm, hsplit⟩ := splitChild_run t (by omega) N idx C hC hfull' hidx
    (fun hcl => by rw [hCw.internal hcl]; exact hfull')
  have hcL : (if C.m_isLeaf = true then C.m_Children else C.m_Children.take t) =
      C.m_Children.take t := by
    split
    · next hl => rw [hCw.leaf hl]; simp
    · rfl
  have hcR : (if C.m_isLeaf = true then [] else C.m_Children.drop t) =
      C.m_Children.drop t := by
    split
    · next hl => rw [hCw.leaf hl]; simp
    · rfl
  rw [hcL, hcR] at hsplit
  have hTl : (N.m_Children.take idx).length = idx := by simp; omega
  have hEl : (N.m_Entries.take idx).length = idx := by
    unfold nEntries at hidx; simp; omega
  have hcut : C.m_Children.take t = [] ∧ C.m_Children.drop t = [] ∨
      (C.m_Children.take t).length = (C.m_Entries.take (t - 1)).length + 1 := by
    cases hl : C.m_isLeaf with
    | true => left; rw [hCw.leaf hl]; simp
    | false =>
      right
      have := hCw.internal hl
      unfold nEntries at this
      simp
      omega
  have hCin : inorder C =
      inorder (BTreeNode.mk C.m_isLeaf (C.m_Entries.take (t - 1)) (C.m_Children.take t)) ++
        m :: inorder (BTreeNode.mk C.m_isLeaf (C.m_Entries.drop t) (C.m_Children.drop t)) := by
    have he := eq_take_drop_of_getElem? _ _ _ hm
    have ht1 : t - 1 + 1 = t := by omega
    rw [ht1] at he
    rw [← inorder_mk_cut _ _ _ _ _ _ hcut, ← he, List.take_append_drop]
    exact congrArg inorder (eta C)
  have hchW : ∀ x ∈ C.m_Children, WellShaped x := hCw.children
  have hLw : WellShaped
      (BTreeNode.mk C.m_isLeaf (C.m_Entries.take (t - 1)) (C.m_Children.take t)) := by
    rw [wellShaped_mk_iff]
    refine ⟨?_, fun x hx => hchW x (List.mem_of_mem_take hx)⟩
    split
    · next hl => rw [hCw.leaf hl]; simp
    · next hl =>
      have := hCw.internal (by simpa using hl)
      unfold nEntries at this
      simp
      omega
  have hRw : WellShaped
      (BTreeNode.mk C.m_isLeaf (C.m_Entries.drop t) (C.m_Children.drop t)) := by
    rw [wellShaped_mk_iff]
    refine ⟨?_, fun x hx => hchW x (List.mem_of_mem_drop hx)⟩
    split
    · next hl => rw [hCw.leaf hl]; simp
    · next hl =>
      have := hCw.internal (by simpa using hl)
      unfold nEntries at this
      simp
      omega
  have hN'w : WellShaped (BTreeNode.mk N.m_isLeaf
      (N.m_Entries.take idx ++ m :: N.m_Entries.drop idx)
      (N.m_Children.take idx ++
        BTreeNode.mk C.m_isLeaf (C.m_Entries.take (t - 1)) (C.m_Children.take t) ::
        BTreeNode.mk C.m_isLeaf (C.m_Entries.drop t) (C.m_Children.drop t) ::
        N.m_Children.drop (idx + 1))) := by
    rw [wellShaped_mk_iff, hNl]
    refine ⟨?_, ?_⟩
    · unfold nEntries at hNlen hidx
      simp
      omega
    · intro x hx
      simp only [List.mem_append, List.mem_cons] at hx
      rcases hx with hx | hx | hx | hx
      · exact hN.children x (List.mem_of_mem_take hx)
      · rw [hx]; exact hLw
      · rw [hx]; exact hRw
      · exact hN.children x (List.mem_of_mem_drop hx)
  refine ⟨?_, ?_⟩
  swap
  · intro ht30 hcap
    have hcap' : N.m_Children.length < 2 * t := hcap
    rw [hsplit, reserveNode_ok _ (by omega) (by exact_mod_cast ht30), except_ok_bind,
      refAfterInsert_ok hcap', except_ok_bind]
    exact ⟨_, rfl⟩
  intro N' hN'
  rw [hsplit] at hN'
  simp only [bind_eq_ok_iff, Except.ok.injEq] at hN'
  obtain ⟨_, _, _, _, hN'⟩ := hN'
  subst hN'
  refine ⟨m, inorder N, hm, ?_, ?_, ?_, ?_, ?_, rfl, ?_, ?_, rfl, ?_, ?_,
    hN.getAllEntries_inorder, ?_⟩
  · exact getElem?_append_at _ _ _ _ hTl
  · exact getElem?_append_at_succ _ _ _ _ _ hTl
  · simp; omega
  · simp; omega
  · intro hl
    have := hCw.internal hl
    unfold nEntries at this
    simp
    omega
  · simp only [m_Children_mk]
    exact take_append_at _ _ _ hTl
  · simp only [m_Children_mk]
    rw [drop_append_at_add _ _ _ _ hTl]
    rfl
  · unfold nEntries at hidx ⊢
    simp
    omega
  · unfold nChildren
    simp
    omega
  · rw [hN'w.getAllEntries_inorder, inorder_around N C idx hC hidx, hCin]
    congr 1
    simp only [inorder]
    rw [inorderZip_two _ _ _ _ _ _ _ (by rw [hEl, hTl])]
    simp [inorder]

end Claims7

section Claims8

variable {K V : Type}

open BTreeNode BTree

/-- C20: for `t ≥ 2`, a well-shaped node `N`, an index `idx < nEntries()` and the two
children `c = m_Children[idx]` and `nx = m_Children[idx+1]` of one level (same leaf flag)
that hold `t-1` entries each, `mergeWithNextChild(idx)` returns a node `N'` in which
`m_Children[idx]` holds the `2t-1` entries of `c`, then the entry `e` at index `idx` of `N`,
then the entries of `nx`, and the children of `c` followed by the children of `nx`; `N'` is
`N` without the entry at `idx` and without the child at `idx+1`; and `getAllEntries`
returns the same sequence on `N'` as on `N`. -/
theorem C20_mergeWithNextChild_postcondition (t : Nat) (ht : 2 ≤ t) (N c nx : BTreeNode K V)
    (idx : Nat) (hN : N.WellShaped) (hidx : idx < N.nEntries)
    (hc : N.m_Children[idx]? = some c) (hnx : N.m_Children[idx + 1]? = some nx)
    (hcn : c.nEntries = t - 1) (hnn : nx.nEntries = t - 1)
    (hleaf : c.m_isLeaf = nx.m_isLeaf) :
    ∃ N' e es, mergeWithNextChild t N idx = .ok N' ∧ N.m_Entries[idx]? = some e ∧
      N'.m_Children[idx]? = some (BTreeNode.mk c.m_isLeaf
        (c.m_Entries ++ e :: nx.m_Entries) (c.m_Children ++ nx.m_Children)) ∧
      (c.m_Entries ++ e :: nx.m_Entries).length = 2 * t - 1 ∧
      N'.m_Entries = N.m_Entries.eraseIdx idx ∧
      N'.m_Children.eraseIdx idx = (N.m_Children.eraseIdx (idx + 1)).eraseIdx idx ∧
      N'.m_Children.length + 1 = N.m_Children.length ∧
      N'.m_isLeaf = N.m_isLeaf ∧
      N.getAllEntries = .ok es ∧ N'.getAllEntries = .ok es := by
  have hNl := hN.internal_of_child hc
  have hNlen := hN.internal hNl
  have hcw : c.WellShaped := hN.children c (List.getElem?_mem hc)
  have hnw : nx.WellShaped := hN.children nx (List.getElem?_mem hnx)
  have hi1 : idx + 1 < N.m_Children.length := by
    rcases List.getElem?_eq_some_iff.mp hnx with ⟨h, _⟩; exact h
  have hidx' : idx < N.m_Entries.length := hidx
  have he : N.m_Entries[idx]? = some N.m_Entries[idx] := List.getElem?_eq_getElem hidx'
  generalize N.m_Entries[idx] = e at he
  have hcs := eq_take_two_drop N.m_Children idx c nx hc hnx
  have hes := eq_take_drop_of_getElem? N.m_Entries idx e he
  have hTl : (N.m_Children.take idx).length = idx := by simp; omega
  have hEl : (N.m_Entries.take idx).length = idx := by simp; omega
  have hclen : c.m_Entries.length = t - 1 := hcn
  have hnlen : nx.m_Entries.length = t - 1 := hnn
  have hins : vecInsert c.m_Entries (t - 1) e = .ok (c.m_Entries ++ [e]) := by
    unfold vecInsert
    rw [if_pos (by omega), List.take_of_length_le (by omega),
      List.drop_of_length_le (by omega)]
  have herase : vecErase N.m_Entries idx = .ok (N.m_Entries.take idx ++ N.m_Entries.drop (idx + 1)) := by
    unfold vecErase
    rw [if_pos hidx']
    congr 1
    conv_lhs => rw [hes]
    exact eraseIdx_append_at _ _ _ _ hEl
  have herasec : vecErase N.m_Children (idx + 1) =
      .ok (N.m_Children.take idx ++ c :: N.m_Children.drop (idx + 2)) := by
    unfold vecErase
    rw [if_pos hi1]
    congr 1
    conv_lhs => rw [hcs]
    have := eraseIdx_append_at (N.m_Children.take idx ++ [c]) (N.m_Children.drop (idx + 2)) nx
      (idx + 1) (by simp; omega)
    simpa using this
  have hmerge : mergeWithNextChild t N idx = .ok (BTreeNode.mk N.m_isLeaf
      (N.m_Entries.take idx ++ N.m_Entries.drop (idx + 1))
      (N.m_Children.take idx ++ BTreeNode.mk c.m_isLeaf (c.m_Entries ++ e :: nx.m_Entries)
        (c.m_Children ++ nx.m_Children) :: N.m_Children.drop (idx + 2))) := by
    unfold mergeWithNextChild
    simp only [vecGet_eq_ok hc, vecGet_eq_ok hnx, vecGet_eq_ok he, except_ok_bind,
      idxPred_of_pos (by omega : 0 < t), hins, herase, herasec, except_pure_eq,
      set_append_at _ _ _ _ _ hTl, List.append_assoc, List.singleton_append]
    split
    · next hl =>
      have : nx.m_Children = [] := hnw.leaf (by rw [← hleaf]; exact hl)
      simp [this, herasec, set_append_at _ _ _ _ _ hTl]
    · next hl =>
      have := hnw.internal (by rw [← hleaf]; simpa using hl)
      simp [vecCopy, this, herasec, set_append_at _ _ _ _ _ hTl]
  have hMw : WellShaped (BTreeNode.mk c.m_isLeaf (c.m_Entries ++ e :: nx.m_Entries)
      (c.m_Children ++ nx.m_Children)) := by
    rw [wellShaped_mk_iff]
    refine ⟨?_, ?_⟩
    · split
      · next hl =>
        rw [hcw.leaf hl, hnw.leaf (by rw [← hleaf]; exact hl)]
        rfl
      · next hl =>
        have h1 := hcw.internal (by simpa using hl)
        have h2 := hnw.internal (by rw [← hleaf]; simpa using hl)
        unfold nEntries at h1 h2
        simp
        omega
    · intro x hx
      rcases List.mem_append.mp hx with hx | hx
      · exact hcw.children x hx
      · exact hnw.children x hx
  have hN'w : WellShaped (BTreeNode.mk N.m_isLeaf
      (N.m_Entries.take idx ++ N.m_Entries.drop (idx + 1))
      (N.m_Children.take idx ++ BTreeNode.mk c.m_isLeaf (c.m_Entries ++ e :: nx.m_Entries)
        (c.m_Children ++ nx.m_Children) :: N.m_Children.drop (idx + 2))) := by
    rw [wellShaped_mk_iff, hNl]
    refine ⟨?_, ?_⟩
    · unfold nEntries at hNlen
      simp
      omega
    · intro x hx
      simp only [List.mem_append, List.mem_cons] at hx
      rcases hx with hx | hx | hx
      · exact hN.children x (List.mem_of_mem_take hx)
      · rw [hx]; exact hMw
      · exact hN.children x (List.mem_of_mem_drop hx)
  have hcut : c.m_Children = [] ∧ nx.m_Children = [] ∨
      c.m_Children.length = c.m_Entries.length + 1 := by
    cases hl : c.m_isLeaf with
    | true => left; exact ⟨hcw.leaf hl, hnw.leaf (by rw [← hleaf]; exact hl)⟩
    | false => right; exact hcw.internal hl
  have hMin : inorder (BTreeNode.mk c.m_isLeaf (c.m_Entries ++ e :: nx.m_Entries)
      (c.m_Children ++ nx.m_Children)) = inorder c ++ e :: inorder nx := by
    rw [inorder_mk_cut _ _ _ _ _ _ hcut, inorder_eq c, inorder_eq nx]
    simp [inorder]
  refine ⟨_, e, inorder N, hmerge, he, ?_, ?_, ?_, ?_, ?_, rfl, hN.getAllEntries_inorder, ?_⟩
  · exact getElem?_append_at _ _ _ _ hTl
  · simp; omega
  · simp only [m_Entries_mk]
    conv_rhs => rw [hes]
    exact (eraseIdx_append_at _ _ _ _ hEl).symm
  · simp only [m_Children_mk]
    rw [eraseIdx_append_at _ _ _ _ hTl]
    conv_rhs => rw [hcs]
    have := eraseIdx_append_at (N.m_Children.take idx ++ [c]) (N.m_Children.drop (idx + 2)) nx
      (idx + 1) (by simp; omega)
    simp only [List.append_assoc, List.singleton_append] at this
    rw [this, eraseIdx_append_at _ _ _ _ hTl]
  · simp
    omega
  · rw [hN'w.getAllEntries_inorder]
    congr 1
    rw [inorder_eq N]
    conv_rhs => rw [hes, hcs]
    rw [inorderZip_two _ _ _ _ _ _ _ (by rw [hEl, hTl])]
    simp only [inorder]
    rw [inorderZip_child _ _ _ _ _ (by rw [hEl, hTl])]
    rw [hMin]
    simp

end Claims8

namespace BTreeNode

section GetLe

variable {K V : Type} [LinearOrder K]

/-- The bounds of `search_bounds` for a traversal whose keys are only non-decreasing. -/
theorem search_bounds_le (key : K) (es mid : List (Entry K V)) (cs : List (BTreeNode K V))
    (hlen : cs.length = es.length + 1)
    (hne : ∀ e, es[idxForKey key es]? = some e → e.m_Key ≠ key)
    (hs : (keys (preZip (es.take (idxForKey key es)) (cs.take (idxForKey key es)) ++ mid ++
      sufZip (es.drop (idxForKey key es)) (cs.drop (idxForKey key es + 1)))).Pairwise
        (· ≤ ·)) :
    (∀ y ∈ preZip (es.take (idxForKey key es)) (cs.take (idxForKey key es)),
      y.m_Key < key) ∧
    (∀ y ∈ sufZip (es.drop (idxForKey key es)) (cs.drop (idxForKey key es + 1)),
      key < y.m_Key) := by
  have hle := idxForKey_le key es
  have htk := idxForKey_take key es
  have hat := idxForKey_at key es
  generalize idxForKey key es = i at *
  constructor
  · cases i with
    | zero => simp [preZip_nil_left]
    | succ j =>
      have hj : j < es.length := by omega
      have htake : es.take (j + 1) = es.take j ++ [es[j]] := by
        rw [List.take_succ, List.getElem?_eq_getElem hj]; rfl
      have hek : es[j].m_Key < key :=
        htk _ (htake ▸ List.mem_append_right _ (List.mem_singleton_self _))
      obtain ⟨l, hl⟩ := preZip_concat (es.take j) es[j] (cs.take (j + 1))
        (by simp; omega)
      rw [htake, hl] at hs
      rw [htake, hl]
      intro y hy
      rcases List.mem_append.mp hy with hy | hy
      · simp only [keys_append, List.append_assoc] at hs
        have := (List.pairwise_append.mp hs).2.2 y.m_Key (mem_keys_of_mem hy)
          es[j].m_Key (by simp [keys])
        exact lt_of_le_of_lt this hek
      · simp only [List.mem_singleton] at hy
        rw [hy]
        exact hek
  · cases hd : es.drop i with
    | nil => simp [sufZip]
    | cons e rest =>
      have hei : es[i]? = some e := by
        have := congrArg (fun l => l[0]?) hd
        simpa using this
      have hgt : key < e.m_Key := lt_of_le_of_ne (hat e hei) (fun h => hne e hei h.symm)
      rw [hd] at hs
      simp only [sufZip] at hs ⊢
      intro y hy
      rcases List.mem_cons.mp hy with hy | hy
      · rw [hy]
        exact hgt
      · simp only [keys_append, keys_cons] at hs
        have h2 := (List.pairwise_append.mp hs).2.1
        have := (List.pairwise_cons.mp h2).1 y.m_Key (mem_keys_of_mem hy)
        exact lt_of_lt_of_le hgt this

/-- The fact of `search_leaf` for a leaf whose keys are only non-decreasing. -/
theorem search_leaf_le (key : K) (es : List (Entry K V))
    (hne : ∀ e, es[idxForKey key es]? = some e → e.m_Key ≠ key)
    (hs : (keys es).Pairwise (· ≤ ·)) : ∀ y ∈ es, y.m_Key ≠ key := by
  have htk := idxForKey_take key es
  have hat := idxForKey_at key es
  generalize idxForKey key es = i at *
  intro y hy
  rw [← List.take_append_drop i es] at hy hs
  rcases List.mem_append.mp hy with hy | hy
  · exact ne_of_lt (htk y hy)
  · cases hd : es.drop i with
    | nil => rw [hd] at hy; simp at hy
    | cons e rest =>
      have hei : es[i]? = some e := by
        have := congrArg (fun l => l[0]?) hd
        simpa using this
      have hgt : key < e.m_Key := lt_of_le_of_ne (hat e hei) (fun h => hne e hei h.symm)
      rw [hd] at hy hs
      rcases List.mem_cons.mp hy with hy | hy
      · rw [hy]
        exact ne_of_gt hgt
      · simp only [keys_append, keys_cons] at hs
        have h2 := (List.pairwise_append.mp hs).2.1
        have := (List.pairwise_cons.mp h2).1 y.m_Key (mem_keys_of_mem hy)
        exact ne_of_gt (lt_of_lt_of_le hgt this)

/-- What `getValuePtr` returns on a well-shaped node whose traversal has non-decreasing
keys (equal keys may repeat): a pointer to the value of an entry of the traversal with the
key searched, if the traversal has one, and the null pointer only if it has none. -/
theorem getValuePtr_le (key : K) :
    ∀ (fuel : Nat) (n : BTreeNode K V), height n ≤ fuel → WellShaped n →
      (keys (inorder n)).Pairwise (· ≤ ·) →
      ∃ r, getValuePtr key fuel n = .ok r ∧
        (∀ w, r = some w → (⟨key, w⟩ : Entry K V) ∈ inorder n) ∧
        (r = none → ∀ y ∈ inorder n, y.m_Key ≠ key) := by
  intro fuel
  induction fuel with
  | zero =>
    intro n hk
    have := height_pos n
    omega
  | succ fuel ih =>
    intro n hk hw hsort
    have hch := hw.children
    have hlt := height_lt_of_mem n
    rw [getValuePtr]
    have found : ∀ e : Entry K V, e ∈ inorder n → e.m_Key = key →
        (∀ w, some e.m_Value = some w → (⟨key, w⟩ : Entry K V) ∈ inorder n) ∧
          ((some e.m_Value : Option V) = none → ∀ y ∈ inorder n, y.m_Key ≠ key) := by
      intro e he hk
      refine ⟨?_, fun h => by cases h⟩
      intro w hw'
      simp only [Option.some.injEq] at hw'
      rw [← hw', ← hk]
      exact he
    cases hl : n.m_isLeaf with
    | true =>
      have hc := hw.leaf hl
      have hin : inorder n = n.m_Entries := by rw [inorder_eq, hc, inorderZip_nil_right]
      rw [hin] at hsort found ⊢
      cases hei : n.m_Entries[idxForKey key n.m_Entries]? with
      | none =>
        exact ⟨none, by simp, (fun w h => by cases h),
          fun _ => search_leaf_le key n.m_Entries (by simp [hei]) hsort⟩
      | some e =>
        by_cases hk : e.m_Key = key
        · exact ⟨some e.m_Value, by simp [hk], found e (List.getElem?_mem hei) hk⟩
        · refine ⟨none, by simp [hk], (fun w h => by cases h),
            fun _ => search_leaf_le key n.m_Entries ?_ hsort⟩
          intro e' he'
          rw [hei] at he'
          cases he'
          exact hk
    | false =>
      have hclen := hw.internal hl
      have hile : idxForKey key n.m_Entries ≤ n.nEntries := idxForKey_le key n.m_Entries
      have hbounds := fun mid hne hsort' =>
        search_bounds_le key n.m_Entries mid n.m_Children hclen hne hsort'
      generalize hidef : idxForKey key n.m_Entries = i at hile hbounds
      have hilt : i < n.m_Children.length := by omega
      have hci : n.m_Children[i]? = some n.m_Children[i] := List.getElem?_eq_getElem hilt
      generalize n.m_Children[i] = c at hci
      have hcm : c ∈ n.m_Children := List.getElem?_mem hci
      have hin := inorder_around n c i hci hile
      have descend : (∀ e, n.m_Entries[i]? = some e → e.m_Key ≠ key) →
          ∃ r, getValuePtr key fuel c = .ok r ∧
            (∀ w, r = some w → (⟨key, w⟩ : Entry K V) ∈ inorder n) ∧
            (r = none → ∀ y ∈ inorder n, y.m_Key ≠ key) := by
        intro hne
        rw [hin] at hsort
        obtain ⟨r, hr, h1, h2⟩ := ih c (by have := hlt c hcm; omega) (hch c hcm)
          (sorted_mid hsort)
        obtain ⟨hb1, hb2⟩ := hbounds _ hne hsort
        refine ⟨r, hr, ?_, ?_⟩
        · intro w hw'
          rw [hin]
          exact List.mem_append_left _ (List.mem_append_right _ (h1 w hw'))
        · intro hnone y hy
          rw [hin] at hy
          simp only [List.mem_append] at hy
          rcases hy with (hy | hy) | hy
          · exact ne_of_lt (hb1 y hy)
          · exact h2 hnone y hy
          · exact ne_of_gt (hb2 y hy)
      cases hei : n.m_Entries[i]? with
      | none =>
        obtain ⟨r, hr, h12⟩ := descend (by simp [hei])
        exact ⟨r, by simp [vecGet_eq_ok hci, hr], h12⟩
      | some e =>
        by_cases hk : e.m_Key = key
        · exact ⟨some e.m_Value, by simp [hk],
            found e (mem_inorder_of_mem n e (List.getElem?_mem hei)) hk⟩
        · obtain ⟨r, hr, h12⟩ := descend (by
            intro e' he'
            rw [hei] at he'
            cases he'
            exact hk)
          exact ⟨r, by simp [hk, vecGet_eq_ok hci, hr], h12⟩

end GetLe

end BTreeNode

namespace BTree

section Inserts

variable {K V : Type} [LinearOrder K]

open BTreeNode

/-- On a tree of a degree below `2^30`, every sequence of `insert` calls runs to the end,
keeps the size and balance invariant and non-decreasing keys, and adds exactly the entries
inserted to the traversal. -/
theorem run_inserts (kvs : List (K × V)) : ∀ (T : BTree K V), T.Inv → T.m_t < 2 ^ 30 →
    (keys T.entries).Pairwise (· ≤ ·) →
    ∃ T', run T (kvs.map (fun p => Op.insert p.1 p.2)) = .ok T' ∧ T'.Inv ∧
      (keys T'.entries).Pairwise (· ≤ ·) ∧
      ∀ e : Entry K V, e ∈ T'.entries ↔ e ∈ T.entries ∨ (e.m_Key, e.m_Value) ∈ kvs := by
  induction kvs with
  | nil =>
    intro T hinv _ hsort
    exact ⟨T, rfl, hinv, hsort, by simp⟩
  | cons p kvs ih =>
    intro T hinv h30 hsort
    obtain ⟨T1, l1, l2, hok, hinv1, hmt1, _, he, he1, hb⟩ := insert_spec T hinv h30 p.1 p.2
    obtain ⟨hb1, hb2⟩ := hb hsort
    have hsort1 : (keys T1.entries).Pairwise (· ≤ ·) := by
      rw [he1]
      rw [he] at hsort
      exact sorted_insert_le hsort hb1 hb2
    obtain ⟨T', hrun, hinv', hsort', hmem⟩ := ih T1 hinv1 (by rw [hmt1]; exact h30) hsort1
    refine ⟨T', by simp [run, step, hok, hrun], hinv', hsort', ?_⟩
    intro e
    rw [hmem e, he1, he]
    cases e with
    | mk ek ev =>
      cases p with
      | mk pk pv =>
        simp only [List.mem_append, List.mem_cons, Entry.mk.injEq, Prod.mk.injEq]
        tauto

end Inserts

end BTree

section Claims9

variable {K V : Type} [LinearOrder K]

open BTreeNode BTree

/-- C11, amended: for every degree `t` from 2 to below `2^30` and every finite sequence of
`insert` calls on the empty tree, keys repeating or not, the calls all return and `get(k)`
for an inserted key `k` returns the value of one of the inserts made for `k` (the value
inserted, if `k` was inserted once). From `2^30` on the first call throws (`newNode`). -/
theorem C11_get_returns_an_inserted_value (t : Int) (ht : 2 ≤ t) (h30 : t < 2 ^ 30)
    (kvs : List (K × V)) (k : K) (hk : k ∈ kvs.map Prod.fst) :
    ∃ T v, run (empty t) (kvs.map (fun p => Op.insert p.1 p.2)) = .ok T ∧
      T.get k = .ok (some v) ∧ (k, v) ∈ kvs := by
  obtain ⟨T, hrun, hinv, hsort, hmem⟩ :=
    run_inserts kvs (empty t : BTree K V) (empty_inv t (by omega)) h30
      (by simp [entries, empty, keys])
  obtain ⟨p, hp, hpk⟩ := List.mem_map.mp hk
  have hin : (⟨k, p.2⟩ : Entry K V) ∈ T.entries := by
    rw [hmem]
    right
    simp only
    rw [← hpk]
    exact hp
  cases hr : T.m_Root with
  | none => simp [entries, hr] at hin
  | some r =>
    have hs := hinv.2 r hr
    simp only [entries, hr] at hsort hin hmem
    obtain ⟨res, hres, h1, h2⟩ :=
      getValuePtr_le k r.height r (le_refl _) hs.wellShaped hsort
    cases res with
    | none => exact absurd rfl (h2 rfl _ hin)
    | some w =>
      refine ⟨T, w, hrun, ?_, ?_⟩
      · simp [BTree.get, BTree.getValuePtr, hr, hres]
      · have := (hmem ⟨k, w⟩).mp (h1 w rfl)
        simpa [entries, empty] using this

end Claims9

section Concrete3

open BTreeNode BTree Examples

/-- C11, counterexample: after `insert(1, 100)` and `insert(1, 200)` on the empty tree of
degree 2, `get(1)` returns 100, the value of the first insert. -/
theorem C11_counterexample :
    (run (empty 2) [Op.insert 1 100, Op.insert 1 200]).bind (fun T => T.get 1) =
        (.ok (some 100) : Except Err (Option Nat)) ∧
      (run (empty 2) [Op.insert 1 100, Op.insert 1 200]).bind (fun T => T.get 1) ≠
        (.ok (some 200) : Except Err (Option Nat)) := by
  decide!

/-- Witness for C11: the key 1 inserted twice. -/
theorem C11_witness :
    ((2 : Int) ≤ 2 ∧ (2 : Int) < 2 ^ 30 ∧
      (1 : Nat) ∈ [((1 : Nat), (100 : Nat)), (1, 200)].map Prod.fst) ∧
    ∃ T v, run (empty 2) ([((1 : Nat), (100 : Nat)), (1, 200)].map
        (fun p => Op.insert p.1 p.2)) = .ok T ∧
      T.get 1 = .ok (some v) ∧ (1, v) ∈ [((1 : Nat), (100 : Nat)), (1, 200)] :=
  ⟨⟨by decide, by decide, by decide⟩,
    C11_get_returns_an_inserted_value 2 (by decide) (by decide) [(1, 100), (1, 200)] 1
      (by decide)⟩

/-- Witness for C17: the root `[2]` over the leaves `[1]` and `[3, 4, 5]`, split at 1.
The root holds two children, fewer than `2t = 4`, and the call returns the root `[2, 4]`
over the leaves `[1]`, `[3]` and `[5]`. -/
theorem C17_witness :
    ((2 : Nat) ≤ 2 ∧ (node [2] [leaf [1], leaf [3, 4, 5]]).WellShaped ∧
      (node [2] [leaf [1], leaf [3, 4, 5]]).m_Children[1]? = some (leaf [3, 4, 5]) ∧
      (leaf [3, 4, 5]).nEntries = 2 * 2 - 1 ∧ (2 : Nat) < 2 ^ 30 ∧
      (node [2] [leaf [1], leaf [3, 4, 5]]).nChildren < 2 * 2) ∧
    splitChild 2 (node [2] [leaf [1], leaf [3, 4, 5]]) 1 =
      .ok (node [2, 4] [leaf [1], leaf [3], leaf [5]]) ∧
    ∃ m es, (leaf [3, 4, 5]).m_Entries[2 - 1]? = some m ∧
      (node [2, 4] [leaf [1], leaf [3], leaf [5]]).m_Children[1]? =
        some (BTreeNode.mk (leaf [3, 4, 5]).m_isLeaf ((leaf [3, 4, 5]).m_Entries.take (2 - 1))
          ((leaf [3, 4, 5]).m_Children.take 2)) ∧
      (node [2, 4] [leaf [1], leaf [3], leaf [5]]).m_Children[1 + 1]? =
        some (BTreeNode.mk (leaf [3, 4, 5]).m_isLeaf ((leaf [3, 4, 5]).m_Entries.drop 2)
          ((leaf [3, 4, 5]).m_Children.drop 2)) ∧
      ((leaf [3, 4, 5]).m_Entries.take (2 - 1)).length = 2 - 1 ∧
      ((leaf [3, 4, 5]).m_Entries.drop 2).length = 2 - 1 ∧
      ((leaf [3, 4, 5]).m_isLeaf = false →
        ((leaf [3, 4, 5]).m_Children.take 2).length = 2 ∧
          ((leaf [3, 4, 5]).m_Children.drop 2).length = 2) ∧
      (node [2, 4] [leaf [1], leaf [3], leaf [5]]).m_Entries =
        (node [2] [leaf [1], leaf [3, 4, 5]]).m_Entries.take 1 ++
          m :: (node [2] [leaf [1], leaf [3, 4, 5]]).m_Entries.drop 1 ∧
      (node [2, 4] [leaf [1], leaf [3], leaf [5]]).m_Children.take 1 =
        (node [2] [leaf [1], leaf [3, 4, 5]]).m_Children.take 1 ∧
      (node [2, 4] [leaf [1], leaf [3], leaf [5]]).m_Children.drop (1 + 2) =
        (node [2] [leaf [1], leaf [3, 4, 5]]).m_Children.drop (1 + 1) ∧
      (node [2, 4] [leaf [1], leaf [3], leaf [5]]).m_isLeaf =
        (node [2] [leaf [1], leaf [3, 4, 5]]).m_isLeaf ∧
      (node [2, 4] [leaf [1], leaf [3], leaf [5]]).nEntries =
        (node [2] [leaf [1], leaf [3, 4, 5]]).nEntries + 1 ∧
      (node [2, 4] [leaf [1], leaf [3], leaf [5]]).nChildren =
        (node [2] [leaf [1], leaf [3, 4, 5]]).nChildren + 1 ∧
      (node [2] [leaf [1], leaf [3, 4, 5]]).getAllEntries = .ok es ∧
      (node [2, 4] [leaf [1], leaf [3], leaf [5]]).getAllEntries = .ok es :=
  ⟨⟨by decide, by decide, by decide, by decide, by decide, by decide⟩, by decide,
    (C17_splitChild_postcondition 2 (by decide) (node [2] [leaf [1], leaf [3, 4, 5]])
      (leaf [3, 4, 5]) 1 (by decide) (by decide) (by decide)).1 _ (by decide)⟩

/-- Witness for C20: the root `[2, 4]` over the leaves `[1]`, `[3]` and `[5, 6]`, merged
at 0. -/
theorem C20_witness :
    ((2 : Nat) ≤ 2 ∧ (node [2, 4] [leaf [1], leaf [3], leaf [5, 6]]).WellShaped ∧
      0 < (node [2, 4] [leaf [1], leaf [3], leaf [5, 6]]).nEntries ∧
      (node [2, 4] [leaf [1], leaf [3], leaf [5, 6]]).m_Children[0]? = some (leaf [1]) ∧
      (node [2, 4] [leaf [1], leaf [3], leaf [5, 6]]).m_Children[0 + 1]? = some (leaf [3]) ∧
      (leaf [1]).nEntries = 2 - 1 ∧ (leaf [3]).nEntries = 2 - 1 ∧
      (leaf [1]).m_isLeaf = (leaf [3]).m_isLeaf) ∧
    ∃ N' e es, mergeWithNextChild 2 (node [2, 4] [leaf [1], leaf [3], leaf [5, 6]]) 0 = .ok N' ∧
      (node [2, 4] [leaf [1], leaf [3], leaf [5, 6]]).m_Entries[0]? = some e ∧
      N'.m_Children[0]? = some (BTreeNode.mk (leaf [1]).m_isLeaf
        ((leaf [1]).m_Entries ++ e :: (leaf [3]).m_Entries)
        ((leaf [1]).m_Children ++ (leaf [3]).m_Children)) ∧
      ((leaf [1]).m_Entries ++ e :: (leaf [3]).m_Entries).length = 2 * 2 - 1 ∧
      N'.m_Entries = (node [2, 4] [leaf [1], leaf [3], leaf [5, 6]]).m_Entries.eraseIdx 0 ∧
      N'.m_Children.eraseIdx 0 =
        ((node [2, 4] [leaf [1], leaf [3], leaf [5, 6]]).m_Children.eraseIdx (0 + 1)).eraseIdx
          0 ∧
      N'.m_Children.length + 1 =
        (node [2, 4] [leaf [1], leaf [3], leaf [5, 6]]).m_Children.length ∧
      N'.m_isLeaf = (node [2, 4] [leaf [1], leaf [3], leaf [5, 6]]).m_isLeaf ∧
      (node [2, 4] [leaf [1], leaf [3], leaf [5, 6]]).getAllEntries = .ok es ∧
      N'.getAllEntries = .ok es :=
  ⟨⟨by decide, by decide, by decide, by decide, by decide, by decide, by decide, by decide⟩,
    C20_mergeWithNextChild_postcondition 2 (by decide)
      (node [2, 4] [leaf [1], leaf [3], leaf [5, 6]]) (leaf [1]) (leaf [3]) 0 (by decide)
      (by decide) (by decide) (by decide) (by decide) (by decide) (by decide)⟩

end Concrete3


namespace BTreeNode

section RemoveAbsent

variable {K V : Type} [LinearOrder K]

theorem Ordered.child {n : BTreeNode K V} (h : Ordered n) :
    ∀ c ∈ n.m_Children, Ordered c := by
  cases n with
  | mk l es cs =>
    simp only [Ordered] at h
    exact (orderedList_iff cs).mp h.2.2

/-- The keys under the child before an entry are smaller than the key of the entry. -/
theorem Ordered.left_lt {n c : BTreeNode K V} {j : Nat} {e x : Entry K V} (h : Ordered n)
    (he : n.m_Entries[j]? = some e) (hc : n.m_Children[j]? = some c) (hx : x ∈ inorder c) :
    x.m_Key < e.m_Key := by
  cases n with
  | mk l es cs =>
    simp only [Ordered] at h
    simp only [m_Entries_mk, m_Children_mk] at he hc
    have hj : j < es.length := by
      rcases List.getElem?_eq_some_iff.mp he with ⟨h, _⟩; exact h
    exact (h.2.1 j hj e he).1 c hc x hx

/-- The keys under the child after an entry are greater than the key of the entry. -/
theorem Ordered.right_gt {n c : BTreeNode K V} {j : Nat} {e x : Entry K V} (h : Ordered n)
    (he : n.m_Entries[j]? = some e) (hc : n.m_Children[j + 1]? = some c)
    (hx : x ∈ inorder c) : e.m_Key < x.m_Key := by
  cases n with
  | mk l es cs =>
    simp only [Ordered] at h
    simp only [m_Entries_mk, m_Children_mk] at he hc
    have hj : j < es.length := by
      rcases List.getElem?_eq_some_iff.mp he with ⟨h, _⟩; exact h
    exact (h.2.1 j hj e he).2 c hc x hx

omit [LinearOrder K] in
/-- What a call of `mergeWithNextChild(idx)` that returns has done to the node. -/
theorem mergeWithNextChild_inv {t idx : Nat} {n n1 : BTreeNode K V}
    (h : mergeWithNextChild t n idx = .ok n1) :
    ∃ c nx e cc, n.m_Children[idx]? = some c ∧ n.m_Children[idx + 1]? = some nx ∧
      n.m_Entries[idx]? = some e ∧ n1.m_isLeaf = n.m_isLeaf ∧
      n1.m_Entries = n.m_Entries.eraseIdx idx ∧
      n1.m_Children = (n.m_Children.eraseIdx (idx + 1)).set idx
        (mk c.m_isLeaf (c.m_Entries.take (t - 1) ++ e :: c.m_Entries.drop (t - 1) ++
          nx.m_Entries) cc) := by
  unfold mergeWithNextChild at h
  simp only [bind_eq_ok_iff, vecGet_ok_iff, idxPred_eq_ok_iff, vecInsert_eq_ok_iff,
    vecErase_eq_ok_iff, except_pure_eq, Except.ok.injEq] at h
  obtain ⟨c, hc, nx, hnx, e, he, tm, htm, ce, ⟨_, hce⟩, es, ⟨_, hes⟩, h⟩ := h
  have key : ∀ cc cs, vecErase n.m_Children (idx + 1) = .ok cs →
      n1 = mk n.m_isLeaf es (cs.set idx (mk c.m_isLeaf (ce ++ nx.m_Entries) cc)) →
      ∃ c nx e cc, n.m_Children[idx]? = some c ∧ n.m_Children[idx + 1]? = some nx ∧
        n.m_Entries[idx]? = some e ∧ n1.m_isLeaf = n.m_isLeaf ∧
        n1.m_Entries = n.m_Entries.eraseIdx idx ∧
        n1.m_Children = (n.m_Children.eraseIdx (idx + 1)).set idx
          (mk c.m_isLeaf (c.m_Entries.take (t - 1) ++ e :: c.m_Entries.drop (t - 1) ++
            nx.m_Entries) cc) := by
    intro cc cs hcs heq
    rw [vecErase_eq_ok_iff] at hcs
    subst heq
    refine ⟨c, nx, e, cc, hc, hnx, he, rfl, hes, ?_⟩
    simp only [m_Children_mk, hcs.2, hce, htm, Nat.add_sub_cancel]
  split at h
  · simp only [bind_eq_ok_iff, except_pure_eq, Except.ok.injEq] at h
    obtain ⟨cc, _, cs, hcs, heq⟩ := h
    exact key cc cs hcs heq.symm
  · simp only [bind_eq_ok_iff, except_pure_eq, Except.ok.injEq] at h
    obtain ⟨mv, _, cc, _, cs, hcs, heq⟩ := h
    exact key cc cs hcs heq.symm

omit [LinearOrder K] in
/-- What a call of `borrowEntryFromNextChild(idx)` that returns has done to the entries
of the node. -/
theorem borrowEntryFromNextChild_inv {idx : Nat} {n n1 : BTreeNode K V}
    (h : borrowEntryFromNextChild n idx = .ok n1) :
    ∃ nx e first, n.m_Children[idx + 1]? = some nx ∧ n.m_Entries[idx]? = some e ∧
      nx.m_Entries[0]? = some first ∧ n1.m_isLeaf = n.m_isLeaf ∧
      n1.m_Entries = n.m_Entries.set idx first := by
  unfold borrowEntryFromNextChild at h
  simp only [bind_eq_ok_iff, ite_eq_ok_iff, vecGet_ok_iff, vecSet_eq_ok_iff, except_pure_eq,
    Except.ok.injEq] at h
  aesop

omit [LinearOrder K] in
/-- What a call of `borrowEntryFromPrevChild(idx)` that returns has done to the entries
of the node. -/
theorem borrowEntryFromPrevChild_inv {rm : K → BTreeNode K V → Except Err (BTreeNode K V)}
    {idx : Nat} {n n1 : BTreeNode K V} (h : borrowEntryFromPrevChild rm n idx = .ok n1) :
    ∃ (im : Nat) (prev : BTreeNode K V) (e : Entry K V) (pl : Nat) (last : Entry K V),
      idx = im + 1 ∧ n.m_Children[im]? = some prev ∧
      n.m_Entries[im]? = some e ∧ prev.m_Entries[pl]? = some last ∧
      n1.m_isLeaf = n.m_isLeaf ∧ n1.m_Entries = n.m_Entries.set im last := by
  unfold borrowEntryFromPrevChild at h
  simp only [bind_eq_ok_iff, ite_eq_ok_iff, vecGet_ok_iff, vecSet_eq_ok_iff,
    idxPred_eq_ok_iff, except_pure_eq, Except.ok.injEq] at h
  aesop

omit [LinearOrder K] in
/-- A call of `fillChild(idx)` that returns has borrowed from the previous child, borrowed
from the next child, or merged the child with a neighbour. -/
theorem fillChild_inv {rm : K → BTreeNode K V → Except Err (BTreeNode K V)} {t idx : Nat}
    {n n1 : BTreeNode K V} (h : fillChild rm t n idx = .ok n1) :
    borrowEntryFromPrevChild rm n idx = .ok n1 ∨ borrowEntryFromNextChild n idx = .ok n1 ∨
      (idx ≠ n.nEntries ∧ mergeWithNextChild t n idx = .ok n1) ∨
      (idx = n.nEntries ∧ ∃ im, idx = im + 1 ∧ mergeWithNextChild t n im = .ok n1) := by
  unfold fillChild at h
  simp only [bind_eq_ok_iff, ite_eq_ok_iff, except_pure_eq, idxPred_eq_ok_iff,
    Except.ok.injEq] at h
  aesop

omit [LinearOrder K] in
/-- A call of `fillChild(idx)` that returns leaves the node with at most one entry fewer
and with the same leaf flag. -/
theorem fillChild_shape {rm : K → BTreeNode K V → Except Err (BTreeNode K V)} {t idx : Nat}
    {n n1 : BTreeNode K V} (h : fillChild rm t n idx = .ok n1) :
    n.nEntries ≤ n1.nEntries + 1 ∧ n1.m_isLeaf = n.m_isLeaf := by
  have hmerge : ∀ j, mergeWithNextChild t n j = .ok n1 →
      n.nEntries ≤ n1.nEntries + 1 ∧ n1.m_isLeaf = n.m_isLeaf := by
    intro j hj
    obtain ⟨c, nx, e, cc, _, _, he, hl, hes, _⟩ := mergeWithNextChild_inv hj
    have hjlt : j < n.m_Entries.length := by
      rcases List.getElem?_eq_some_iff.mp he with ⟨h, _⟩; exact h
    refine ⟨?_, hl⟩
    unfold nEntries
    rw [hes, List.length_eraseIdx, if_pos hjlt]; omega
  rcases fillChild_inv h with h | h | h | h
  · obtain ⟨im, prev, e, pl, last, _, hp, he, hl, hlf, hes⟩ := borrowEntryFromPrevChild_inv h
    refine ⟨?_, hlf⟩
    unfold nEntries; rw [hes, List.length_set]; omega
  · obtain ⟨nx, e, first, hnx, he, hf, hlf, hes⟩ := borrowEntryFromNextChild_inv h
    refine ⟨?_, hlf⟩
    unfold nEntries; rw [hes, List.length_set]; omega
  · exact hmerge idx h.2
  · obtain ⟨_, im, _, h⟩ := h
    exact hmerge im h

/-- In a node that satisfies the ordering invariant, a call of `fillChild(idx)` that
returns leaves the node with other entries than it had. -/
theorem fillChild_entries_ne {rm : K → BTreeNode K V → Except Err (BTreeNode K V)}
    {t idx : Nat} {n n1 : BTreeNode K V} (ho : Ordered n)
    (h : fillChild rm t n idx = .ok n1) : n1.m_Entries ≠ n.m_Entries := by
  have hmerge : ∀ j, mergeWithNextChild t n j = .ok n1 → n1.m_Entries ≠ n.m_Entries := by
    intro j hj
    obtain ⟨c, nx, e, cc, _, _, he, hl, hes, _⟩ := mergeWithNextChild_inv hj
    have hjlt : j < n.m_Entries.length := by
      rcases List.getElem?_eq_some_iff.mp he with ⟨h, _⟩; exact h
    have hlen : n1.m_Entries.length + 1 = n.m_Entries.length := by
      rw [hes, List.length_eraseIdx, if_pos hjlt]; omega
    intro heq
    rw [heq] at hlen; omega
  have hset : ∀ j (e x : Entry K V), n.m_Entries[j]? = some e → x.m_Key ≠ e.m_Key →
      n1.m_Entries = n.m_Entries.set j x → n1.m_Entries ≠ n.m_Entries := by
    intro j e x he hne hes heq
    have hjlt : j < n.m_Entries.length := by
      rcases List.getElem?_eq_some_iff.mp he with ⟨h, _⟩; exact h
    have h1 : n1.m_Entries[j]? = some x := by
      rw [hes, List.getElem?_set_self hjlt]
    rw [heq, he] at h1
    simp only [Option.some.injEq] at h1
    exact hne (by rw [h1])
  rcases fillChild_inv h with h | h | h | h
  · obtain ⟨im, prev, e, pl, last, _, hp, he, hl, hlf, hes⟩ := borrowEntryFromPrevChild_inv h
    have := ho.left_lt he hp (mem_inorder_of_mem prev last (List.getElem?_mem hl))
    exact hset im e last he (ne_of_lt this) hes
  · obtain ⟨nx, e, first, hnx, he, hf, hlf, hes⟩ := borrowEntryFromNextChild_inv h
    have := ho.right_gt he hnx (mem_inorder_of_mem nx first (List.getElem?_mem hf))
    exact hset idx e first he (ne_of_gt this) hes
  · exact hmerge idx h.2
  · obtain ⟨_, im, _, h⟩ := h
    exact hmerge im h

/-- The test of `remove` for the key at the index found fails when no entry of the node
has the key, and `remove` continues with the search below the node. -/
theorem remove_absent_eq (t fuel : Nat) {key : K} {n : BTreeNode K V}
    (hnf : ∀ e ∈ n.m_Entries, e.m_Key ≠ key) :
    remove t (fuel + 1) key n =
      (if n.m_isLeaf then .ok n
      else do
        let searchKeyInLastChild := decide (idxForKey key n.m_Entries = n.nEntries)
        let child ← vecGet n.m_Children (idxForKey key n.m_Entries)
        let n1 ←
          if child.nEntries < t then
            fillChild (remove t fuel) t n (idxForKey key n.m_Entries)
          else pure n
        if searchKeyInLastChild && decide (idxForKey key n.m_Entries > n1.nEntries) then do
          let child ← vecGet n1.m_Children (idxForKey key n.m_Entries - 1)
          let child ← remove t fuel key child
          pure (n1.withChild (idxForKey key n.m_Entries - 1) child)
        else do
          let child ← vecGet n1.m_Children (idxForKey key n.m_Entries)
          let child ← remove t fuel key child
          pure (n1.withChild (idxForKey key n.m_Entries) child)) := by
  rw [remove]
  cases hf : n.m_Entries[idxForKey key n.m_Entries]? with
  | none => simp only [Bool.false_eq_true, if_false]
  | some e =>
    have : decide (e.m_Key = key) = false := by simpa using hnf e (List.getElem?_mem hf)
    simp only [this, Bool.false_eq_true, if_false]

/-- On a leaf that does not hold the key, `remove` returns the leaf as it is. -/
theorem remove_leaf_absent (t fuel : Nat) {key : K} {n : BTreeNode K V}
    (hl : n.m_isLeaf = true) (hnf : ∀ e ∈ n.m_Entries, e.m_Key ≠ key) :
    remove t (fuel + 1) key n = .ok n := by
  rw [remove_absent_eq t fuel hnf, if_pos hl]

/-- On an internal node that does not hold the key and whose child on the search path
holds at least `t` entries, `remove` goes into that child and does nothing else. -/
theorem remove_descend (t fuel : Nat) {key : K} {n c : BTreeNode K V}
    (hl : n.m_isLeaf = false) (hnf : ∀ e ∈ n.m_Entries, e.m_Key ≠ key)
    (hc : n.m_Children[idxForKey key n.m_Entries]? = some c) (hfull : t ≤ c.nEntries) :
    remove t (fuel + 1) key n =
      (remove t fuel key c >>= fun c1 =>
        pure (n.withChild (idxForKey key n.m_Entries) c1)) := by
  rw [remove_absent_eq t fuel hnf]
  have hle : ¬ idxForKey key n.m_Entries > n.nEntries :=
    not_lt.mpr (idxForKey_le key n.m_Entries)
  simp only [hl, Bool.false_eq_true, if_false, vecGet_eq_ok hc,
    except_ok_bind, not_lt.mpr hfull, except_pure_eq, hle, decide_False, Bool.and_false]

/-- What a call of `remove` that returns has done to a node that does not hold the key
and whose child on the search path holds fewer than `t` entries: `fillChild`, then
`remove` on one child of the node refilled. -/
theorem remove_fill_inv {t fuel : Nat} {key : K} {n c n2 : BTreeNode K V}
    (hl : n.m_isLeaf = false) (hnf : ∀ e ∈ n.m_Entries, e.m_Key ≠ key)
    (hc : n.m_Children[idxForKey key n.m_Entries]? = some c) (hlt : c.nEntries < t)
    (h : remove t (fuel + 1) key n = .ok n2) :
    ∃ (n1 : BTreeNode K V) (j : Nat) (c1 c2 : BTreeNode K V),
      fillChild (remove t fuel) t n (idxForKey key n.m_Entries) = .ok n1 ∧
      n1.m_Children[j]? = some c1 ∧ remove t fuel key c1 = .ok c2 ∧
      n2 = n1.withChild j c2 := by
  rw [remove_absent_eq t fuel hnf] at h
  simp only [hl, Bool.false_eq_true, if_false, vecGet_eq_ok hc,
    except_ok_bind, hlt, if_true, bind_eq_ok_iff, ite_eq_ok_iff, vecGet_ok_iff,
    except_pure_eq, Except.ok.injEq] at h
  obtain ⟨n1, hfill, h⟩ := h
  rcases h with ⟨_, c1, hc1, c2, hc2, heq⟩ | ⟨_, c1, hc1, c2, hc2, heq⟩
  · exact ⟨n1, _, c1, c2, hfill, hc1, hc2, heq.symm⟩
  · exact ⟨n1, _, c1, c2, hfill, hc1, hc2, heq.symm⟩

end RemoveAbsent

end BTreeNode

namespace BTreeNode

section RemoveAbsent2

variable {K V : Type} [LinearOrder K]

omit [LinearOrder K] in
theorem set_self_of_getElem? {α : Type} (l : List α) (i : Nat) (a : α) (h : l[i]? = some a) :
    l.set i a = l := by
  induction l generalizing i with
  | nil => simp
  | cons b l ih =>
    cases i with
    | zero => simp at h; simp [h]
    | succ j =>
      simp only [List.getElem?_cons_succ] at h
      simp [ih j h]

omit [LinearOrder K] in
/-- Writing back the child that is already there leaves the node as it is. -/
theorem withChild_self (n c : BTreeNode K V) (i : Nat) (h : n.m_Children[i]? = some c) :
    n.withChild i c = n := by
  unfold withChild
  rw [set_self_of_getElem? _ _ _ h]
  exact (eta n).symm

omit [LinearOrder K] in
/-- A node that equals itself with one child replaced had that child before. -/
theorem eq_of_withChild_eq (n c c1 : BTreeNode K V) (i : Nat)
    (h : n.m_Children[i]? = some c) (heq : n.withChild i c1 = n) : c1 = c := by
  have hi : i < n.m_Children.length := by
    rcases List.getElem?_eq_some_iff.mp h with ⟨h, _⟩; exact h
  have h1 : (n.withChild i c1).m_Children[i]? = some c1 := by
    unfold withChild
    simp only [m_Children_mk]
    rw [List.getElem?_set_self hi]
  rw [heq, h] at h1
  simpa using h1.symm

omit [LinearOrder K] in
theorem mem_inorder_of_child (n c : BTreeNode K V) (i : Nat)
    (hc : n.m_Children[i]? = some c) (hile : i ≤ n.nEntries) (e : Entry K V)
    (he : e ∈ inorder c) : e ∈ inorder n := by
  rw [inorder_around n c i hc hile]
  simp [he]

/-- On a node that satisfies the data model and the ordering invariant and does not hold
the key anywhere below it, `remove` returns the node as it was exactly when no child on
the search path of the key had to be refilled. -/
theorem remove_absent_iff (t : Nat) (key : K) :
    ∀ (fuel : Nat) (n : BTreeNode K V), height n ≤ fuel → WellShaped n → Ordered n →
      (∀ e ∈ inorder n, e.m_Key ≠ key) →
      (remove t fuel key n = .ok n ↔ noFillOnPath t key fuel n = true) := by
  intro fuel
  induction fuel with
  | zero =>
    intro n hh
    have := height_pos n
    omega
  | succ fuel ih =>
    intro n hh hw ho habs
    have hnf : ∀ e ∈ n.m_Entries, e.m_Key ≠ key :=
      fun e he => habs e (mem_inorder_of_mem n e he)
    cases hl : n.m_isLeaf with
    | true =>
      rw [remove_leaf_absent t fuel hl hnf, noFillOnPath, hl]
      simp
    | false =>
      have hlen := hw.internal hl
      have hile := idxForKey_le key n.m_Entries
      have hi : idxForKey key n.m_Entries < n.m_Children.length := by
        unfold nEntries at hlen; omega
      have hc : n.m_Children[idxForKey key n.m_Entries]? =
          some n.m_Children[idxForKey key n.m_Entries] := List.getElem?_eq_getElem hi
      generalize n.m_Children[idxForKey key n.m_Entries] = c at hc
      have hcm : c ∈ n.m_Children := List.getElem?_mem hc
      have hch : height c ≤ fuel := by
        have := height_lt_of_mem n c hcm
        omega
      have IH := ih c hch (hw.children c hcm) (ho.child c hcm)
        (fun e he => habs e (mem_inorder_of_child n c _ hc hile e he))
      rw [noFillOnPath, hl, hc]
      by_cases hfull : t ≤ c.nEntries
      · rw [remove_descend t fuel hl hnf hc hfull, bind_eq_ok_iff]
        simp only [Bool.false_or, Bool.and_eq_true, Bool.not_eq_true', decide_eq_false_iff_not,
          not_lt, hfull, true_and, ← IH, except_pure_eq, Except.ok.injEq]
        constructor
        · rintro ⟨c1, hc1, heq⟩
          rw [hc1, eq_of_withChild_eq n c c1 _ hc heq]
        · intro h
          exact ⟨c, h, withChild_self n c _ hc⟩
      · have hlt : c.nEntries < t := not_le.mp hfull
        simp only [Bool.false_or, Bool.and_eq_true, Bool.not_eq_true', decide_eq_false_iff_not,
          not_lt, hfull, false_and, iff_false]
        intro h
        obtain ⟨n1, j, c1, c2, hfill, _, _, heq⟩ := remove_fill_inv hl hnf hc hlt h
        apply fillChild_entries_ne ho hfill
        conv_rhs => rw [heq]
        rfl

end RemoveAbsent2

end BTreeNode

namespace BTreeNode

section RemoveAbsent3

variable {K V : Type} [LinearOrder K]

omit [LinearOrder K] in
@[simp] theorem withChild_entries (n c : BTreeNode K V) (i : Nat) :
    (n.withChild i c).m_Entries = n.m_Entries := rfl

omit [LinearOrder K] in
@[simp] theorem withChild_children (n c : BTreeNode K V) (i : Nat) :
    (n.withChild i c).m_Children = n.m_Children.set i c := rfl

omit [LinearOrder K] in
@[simp] theorem withChild_isLeaf (n c : BTreeNode K V) (i : Nat) :
    (n.withChild i c).m_isLeaf = n.m_isLeaf := rfl

/-- A call of `remove` that returns on a node that does not hold the key leaves the node
with at most one entry fewer. -/
theorem remove_absent_shape {t fuel : Nat} {key : K} {n n2 : BTreeNode K V}
    (hnf : ∀ e ∈ n.m_Entries, e.m_Key ≠ key) (h : remove t (fuel + 1) key n = .ok n2) :
    n.nEntries ≤ n2.nEntries + 1 := by
  rw [remove_absent_eq t fuel hnf] at h
  simp only [bind_eq_ok_iff, ite_eq_ok_iff, vecGet_ok_iff, except_pure_eq,
    Except.ok.injEq] at h
  rcases h with ⟨_, heq⟩ | ⟨_, c, _, h⟩
  · rw [heq]; omega
  · rcases h with ⟨_, n1, hfill, h⟩ | ⟨_, n1, heq, h⟩
    · have hn2 : n2.nEntries = n1.nEntries := by
        rcases h with ⟨_, _, _, _, _, heq⟩ | ⟨_, _, _, _, _, heq⟩ <;> rw [← heq] <;> rfl
      rw [hn2]
      exact (fillChild_shape hfill).1
    · have hn2 : n2.nEntries = n1.nEntries := by
        rcases h with ⟨_, _, _, _, _, heq⟩ | ⟨_, _, _, _, _, heq⟩ <;> rw [← heq] <;> rfl
      rw [hn2, heq]
      omega

/-- On a root with the size invariant of a tree of degree at least 2 and a key that is
not stored, the child that replaces a root left empty by `remove` is not the root there
was: it holds the two children merged, which is more than the one entry of the root. -/
theorem remove_absent_no_collapse {t : Nat} (ht : 2 ≤ t) {key : K} :
    ∀ (h : Nat) (r r2 : BTreeNode K V), Shaped t 1 h r →
      (∀ e ∈ inorder r, e.m_Key ≠ key) → remove t (h + 1) key r = .ok r2 →
      r2.nEntries = 0 → r2.m_Children[0]? ≠ some r := by
  intro h r r2 hs habs hrem h0
  have hnf : ∀ e ∈ r.m_Entries, e.m_Key ≠ key :=
    fun e he => habs e (mem_inorder_of_mem r e he)
  have h1 : 1 ≤ r.nEntries := hs.lo_le
  cases h with
  | zero =>
    rw [remove_leaf_absent t 0 hs.1 hnf] at hrem
    cases hrem
    omega
  | succ h =>
    obtain ⟨hl, hlen, _, _, hch⟩ := hs
    have hile := idxForKey_le key r.m_Entries
    have hi : idxForKey key r.m_Entries < r.m_Children.length := by
      unfold nEntries at hlen; omega
    have hc : r.m_Children[idxForKey key r.m_Entries]? =
        some r.m_Children[idxForKey key r.m_Entries] := List.getElem?_eq_getElem hi
    generalize r.m_Children[idxForKey key r.m_Entries] = c0 at hc
    by_cases hfull : t ≤ c0.nEntries
    · rw [remove_descend t (h + 1) hl hnf hc hfull, bind_eq_ok_iff] at hrem
      obtain ⟨c1, _, heq⟩ := hrem
      simp only [except_pure_eq, Except.ok.injEq] at heq
      rw [← heq] at h0
      unfold nEntries at h0 h1
      simp only [withChild_entries] at h0
      omega
    · obtain ⟨n1, j, c1, c2, hfill, hj, hrem2, heq⟩ :=
        remove_fill_inv hl hnf hc (not_le.mp hfull) hrem
      have h0' : n1.m_Entries.length = 0 := by
        rw [heq] at h0
        exact h0
      have hmerge : ∀ i, mergeWithNextChild t r i = .ok n1 → r2.m_Children[0]? ≠ some r := by
        intro i hm
        obtain ⟨c, nx, e, cc, hci, hnxi, hei, _, hes, hcs⟩ := mergeWithNextChild_inv hm
        have hilt : i < r.m_Entries.length := by
          rcases List.getElem?_eq_some_iff.mp hei with ⟨h, _⟩; exact h
        have hr1 : r.m_Entries.length = 1 := by
          rw [hes, List.length_eraseIdx, if_pos hilt] at h0'
          omega
        have hi0 : i = 0 := by omega
        subst hi0
        have hcl : r.m_Children.length = 2 := by
          unfold nEntries at hlen; omega
        have hn1c : n1.m_Children = [mk c.m_isLeaf (c.m_Entries.take (t - 1) ++
            e :: c.m_Entries.drop (t - 1) ++ nx.m_Entries) cc] := by
          have h2 : ∀ l : List (BTreeNode K V), l.length = 2 → ∀ m,
              (l.eraseIdx 1).set 0 m = [m] := by
            intro l hl2 m
            match l, hl2 with
            | [_, _], _ => rfl
          rw [hcs, h2 _ hcl]
        have hj0 : j = 0 := by
          have : j < n1.m_Children.length := by
            rcases List.getElem?_eq_some_iff.mp hj with ⟨h, _⟩; exact h
          rw [hn1c] at this
          simpa using this
        subst hj0
        rw [hn1c] at hj
        simp only [List.getElem?_cons_zero, Option.some.injEq] at hj
        intro hr2
        rw [heq, withChild_children, hn1c] at hr2
        simp only [List.set_cons_zero, List.getElem?_cons_zero, Option.some.injEq] at hr2
        rw [hr2] at hrem2
        have hcm : c ∈ r.m_Children := List.getElem?_mem hci
        have hnm : nx ∈ r.m_Children := List.getElem?_mem hnxi
        have hcn : t - 1 ≤ c.nEntries := (hch c hcm).lo_le
        have hnn : t - 1 ≤ nx.nEntries := (hch nx hnm).lo_le
        have hnf1 : ∀ x ∈ c1.m_Entries, x.m_Key ≠ key := by
          intro x hx
          rw [← hj] at hx
          simp only [m_Entries_mk, List.append_assoc, List.mem_append, List.mem_cons] at hx
          rcases hx with hx | (hx | hx) | hx
          · exact habs x (mem_inorder_of_child r c 0 hci (by omega) x
              (mem_inorder_of_mem c x (List.mem_of_mem_take hx)))
          · rw [hx]; exact hnf e (List.getElem?_mem hei)
          · exact habs x (mem_inorder_of_child r c 0 hci (by omega) x
              (mem_inorder_of_mem c x (List.mem_of_mem_drop hx)))
          · exact habs x (mem_inorder_of_child r nx 1 hnxi (by unfold nEntries; omega) x
              (mem_inorder_of_mem nx x hx))
        have hsh := remove_absent_shape hnf1 hrem2
        have hc1n : c1.nEntries = c.nEntries + 1 + nx.nEntries := by
          rw [← hj]
          unfold nEntries
          simp only [m_Entries_mk, List.length_append, List.length_cons, List.length_take,
            List.length_drop]
          omega
        unfold nEntries at hsh hc1n hcn hnn
        omega
      have hset : ∀ (i : Nat) (x : Entry K V), n1.m_Entries = r.m_Entries.set i x → False := by
        intro i x hes
        rw [hes, List.length_set] at h0'
        unfold nEntries at h1
        omega
      rcases fillChild_inv hfill with hb | hb | hb | hb
      · obtain ⟨im, prev, e, pl, last, _, _, _, _, _, hes⟩ := borrowEntryFromPrevChild_inv hb
        exact (hset im last hes).elim
      · obtain ⟨nx, e, first, _, _, _, _, hes⟩ := borrowEntryFromNextChild_inv hb
        exact (hset _ first hes).elim
      · exact hmerge _ hb.2
      · obtain ⟨_, im, _, hb⟩ := hb
        exact hmerge im hb

end RemoveAbsent3

end BTreeNode

section Claims10

variable {K V : Type} [LinearOrder K]

open BTreeNode BTree

/-- C22 as the code has it: on a well-formed tree and a key `k` that no entry of the tree
has, `remove(k)` returns the tree it was given, structurally identical, exactly when on
the search path of `k` no child that the search enters holds fewer than `t` entries.
When one does, `fillChild` borrows or merges before the search goes on, and the call does
not return the tree as it was. -/
theorem C22_absent_key_unchanged_iff_no_fill (T : BTree K V) (hwf : T.WellFormed) (k : K)
    (habs : ∀ e ∈ T.entries, e.m_Key ≠ k) :
    T.remove k = .ok T ↔ T.noFillOnPath k = true := by
  cases T with
  | mk t root =>
  cases root with
  | none => simp [BTree.remove, BTree.noFillOnPath]
  | some r =>
    obtain ⟨ht, hwf2⟩ := hwf
    obtain ⟨hs, ho⟩ := hwf2 r rfl
    simp only at ht hs
    simp only [BTree.entries] at habs
    have hw := Shaped.wellShaped _ _ _ hs
    have h1 : 1 ≤ r.nEntries := hs.lo_le
    have hnf : ∀ e ∈ r.m_Entries, e.m_Key ≠ k :=
      fun e he => habs e (mem_inorder_of_mem r e he)
    have hiff := remove_absent_iff t.toNat k r.height r (le_refl _) hw ho habs
    simp only [BTree.remove, BTree.noFillOnPath, bind_eq_ok_iff, ite_eq_ok_iff,
      vecGet_ok_iff, except_pure_eq, Except.ok.injEq, BTree.mk.injEq, true_and,
      Option.some.injEq]
    rw [← hiff]
    constructor
    · rintro ⟨r2, hrem, h⟩
      rcases h with ⟨h0, h⟩ | ⟨_, heq⟩
      · exfalso
        rcases h with ⟨_, h⟩ | ⟨hl2, c, hc, hcr⟩
        · simp at h
        · have hh := Shaped.height_eq _ _ _ hs
          have hrem2 : BTreeNode.remove t.toNat (r.height - 1 + 1) k r = .ok r2 := by
            rw [← hh]; exact hrem
          exact remove_absent_no_collapse (by omega) _ r r2 hs habs hrem2 h0
            (by rw [hc, hcr])
      · rw [hrem, heq]
    · intro h
      exact ⟨r, h, Or.inr ⟨by omega, rfl⟩⟩

end Claims10

namespace BTreeNode

section MergeSlip

variable {K V : Type} [LinearOrder K]

/-- In a sequence with strictly ascending keys the search for the key of an entry stops at
the index of the entry. -/
theorem idxForKey_of_getElem? (es : List (Entry K V)) (hs : (keys es).Pairwise (· < ·))
    (i : Nat) (e : Entry K V) (he : es[i]? = some e) : idxForKey e.m_Key es = i := by
  induction es generalizing i with
  | nil => simp at he
  | cons a es ih =>
    rw [keys_cons, List.pairwise_cons] at hs
    cases i with
    | zero =>
      simp only [List.getElem?_cons_zero, Option.some.injEq] at he
      simp [idxForKey, he]
    | succ j =>
      simp only [List.getElem?_cons_succ] at he
      have hlt : a.m_Key < e.m_Key := hs.1 _ (mem_keys_of_mem (List.getElem?_mem he))
      simp only [idxForKey, gt_iff_lt, hlt, if_true, ih hs.2 j he]

omit [LinearOrder K] in
/-- The node that `mergeWithNextChild(idx)` leaves when the child holds at least `t - 1`
entries and the next child, if the child is internal, has a child for each of its entries
and one more. -/
theorem mergeWithNextChild_ok (t : Nat) (ht : 1 ≤ t) (n c nx : BTreeNode K V) (idx : Nat)
    (e : Entry K V) (hc : n.m_Children[idx]? = some c)
    (hnx : n.m_Children[idx + 1]? = some nx) (he : n.m_Entries[idx]? = some e)
    (hcn : t - 1 ≤ c.nEntries)
    (hnc : c.m_isLeaf = false → nx.nEntries + 1 ≤ nx.m_Children.length) :
    ∃ cc, mergeWithNextChild t n idx = .ok (mk n.m_isLeaf (n.m_Entries.eraseIdx idx)
      ((n.m_Children.eraseIdx (idx + 1)).set idx (mk c.m_isLeaf
        (c.m_Entries.take (t - 1) ++ e :: c.m_Entries.drop (t - 1) ++ nx.m_Entries) cc))) := by
  have hi : idx < n.m_Entries.length := by
    rcases List.getElem?_eq_some_iff.mp he with ⟨h, _⟩; exact h
  have hi1 : idx + 1 < n.m_Children.length := by
    rcases List.getElem?_eq_some_iff.mp hnx with ⟨h, _⟩; exact h
  unfold mergeWithNextChild
  simp only [vecGet_eq_ok hc, vecGet_eq_ok hnx, vecGet_eq_ok he, except_ok_bind,
    idxPred_of_pos (by omega : 0 < t), vecInsert, vecErase, if_pos hi, if_pos hi1,
    if_pos (show t - 1 ≤ c.m_Entries.length from hcn), except_pure_eq]
  cases hl : c.m_isLeaf with
  | true => exact ⟨c.m_Children, by simp⟩
  | false =>
    have := hnc hl
    simp only [vecCopy, Bool.false_eq_true, if_false, List.drop_zero]
    rw [if_pos (Or.inr (by omega))]
    exact ⟨c.m_Children ++ nx.m_Children.take (nx.nEntries + 1), by simp⟩

end MergeSlip

end BTreeNode

section Claims11

variable {K V : Type} [LinearOrder K]

open BTreeNode BTree

/-- C21, the code on every well-formed tree whose root is internal and whose last two
children hold fewer than `t` entries each, with `k` the key of the last entry of the root:
`remove(k)` finds the key at the last index `idx` of the root, `removeFromNonLeaf(idx)`
takes its merge branch, `mergeWithNextChild(idx)` returns a node with `idx` entries, and the
read of `m_Entries[idx]` that follows is out of bounds. The call does not return. -/
theorem C21_remove_reads_out_of_bounds (T : BTree K V) (hwf : T.WellFormed)
    (r c nx : BTreeNode K V) (e : Entry K V) (idx : Nat) (hr : T.m_Root = some r)
    (hlast : idx + 1 = r.nEntries) (he : r.m_Entries[idx]? = some e)
    (hc : r.m_Children[idx]? = some c) (hnx : r.m_Children[idx + 1]? = some nx)
    (hcn : c.nEntries < T.m_t.toNat) (hnn : nx.nEntries < T.m_t.toNat) :
    ∃ n1, mergeWithNextChild T.m_t.toNat r idx = .ok n1 ∧ n1.nEntries = idx ∧
      vecGet n1.m_Entries idx = .error .outOfBounds ∧
      T.remove e.m_Key = .error .outOfBounds := by
  obtain ⟨ht, hwf2⟩ := hwf
  obtain ⟨hs, ho⟩ := hwf2 r hr
  have hw := Shaped.wellShaped _ _ _ hs
  have hl := hw.internal_of_child hc
  have hh := Shaped.height_eq _ _ _ hs
  have hcm : c ∈ r.m_Children := List.getElem?_mem hc
  have hnm : nx ∈ r.m_Children := List.getElem?_mem hnx
  have hsorted : (keys r.m_Entries).Pairwise (· < ·) := by
    cases r with
    | mk l es cs => simp only [Ordered] at ho; exact ho.1
  have hidx := idxForKey_of_getElem? r.m_Entries hsorted idx e he
  have hi : idx < r.m_Entries.length := by
    rcases List.getElem?_eq_some_iff.mp he with ⟨h, _⟩; exact h
  cases hk : r.height - 1 with
  | zero =>
    rw [hk] at hs
    rw [hs.1] at hl
    cases hl
  | succ h =>
    rw [hk] at hs hh
    obtain ⟨_, _, _, _, hch⟩ := hs
    have hcs := hch c hcm
    have hns := hch nx hnm
    have hnc : c.m_isLeaf = false → nx.nEntries + 1 ≤ nx.m_Children.length := by
      intro hcl
      cases h with
      | zero => rw [hcs.1] at hcl; cases hcl
      | succ h' => exact le_of_eq hns.2.1.symm
    obtain ⟨cc, hm⟩ := mergeWithNextChild_ok T.m_t.toNat (by omega) r c nx idx e hc hnx he
      hcs.lo_le hnc
    have hlen : (r.m_Entries.eraseIdx idx).length = idx := by
      rw [List.length_eraseIdx, if_pos hi]
      unfold nEntries at hlast
      omega
    have hget : vecGet (r.m_Entries.eraseIdx idx) idx = .error .outOfBounds := by
      unfold vecGet
      rw [List.getElem?_eq_none (by omega)]
    refine ⟨_, hm, hlen, hget, ?_⟩
    simp only [BTree.remove, hr, hh]
    rw [BTreeNode.remove]
    simp only [hidx, he, decide_True, if_true, hl, Bool.false_eq_true, if_false]
    unfold removeFromNonLeaf
    simp only [vecGet_eq_ok hc, vecGet_eq_ok hnx, except_ok_bind, ge_iff_le, not_le.mpr hcn,
      not_le.mpr hnn, if_false, hm, m_Entries_mk, hget, except_error_bind]

end Claims11

section Claims12

open BTreeNode BTree Examples

/-- C22, the code on three well-formed trees of degree 2 and a key that is not stored.
On `tree6` the search for 0 enters the leaf `[1]`, which holds one entry, and `fillChild`
merges it with its sibling: the root loses the entry of key 2 and one child. On `tree3`
the same merge empties the root, and the merged leaf becomes the root: the height drops
from 2 to 1. On `tree8` the search for 40 enters the leaf `[30]` and `fillChild` borrows
from the left sibling: the entries of keys 17 and 20 change their nodes. In all three the
traversal stays as it was, the tree does not. -/
theorem C22_counterexample :
    (tree6.WellFormed ∧ tree6.get 0 = .ok none ∧
      tree6.remove 0 = .ok ⟨2, some (node [4] [leaf [1, 2, 3], leaf [5, 6]])⟩ ∧
      tree6.remove 0 ≠ .ok tree6 ∧
      (tree6.remove 0).bind (fun T => T.getAllEntries) = tree6.getAllEntries) ∧
    (tree3.WellFormed ∧ tree3.get 0 = .ok none ∧
      tree3.remove 0 = .ok ⟨2, some (leaf [1, 2, 3])⟩ ∧ tree3.remove 0 ≠ .ok tree3 ∧
      tree3.m_Root.map height = some 2 ∧
      (tree3.remove 0).map (fun T => T.m_Root.map height) = .ok (some 1)) ∧
    (tree8.WellFormed ∧ tree8.get 40 = .ok none ∧
      tree8.remove 40 =
        .ok ⟨2, some (node [10, 17] [leaf [5, 6, 7], leaf [12], leaf [20, 30]])⟩ ∧
      tree8.remove 40 ≠ .ok tree8 ∧
      (tree8.remove 40).bind (fun T => T.getAllEntries) = tree8.getAllEntries) := by
  decide!

end Claims12

section Concrete4

open BTreeNode BTree Examples

/-- Witness for C21 at the example of the claim: degree 2, the root `[2]` over the leaves
`[1]` and `[3]`, which the inserts 1, 2, 3, 4 followed by `remove(4)` leave; `remove(2)`
merges the two leaves, the root is left with no entry, and the read of `m_Entries[0]` is
out of bounds. -/
theorem C21_witness :
    (run (empty 2) (insertKeys [1, 2, 3, 4])).bind (fun T => T.remove 4) = .ok tree3 ∧
    tree3.WellFormed ∧
    ∃ n1, mergeWithNextChild 2 (node [2] [leaf [1], leaf [3]]) 0 = .ok n1 ∧
      n1.nEntries = 0 ∧ vecGet n1.m_Entries 0 = .error .outOfBounds ∧
      tree3.remove 2 = .error .outOfBounds :=
  ⟨rfl, by decide,
    C21_remove_reads_out_of_bounds tree3 (by decide) (node [2] [leaf [1], leaf [3]])
      (leaf [1]) (leaf [3]) ⟨2, 20⟩ 0 rfl rfl rfl rfl rfl (by decide) (by decide)⟩

/-- Witness for C22 on the two sides of the equivalence. In `tree8` the search for the
key 13 enters the leaf `[12, 17]`, which holds two entries: nothing is refilled and the
tree returned is the tree given. In `tree6` the search for the key 0 enters the leaf `[1]`,
which holds one entry: the tree returned is another. -/
theorem C22_witness :
    (tree8.WellFormed ∧ (∀ e ∈ tree8.entries, e.m_Key ≠ 13) ∧
      tree8.noFillOnPath 13 = true ∧
      (tree8.remove 13 = .ok tree8 ↔ tree8.noFillOnPath 13 = true)) ∧
    (tree6.WellFormed ∧ (∀ e ∈ tree6.entries, e.m_Key ≠ 0) ∧
      tree6.noFillOnPath 0 = false ∧
      (tree6.remove 0 = .ok tree6 ↔ tree6.noFillOnPath 0 = true)) :=
  ⟨⟨by decide, by decide, by decide,
      C22_absent_key_unchanged_iff_no_fill tree8 (by decide) 13 (by decide)⟩,
    ⟨by decide, by decide, by decide,
      C22_absent_key_unchanged_iff_no_fill tree6 (by decide) 0 (by decide)⟩⟩

end Concrete4

namespace BTreeNode

section FillSpec

variable {K V : Type}

/-- What a call of `borrowEntryFromPrevChild(idx)` that returns has done to the children
of the node: the child at `idx` has the entry before it in front of its own entries. -/
theorem borrowEntryFromPrevChild_child {rm : K → BTreeNode K V → Except Err (BTreeNode K V)}
    {idx : Nat} {n n1 : BTreeNode K V} (h : borrowEntryFromPrevChild rm n idx = .ok n1) :
    ∃ (im : Nat) (dest : BTreeNode K V) (e : Entry K V) (dc : List (BTreeNode K V))
      (prev : BTreeNode K V),
      idx = im + 1 ∧ n.m_Children[idx]? = some dest ∧ n.m_Entries[im]? = some e ∧
      n1.m_Entries.length = n.m_Entries.length ∧
      n1.m_Children = (n.m_Children.set idx (mk dest.m_isLeaf (e :: dest.m_Entries) dc)).set
        im prev := by
  unfold borrowEntryFromPrevChild at h
  simp only [bind_eq_ok_iff, ite_eq_ok_iff, vecGet_ok_iff, vecSet_eq_ok_iff,
    idxPred_eq_ok_iff, except_pure_eq, Except.ok.injEq] at h
  aesop

/-- What a call of `borrowEntryFromNextChild(idx)` that returns has done to the children
of the node: the child at `idx` has the entry after it behind its own entries. -/
theorem borrowEntryFromNextChild_child {idx : Nat} {n n1 : BTreeNode K V}
    (h : borrowEntryFromNextChild n idx = .ok n1) :
    ∃ (dest : BTreeNode K V) (e : Entry K V) (dc : List (BTreeNode K V))
      (next : BTreeNode K V),
      n.m_Children[idx]? = some dest ∧ n.m_Entries[idx]? = some e ∧
      n1.m_Entries.length = n.m_Entries.length ∧
      n1.m_Children = (n.m_Children.set idx (mk dest.m_isLeaf (dest.m_Entries ++ [e]) dc)).set
        (idx + 1) next := by
  unfold borrowEntryFromNextChild at h
  simp only [bind_eq_ok_iff, ite_eq_ok_iff, vecGet_ok_iff, vecSet_eq_ok_iff,
    vecErase_eq_ok_iff, except_pure_eq, Except.ok.injEq] at h
  aesop

/-- The branch that `fillChild(idx)` takes in a node that has a child for each of its
entries and one more: it borrows from the previous child when that can give an entry away,
else from the next child when that can, else it merges the child with the next one, or
with the previous one when the child is the last. -/
theorem fillChild_select (rm : K → BTreeNode K V → Except Err (BTreeNode K V)) (t : Nat)
    (n : BTreeNode K V) (idx : Nat) (hlen : n.m_Children.length = n.nEntries + 1)
    (hidx : idx ≤ n.nEntries) (h1 : 1 ≤ n.nEntries) :
    fillChild rm t n idx =
      if prevHasSpare t n idx then borrowEntryFromPrevChild rm n idx
      else if nextHasSpare t n idx then borrowEntryFromNextChild n idx
      else if idx ≠ n.nEntries then mergeWithNextChild t n idx
      else mergeWithNextChild t n (idx - 1) := by
  have hp : idx ≠ 0 → ∃ p, n.m_Children[idx - 1]? = some p := by
    intro h0
    exact ⟨_, List.getElem?_eq_getElem (by omega)⟩
  have hn : idx ≠ n.nEntries → ∃ nx, n.m_Children[idx + 1]? = some nx := by
    intro h0
    exact ⟨_, List.getElem?_eq_getElem (by omega)⟩
  unfold fillChild prevHasSpare nextHasSpare
  by_cases h0 : idx = 0
  · subst h0
    by_cases hl : 0 = n.nEntries
    · omega
    · obtain ⟨nx, hnx⟩ := hn hl
      simp [hl, hnx, vecGet_eq_ok hnx, except_pure_eq]
  · obtain ⟨p, hp⟩ := hp h0
    by_cases hl : idx = n.nEntries
    · have hp1 : n.m_Children[n.nEntries - 1]? = some p := hl ▸ hp
      have h01 : ¬ n.nEntries = 0 := by omega
      rw [hl]
      by_cases hpt : t ≤ p.nEntries
      · simp [h01, hp1, vecGet_eq_ok hp1, except_pure_eq, hpt]
      · simp [h01, hp1, vecGet_eq_ok hp1, except_pure_eq, hpt,
          idxPred_of_pos (by omega : 0 < n.nEntries)]
    · obtain ⟨nx, hnx⟩ := hn hl
      simp [h0, hl, hp, hnx, vecGet_eq_ok hp, vecGet_eq_ok hnx, except_pure_eq]

/-- A call of `borrowEntryFromNextChild(idx)` returns when the next child has an entry
and, if one of the two children is internal, a child. -/
theorem borrowEntryFromNextChild_ok (n c nx : BTreeNode K V) (idx : Nat) (e : Entry K V)
    (hc : n.m_Children[idx]? = some c) (hnx : n.m_Children[idx + 1]? = some nx)
    (he : n.m_Entries[idx]? = some e) (hn1 : 1 ≤ nx.nEntries)
    (hnc : 1 ≤ nx.m_Children.length ∨ (c.m_isLeaf = true ∧ nx.m_isLeaf = true)) :
    ∃ n1, borrowEntryFromNextChild n idx = .ok n1 := by
  have hi : idx < n.m_Entries.length := by
    rcases List.getElem?_eq_some_iff.mp he with ⟨h, _⟩; exact h
  have hf : nx.m_Entries[0]? = some (nx.m_Entries[0]) := List.getElem?_eq_getElem hn1
  unfold borrowEntryFromNextChild
  simp only [vecGet_eq_ok hc, vecGet_eq_ok hnx, vecGet_eq_ok he, vecGet_eq_ok hf,
    except_ok_bind, vecSet, vecErase, if_pos hi,
    if_pos (show 0 < nx.m_Entries.length from hn1), except_pure_eq]
  rcases hnc with hnc | ⟨hcl, hnl⟩
  · have hf0 : nx.m_Children[0]? = some (nx.m_Children[0]) := List.getElem?_eq_getElem hnc
    cases c.m_isLeaf <;> cases nx.m_isLeaf <;>
      simp [vecGet_eq_ok hf0, hf, (show 0 < nx.m_Children.length from hnc)]
  · simp [hcl, hnl, hf]

/-- A call of `borrowEntryFromPrevChild(idx)` on leaf children returns when the previous
child has an entry and the removal of its last key from it returns. -/
theorem borrowEntryFromPrevChild_ok_leaf
    (rm : K → BTreeNode K V → Except Err (BTreeNode K V)) (n c p p1 : BTreeNode K V)
    (im : Nat) (e last : Entry K V) (hc : n.m_Children[im + 1]? = some c)
    (hp : n.m_Children[im]? = some p) (he : n.m_Entries[im]? = some e)
    (hl : c.m_isLeaf = true) (hlast : p.m_Entries[p.nEntries - 1]? = some last)
    (hrm : rm last.m_Key p = .ok p1) :
    ∃ n1, borrowEntryFromPrevChild rm n (im + 1) = .ok n1 := by
  have hi : im < n.m_Entries.length := by
    rcases List.getElem?_eq_some_iff.mp he with ⟨h, _⟩; exact h
  have hpn : 0 < p.nEntries := by
    rcases List.getElem?_eq_some_iff.mp hlast with ⟨h, _⟩
    exact Nat.lt_of_le_of_lt (Nat.zero_le _) h
  have him : idxPred (im + 1) = .ok im := rfl
  unfold borrowEntryFromPrevChild
  simp [vecGet_eq_ok hc, vecGet_eq_ok hp, vecGet_eq_ok he, vecGet_eq_ok hlast,
    idxPred_of_pos hpn, him, vecSet, hi, hl, hrm, except_pure_eq]

end FillSpec

end BTreeNode

namespace BTreeNode

section FillSpec2

variable {K V : Type}

theorem prevHasSpare_iff (t : Nat) (n : BTreeNode K V) (idx : Nat) :
    prevHasSpare t n idx = true ↔
      idx ≠ 0 ∧ ∃ p, n.m_Children[idx - 1]? = some p ∧ t ≤ p.nEntries := by
  unfold prevHasSpare
  cases hp : n.m_Children[idx - 1]? <;> simp

theorem nextHasSpare_iff (t : Nat) (n : BTreeNode K V) (idx : Nat) :
    nextHasSpare t n idx = true ↔
      idx ≠ n.nEntries ∧ ∃ nx, n.m_Children[idx + 1]? = some nx ∧ t ≤ nx.nEntries := by
  unfold nextHasSpare
  cases hp : n.m_Children[idx + 1]? <;> simp

/-- The child that `remove` enters after a call of `fillChild(idx)` that returns holds at
least `t` entries when the child at `idx` held `t - 1`: it is the child at `idx`, or the
one at `idx - 1` when the node has fewer than `idx` entries left, which is the case
exactly when the child was the last one and has been merged into the previous child. -/
theorem fillChild_post (rm : K → BTreeNode K V → Except Err (BTreeNode K V)) (t : Nat)
    (ht : 1 ≤ t) (n c n1 : BTreeNode K V) (idx : Nat)
    (hlen : n.m_Children.length = n.nEntries + 1) (h1 : 1 ≤ n.nEntries)
    (hc : n.m_Children[idx]? = some c) (hcn : c.nEntries = t - 1)
    (hf : fillChild rm t n idx = .ok n1) :
    (idx > n1.nEntries ↔ idx = n.nEntries ∧ prevHasSpare t n idx = false) ∧
      ∃ d, n1.m_Children[if idx > n1.nEntries then idx - 1 else idx]? = some d ∧
        t ≤ d.nEntries := by
  have hidx : idx < n.m_Children.length := by
    rcases List.getElem?_eq_some_iff.mp hc with ⟨h, _⟩; exact h
  rw [fillChild_select rm t n idx hlen (by omega) h1] at hf
  unfold nEntries at *
  by_cases hps : prevHasSpare t n idx = true
  · rw [if_pos hps] at hf
    obtain ⟨im, dest, e, dc, prev, him, hd, he, hl1, hch1⟩ := borrowEntryFromPrevChild_child hf
    rw [hc, Option.some.injEq] at hd
    subst hd
    have hgt : ¬ idx > n1.m_Entries.length := by omega
    refine ⟨by simp [hgt, hps], ?_⟩
    rw [if_neg hgt, hch1, List.getElem?_set_ne (by omega),
      List.getElem?_set_self hidx]
    exact ⟨_, rfl, by simp [nEntries]; omega⟩
  · rw [if_neg hps] at hf
    have hps0 : prevHasSpare t n idx = false := by simpa using hps
    by_cases hns : nextHasSpare t n idx = true
    · rw [if_pos hns] at hf
      obtain ⟨dest, e, dc, next, hd, he, hl1, hch1⟩ := borrowEntryFromNextChild_child hf
      rw [hc, Option.some.injEq] at hd
      subst hd
      have hlt : idx ≠ n.m_Entries.length := ((nextHasSpare_iff t n idx).mp hns).1
      have hgt : ¬ idx > n1.m_Entries.length := by omega
      refine ⟨by simp [hgt, hlt], ?_⟩
      rw [if_neg hgt, hch1, List.getElem?_set_ne (by omega),
        List.getElem?_set_self hidx]
      exact ⟨_, rfl, by simp [nEntries]; omega⟩
    · rw [if_neg hns] at hf
      by_cases hl : idx = n.m_Entries.length
      · rw [if_neg (by simpa using hl)] at hf
        obtain ⟨c1, nx, e, cc, hc1, hnx, he, _, hes, hcs⟩ := mergeWithNextChild_inv hf
        have hei : idx - 1 < n.m_Entries.length := by omega
        have hn1 : n1.m_Entries.length = n.m_Entries.length - 1 := by
          rw [hes, List.length_eraseIdx, if_pos hei]
        have hgt : idx > n1.m_Entries.length := by omega
        refine ⟨⟨fun _ => ⟨hl, hps0⟩, fun _ => hgt⟩, ?_⟩
        rw [if_pos hgt, hcs, List.getElem?_set_self
          (by rw [List.length_eraseIdx]; split <;> omega)]
        rw [show idx - 1 + 1 = idx by omega, hc, Option.some.injEq] at hnx
        subst hnx
        refine ⟨_, rfl, ?_⟩
        simp only [nEntries, m_Entries_mk, List.length_append, List.length_cons]
        omega
      · rw [if_pos (by simpa using hl)] at hf
        obtain ⟨c1, nx, e, cc, hc1, hnx, he, _, hes, hcs⟩ := mergeWithNextChild_inv hf
        rw [hc, Option.some.injEq] at hc1
        subst hc1
        have hei : idx < n.m_Entries.length := by omega
        have hn1 : n1.m_Entries.length = n.m_Entries.length - 1 := by
          rw [hes, List.length_eraseIdx, if_pos hei]
        have hgt : ¬ idx > n1.m_Entries.length := by omega
        refine ⟨by simp [hgt, hl], ?_⟩
        rw [if_neg hgt, hcs, List.getElem?_set_self
          (by rw [List.length_eraseIdx]; split <;> omega)]
        refine ⟨_, rfl, ?_⟩
        simp only [nEntries, m_Entries_mk, List.length_append, List.length_cons,
          List.length_take, List.length_drop]
        omega

end FillSpec2

end BTreeNode

namespace BTreeNode

section FillSpec3

variable {K V : Type}

/-- Two nodes at the same level of a well-formed tree are both leaves, or the second has a
child for each of its entries and one more. -/
theorem Shaped.siblings {t lo lo' h : Nat} {c nx : BTreeNode K V} (hc : Shaped t lo h c)
    (hnx : Shaped t lo' h nx) :
    (c.m_isLeaf = true ∧ nx.m_isLeaf = true) ∨
      (c.m_isLeaf = false ∧ nx.m_Children.length = nx.nEntries + 1) := by
  cases h with
  | zero => exact Or.inl ⟨hc.1, hnx.1⟩
  | succ h => exact Or.inr ⟨hc.1, hnx.2.1⟩

/-- A call of `fillChild(idx)` returns in a well-formed internal node when the previous
child cannot give an entry away: the borrow from the next child and the two merges run
through. -/
theorem fillChild_ok_of_no_prev (rm : K → BTreeNode K V → Except Err (BTreeNode K V))
    (t : Nat) (ht : 2 ≤ t) (n c : BTreeNode K V) (h idx : Nat) (hs : Shaped t 1 (h + 1) n)
    (hc : n.m_Children[idx]? = some c) (hps : prevHasSpare t n idx = false) :
    ∃ n1, fillChild rm t n idx = .ok n1 := by
  obtain ⟨_, hlen, h1, _, hch⟩ := hs
  have hidx : idx < n.m_Children.length := by
    rcases List.getElem?_eq_some_iff.mp hc with ⟨h, _⟩; exact h
  have hcs : Shaped t (t - 1) h c := hch c (List.getElem?_mem hc)
  rw [fillChild_select rm t n idx hlen (by omega) h1, hps]
  simp only [Bool.false_eq_true, if_false]
  by_cases hl : idx = n.nEntries
  · have hns : nextHasSpare t n idx = false := by
      cases hn : nextHasSpare t n idx with
      | false => rfl
      | true => exact absurd hl ((nextHasSpare_iff t n idx).mp hn).1
    rw [hns]
    simp only [Bool.false_eq_true, if_false, hl, ne_eq, not_true_eq_false]
    have hpi : n.nEntries - 1 < n.m_Children.length := by omega
    have hei : n.nEntries - 1 < n.m_Entries.length := by unfold nEntries at *; omega
    have hp := List.getElem?_eq_getElem hpi
    have he := List.getElem?_eq_getElem hei
    have hc1 : n.m_Children[n.nEntries - 1 + 1]? = some c := by
      rw [show n.nEntries - 1 + 1 = idx by omega]; exact hc
    have hpsh : Shaped t (t - 1) h (n.m_Children[n.nEntries - 1]) :=
      hch _ (List.getElem?_mem hp)
    obtain ⟨cc, hm⟩ := mergeWithNextChild_ok t (by omega) n _ c _ _ hp hc1 he hpsh.lo_le
      (by
        intro hpl
        rcases Shaped.siblings hpsh hcs with ⟨h1, _⟩ | ⟨_, h2⟩
        · rw [h1] at hpl; cases hpl
        · omega)
    exact ⟨_, hm⟩
  · have hni : idx + 1 < n.m_Children.length := by omega
    have hei : idx < n.m_Entries.length := by unfold nEntries at *; omega
    have hnx := List.getElem?_eq_getElem hni
    have he := List.getElem?_eq_getElem hei
    have hnsh : Shaped t (t - 1) h (n.m_Children[idx + 1]) := hch _ (List.getElem?_mem hnx)
    by_cases hns : nextHasSpare t n idx = true
    · rw [if_pos hns]
      obtain ⟨_, nx, hnx1, hnt⟩ := (nextHasSpare_iff t n idx).mp hns
      rw [hnx, Option.some.injEq] at hnx1
      refine borrowEntryFromNextChild_ok n c _ idx _ hc hnx he (by rw [hnx1]; omega) ?_
      rcases Shaped.siblings hcs hnsh with h1 | ⟨_, h2⟩
      · exact Or.inr h1
      · exact Or.inl (by omega)
    · rw [if_neg hns, if_pos hl]
      obtain ⟨cc, hm⟩ := mergeWithNextChild_ok t (by omega) n c _ idx _ hc hnx he hcs.lo_le
        (by
          intro hpl
          rcases Shaped.siblings hcs hnsh with ⟨h1, _⟩ | ⟨_, h2⟩
          · rw [h1] at hpl; cases hpl
          · omega)
      exact ⟨_, hm⟩

variable [LinearOrder K]

/-- The call `remove(key)` on a leaf with strictly ascending keys that holds the key erases
the entry with the key. -/
theorem remove_leaf_found (t fuel : Nat) (n : BTreeNode K V) (i : Nat) (e : Entry K V)
    (hl : n.m_isLeaf = true) (hs : (keys n.m_Entries).Pairwise (· < ·))
    (he : n.m_Entries[i]? = some e) :
    remove t (fuel + 1) e.m_Key n = .ok (n.withEntries (n.m_Entries.eraseIdx i)) := by
  have hi : i < n.m_Entries.length := by
    rcases List.getElem?_eq_some_iff.mp he with ⟨h, _⟩; exact h
  simp [remove, idxForKey_of_getElem? n.m_Entries hs i e he, he, hl, removeFromLeaf, vecErase,
    hi, except_pure_eq]

/-- A call of `fillChild(idx)` returns in a well-formed node whose children are leaves. -/
theorem fillChild_ok_of_leaves (t : Nat) (ht : 2 ≤ t) (fuel : Nat) (n c : BTreeNode K V)
    (idx : Nat) (hs : Shaped t 1 1 n) (ho : Ordered n) (hc : n.m_Children[idx]? = some c) :
    ∃ n1, fillChild (remove t (fuel + 1)) t n idx = .ok n1 := by
  cases hps : prevHasSpare t n idx with
  | false => exact fillChild_ok_of_no_prev _ t ht n c 0 idx hs hc hps
  | true =>
    obtain ⟨_, hlen, h1, _, hch⟩ := hs
    have hidx : idx < n.m_Children.length := by
      rcases List.getElem?_eq_some_iff.mp hc with ⟨h, _⟩; exact h
    rw [fillChild_select _ t n idx hlen (by omega) h1, hps, if_pos rfl]
    obtain ⟨h0, p, hp, hpt⟩ := (prevHasSpare_iff t n idx).mp hps
    obtain ⟨im, rfl⟩ := Nat.exists_eq_succ_of_ne_zero h0
    simp only [Nat.succ_eq_add_one, Nat.add_sub_cancel] at hp
    have hei : im < n.m_Entries.length := by unfold nEntries at *; omega
    have he := List.getElem?_eq_getElem hei
    have hpl : p.nEntries - 1 < p.m_Entries.length := by unfold nEntries at *; omega
    have hlast := List.getElem?_eq_getElem hpl
    have hpo : Ordered p := ho.child p (List.getElem?_mem hp)
    have hpk : (keys p.m_Entries).Pairwise (· < ·) := by
      cases p with
      | mk l es cs => simp only [Ordered] at hpo; exact hpo.1
    exact borrowEntryFromPrevChild_ok_leaf _ n c p _ im _ _ hc hp he
      (hch c (List.getElem?_mem hc)).1 hlast
      (remove_leaf_found t fuel p _ _ (hch p (List.getElem?_mem hp)).1 hpk hlast)

end FillSpec3

end BTreeNode

section Claims13

open BTreeNode Examples

variable {K V : Type} [LinearOrder K]

/-- C19: in a well-formed internal node `N` (degree `t ≥ 2`, at least one entry, every
child with `t - 1` to `2t - 1` entries, all leaves at one depth) whose child at `idx`
holds exactly `t - 1` entries, `fillChild(idx)` borrows from the previous child when that
holds at least `t` entries, else from the next child when that holds at least `t`
entries, else it merges the child with the next one, or with the previous one when there
is no next one. When the call returns the node `N1`, the child that `remove` enters next,
the one at `idx - 1` when `idx` was the last index and `idx > N1.nEntries()` and the one
at `idx` otherwise, holds at least `t` entries; `idx > N1.nEntries()` holds exactly when
the child was the last one and has been merged into the previous child. The call returns
whenever the previous child cannot give an entry away, and it returns in every case when
the children of `N` are leaves and the keys of `N` are in order. (A borrow from an
internal previous child calls `remove` on that child and returns when that call does.) -/
theorem C19_fillChild_postcondition (t : Nat) (ht : 2 ≤ t)
    (rm : K → BTreeNode K V → Except Err (BTreeNode K V)) (N C : BTreeNode K V)
    (h idx : Nat) (hN : Shaped t 1 (h + 1) N) (hC : N.m_Children[idx]? = some C)
    (hCn : C.nEntries = t - 1) :
    (fillChild rm t N idx =
        if prevHasSpare t N idx then borrowEntryFromPrevChild rm N idx
        else if nextHasSpare t N idx then borrowEntryFromNextChild N idx
        else if idx ≠ N.nEntries then mergeWithNextChild t N idx
        else mergeWithNextChild t N (idx - 1)) ∧
      (∀ N1, fillChild rm t N idx = .ok N1 →
        (idx > N1.nEntries ↔ idx = N.nEntries ∧ prevHasSpare t N idx = false) ∧
        ∃ D, N1.m_Children[if idx = N.nEntries ∧ idx > N1.nEntries then idx - 1 else idx]? =
            some D ∧ t ≤ D.nEntries) ∧
      (prevHasSpare t N idx = false → ∃ N1, fillChild rm t N idx = .ok N1) ∧
      (h = 0 → Ordered N → ∀ fuel, ∃ N1, fillChild (remove t (fuel + 1)) t N idx = .ok N1) := by
  have hidx : idx < N.m_Children.length := by
    rcases List.getElem?_eq_some_iff.mp hC with ⟨h, _⟩; exact h
  have hlen : N.m_Children.length = N.nEntries + 1 := hN.2.1
  have h1 : 1 ≤ N.nEntries := hN.2.2.1
  refine ⟨fillChild_select rm t N idx hlen (by omega) h1, fun N1 hf => ?_,
    fillChild_ok_of_no_prev rm t ht N C h idx hN hC, fun h0 ho fuel => ?_⟩
  · obtain ⟨hiff, D, hD, hDt⟩ :=
      fillChild_post rm t (by omega) N C N1 idx hlen h1 hC hCn hf
    refine ⟨hiff, D, ?_, hDt⟩
    by_cases hgt : idx > N1.nEntries
    · rw [if_pos hgt] at hD
      rw [if_pos ⟨(hiff.mp hgt).1, hgt⟩]
      exact hD
    · rw [if_neg hgt] at hD
      rw [if_neg (fun hh => hgt hh.2)]
      exact hD
  · subst h0
    exact fillChild_ok_of_leaves t ht fuel N C idx hN ho hC

end Claims13

section Concrete5

open BTreeNode Examples

/-- C19 on the root `[10, 20]` over the leaves `[5, 6, 7]`, `[12, 17]`, `[30]` with
`t = 2`: `fillChild(2)` borrows from the previous child and the last child holds 20 and
30 afterwards. -/
theorem C19_witness :
    ((2 : Nat) ≤ 2 ∧
      Shaped 2 1 1 (node [10, 20] [leaf [5, 6, 7], leaf [12, 17], leaf [30]]) ∧
      (node [10, 20] [leaf [5, 6, 7], leaf [12, 17], leaf [30]]).m_Children[2]? =
        some (leaf [30]) ∧
      (leaf [30]).nEntries = 2 - 1) ∧
      fillChild (remove 2 1) 2 (node [10, 20] [leaf [5, 6, 7], leaf [12, 17], leaf [30]]) 2 =
        .ok (node [10, 17] [leaf [5, 6, 7], leaf [12], leaf [20, 30]]) ∧
      ∃ D, (node [10, 17] [leaf [5, 6, 7], leaf [12], leaf [20, 30]]).m_Children[2]? = some D ∧
        2 ≤ D.nEntries := by
  have hf : fillChild (remove 2 1) 2
      (node [10, 20] [leaf [5, 6, 7], leaf [12, 17], leaf [30]]) 2 =
      .ok (node [10, 17] [leaf [5, 6, 7], leaf [12], leaf [20, 30]]) := by decide
  obtain ⟨_, D, hD, hDt⟩ := (C19_fillChild_postcondition 2 (by decide) (remove 2 1)
    (node [10, 20] [leaf [5, 6, 7], leaf [12, 17], leaf [30]]) (leaf [30]) 0 2
    (by decide) (by decide) (by decide)).2.1 _ hf
  exact ⟨⟨by decide, by decide, by decide, by decide⟩, hf, D, hD, hDt⟩

end Concrete5
